import Mathlib

/-! dcvmstools: a shallow embedding of the VMS filesystem driver.

The definitions below follow `dcvmstools.c` / `dcvmstools.h` function by function.

* 16-bit and 8-bit machine values are natural numbers; `le16toh` / `htole16` are the
  identity on values, and the byte layout only appears where blocks are written to the image.
* `int` results that use `-1` as "none" (`vms_nextblock`) are `Option Nat`.
* Functions that set `errno` and return `-1` / `NULL` return `Except Errno _`; when the C
  function has already mutated the cached structures before failing, the mutated state is
  returned next to the error.
* The backing image `vms_fd` is a map from block number to the content of that block, and
  every `lseek` / `read` / `write` on a block number `0..255` succeeds. The definitions with
  the suffix `_dev` repeat the write path of `dcvmtool_cmd_put` for a device on which a
  `write` of the payload can fail; without failures they are the definitions without suffix.
* `size_t` values are natural numbers. The one sum formed on them, `size + VMS_BLOCKSIZE - 1`
  in `vmsfs_writefile`, is formed in the natural numbers in `vmsfs_writefile` and modulo
  `SIZE_MAX + 1` (64-bit `size_t`), as in C, in `vmsfs_writefile_size_t`. The two definitions
  agree when the sum does not exceed `SIZE_MAX` (`vmsfs_writefile_size_t_eq`), as it does
  for the size of a host file, which is all `dcvmtool_cmd_put` passes.
* C loops are structural recursions on a fuel argument that is at least the number of
  iterations the loop can make; the loop conditions are kept as written.
-/

namespace Dcvmstools

/-! ## Constants of `dcvmstools.h` -/

abbrev VMS_BLOCKSIZE : Nat := 512
abbrev VMS_ROOTBLOCKNO : Nat := 255
abbrev VMS_MAXBLOCKNO : Nat := 255
abbrev VMS_NUM_BLOCKS : Nat := 256
abbrev BLOCK_UNALLOCATED : Nat := 0xfffc
abbrev BLOCK_LAST : Nat := 0xfffa
abbrev DIR_TYPE_NONE : Nat := 0x00
abbrev DIR_TYPE_DATA : Nat := 0x33
abbrev DIR_TYPE_GAME : Nat := 0xcc
abbrev DIR_ATTR_COPIABLE : Nat := 0x00
abbrev DIR_ATTR_PROHIBIT : Nat := 0xff
abbrev DIR_NAMELEN : Nat := 12
abbrev VMSFS_DIR_NENTRIES_PER_BLOCK : Nat := 16

/-- The `errno` values the driver sets. -/
inductive Errno where
  | ENOENT
  | ENAMETOOLONG
  | EINVAL
  | ENOSPC
  | ENXIO
  | ESPIPE
deriving DecidableEq, Repr

/-! ## Allocation table -/

/-- Slot `i` of `struct vmsfs_fat`: `le16toh(vms_fatblk->block[i])`. -/
def fat_get (fat : List Nat) (i : Nat) : Nat := fat.getD i 0

/-- The assignment `vms_fatblk->block[i] = htole16(v)`. -/
def fat_set (fat : List Nat) (i : Nat) (v : Nat) : List Nat := fat.set i v

/-- Source: `vms_nextblock`; `none` is the C result `-1`. -/
def vms_nextblock (fat : List Nat) (blkno : Nat) : Option Nat :=
  if blkno > VMS_MAXBLOCKNO then none
  else
    let nextblk := fat_get fat blkno
    if nextblk = BLOCK_UNALLOCATED then none
    else if nextblk = BLOCK_LAST then none
    else some nextblk

/-- Source: the counting loop of `vms_getfreeblock`, `for (i = 0; i <= VMS_MAXBLOCKNO; i++)`. -/
def vms_getfreeblock (fat : List Nat) : Nat :=
  (List.range (VMS_MAXBLOCKNO + 1)).countP (fun i => fat_get fat i = BLOCK_UNALLOCATED)

/-- Source: the loop of `vms_allocate_fat`,
`for (i = 0; nblock > 0 && i <= VMS_MAXBLOCKNO; i++)`, from loop state `(i, nblock, blk)`.
The first argument is fuel. -/
def vms_allocate_fat_loop : Nat → Nat → Nat → Nat → List Nat → List Nat × Nat
  | 0, _, _, blk, fat => (fat, blk)
  | fuel + 1, i, nblock, blk, fat =>
    if nblock > 0 ∧ i ≤ VMS_MAXBLOCKNO then
      if fat_get fat i = BLOCK_UNALLOCATED then
        vms_allocate_fat_loop fuel (i + 1) (nblock - 1) i (fat_set fat i blk)
      else
        vms_allocate_fat_loop fuel (i + 1) nblock blk fat
    else (fat, blk)

/-- Source: `vms_allocate_fat`. The result is the table after the call and either the head
block of the new chain or the error. -/
def vms_allocate_fat (fat : List Nat) (nblock : Nat) : List Nat × Except Errno Nat :=
  let nfreeblk := vms_getfreeblock fat
  if nblock > nfreeblk then (fat, .error Errno.ENOSPC)
  else
    let r := vms_allocate_fat_loop (VMS_MAXBLOCKNO + 1) 0 nblock BLOCK_LAST fat
    (r.1, .ok r.2)

/-- The standard empty card: blocks 0..240 free, the directory chain 253 → 252 → … → 241,
the table block 254 and the root block 255. -/
def emptyFat : List Nat :=
  List.replicate 241 BLOCK_UNALLOCATED ++ [BLOCK_LAST] ++
    (List.range 12).map (fun i => 241 + i) ++ [BLOCK_LAST, BLOCK_LAST]

/-! ## Directory entries, root block and the session state -/

/-- Source: `struct vmsfs_dirent` (32 bytes); `timestamp` is `bcd[8]`. -/
structure vmsfs_dirent where
  type : Nat
  attr : Nat
  block : Nat
  name : List Nat
  timestamp : List Nat
  size : Nat
  header_block_offset : Nat
  reserved : List Nat
deriving DecidableEq, Repr, Inhabited

/-- Source: the fields of `struct vmsfs_root` that the driver reads. -/
structure vmsfs_root where
  fat_blockno : Nat
  fat_nblocksize : Nat
  directory_blockno : Nat
  directory_blocksize : Nat
  icon_block : Nat
  user_blocks : Nat
deriving DecidableEq, Repr, Inhabited

/-- The globals of the driver once `vms_load_dir` has run: the image behind `vms_fd`
(block number to block content) and the cached `vms_rootblk`, `vms_fatblk`, `vms_dirblk`. -/
structure Vms where
  vms_fd : Nat → List Nat
  vms_rootblk : vmsfs_root
  vms_fatblk : List Nat
  vms_dirblk : List vmsfs_dirent

/-- Entry `vms_dirblk->entries[i]`. -/
def dir_get (dir : List vmsfs_dirent) (i : Nat) : vmsfs_dirent := dir.getD i default

/-- Number of directory slots, `VMSFS_DIR_NENTRIES_PER_BLOCK * dir_blksize`. -/
def dir_nentries (s : Vms) : Nat :=
  VMSFS_DIR_NENTRIES_PER_BLOCK * s.vms_rootblk.directory_blocksize

/-! ## Block transfer -/

/-- One `write(vms_fd, buf, VMS_BLOCKSIZE)` after `lseek` to block `blk`. -/
def fd_write (fd : Nat → List Nat) (blk : Nat) (data : List Nat) : Nat → List Nat :=
  fun b => if b = blk then data else fd b

/-- The `VMS_BLOCKSIZE` bytes at `buf + VMS_BLOCKSIZE * k`. -/
def buf_chunk (buf : List Nat) (k : Nat) : List Nat :=
  (buf.drop (VMS_BLOCKSIZE * k)).take VMS_BLOCKSIZE

/-- Source: the `for` loop of `vms_readwrite_blocks` from loop state `(blk, nblkread)`.
In write mode `buf` is the source and the image changes; in read mode the blocks read are
appended to `out`. The first argument after `writemode` is fuel. -/
def vms_readwrite_loop (fat buf : List Nat) (nblk : Nat) (writemode : Bool) :
    Nat → Nat → Nat → (Nat → List Nat) → List Nat → (Nat → List Nat) × List Nat × Nat
  | 0, _, nblkread, fd, out => (fd, out, nblkread)
  | fuel + 1, blk, nblkread, fd, out =>
    if blk ≤ VMS_MAXBLOCKNO then
      let fd1 := if writemode then fd_write fd blk (buf_chunk buf nblkread) else fd
      let out1 := if writemode then out else out ++ fd blk
      if nblkread + 1 ≥ nblk then (fd1, out1, nblkread + 1)
      else vms_readwrite_loop fat buf nblk writemode fuel (fat_get fat blk) (nblkread + 1) fd1 out1
    else (fd, out, nblkread)

/-- Source: `vms_readwrite_blocks`. Returns the image, the bytes read, and the result. -/
def vms_readwrite_blocks (fat : List Nat) (fd : Nat → List Nat) (buf : List Nat)
    (startblk nblk : Nat) (writemode : Bool) :
    (Nat → List Nat) × List Nat × Except Errno Unit :=
  let r := vms_readwrite_loop fat buf nblk writemode (nblk + 1) startblk 0 fd []
  if r.2.2 ≠ nblk then (r.1, r.2.1, .error Errno.ENXIO)
  else (r.1, r.2.1, .ok ())

/-- Source: `vms_read_blocks`. -/
def vms_read_blocks (fat : List Nat) (fd : Nat → List Nat) (startblk nblk : Nat) :
    Except Errno (List Nat) :=
  let r := vms_readwrite_blocks fat fd [] startblk nblk false
  match r.2.2 with
  | .ok _ => .ok r.2.1
  | .error e => .error e

/-- Source: `vms_write_blocks`. The image is returned also when the call fails. -/
def vms_write_blocks (fat : List Nat) (fd : Nat → List Nat) (buf : List Nat)
    (startblk nblk : Nat) : (Nat → List Nat) × Except Errno Unit :=
  let r := vms_readwrite_blocks fat fd buf startblk nblk true
  (r.1, r.2.2)

/-! ## Persisting the cached structures -/

/-- A 16-bit value in little-endian byte order. -/
def le16 (v : Nat) : List Nat := [v % 256, v / 256 % 256]

/-- The 512 bytes of `*vms_fatblk`. -/
def fat_bytes (fat : List Nat) : List Nat := (fat.map le16).flatten

/-- The 32 bytes of one `struct vmsfs_dirent`. -/
def dirent_bytes (d : vmsfs_dirent) : List Nat :=
  [d.type, d.attr] ++ le16 d.block ++ d.name ++ d.timestamp ++ le16 d.size ++
    le16 d.header_block_offset ++ d.reserved

/-- The bytes of `*vms_dirblk`. -/
def dir_bytes (dir : List vmsfs_dirent) : List Nat := (dir.map dirent_bytes).flatten

/-- Source: `vms_save_fat`. -/
def vms_save_fat (s : Vms) : Vms × Except Errno Unit :=
  let r := vms_write_blocks s.vms_fatblk s.vms_fd (fat_bytes s.vms_fatblk)
    s.vms_rootblk.fat_blockno 1
  ({ s with vms_fd := r.1 }, r.2)

/-- Source: `vms_save_dir`. -/
def vms_save_dir (s : Vms) : Vms × Except Errno Unit :=
  let dir_blkno := s.vms_rootblk.directory_blockno
  let dir_blksize := s.vms_rootblk.directory_blocksize
  let r := vms_write_blocks s.vms_fatblk s.vms_fd (dir_bytes s.vms_dirblk) dir_blkno dir_blksize
  ({ s with vms_fd := r.1 }, r.2)

/-! ## C strings -/

/-- Source: `tolower` in the "C" locale (the program never calls `setlocale`). -/
def tolower (c : Nat) : Nat := if 65 ≤ c ∧ c ≤ 90 then c + 32 else c

/-- Source: `toupper` in the "C" locale. -/
def toupper (c : Nat) : Nat := if 97 ≤ c ∧ c ≤ 122 then c - 32 else c

/-- Source: `isalnum` in the "C" locale. -/
def isalnum (c : Nat) : Bool :=
  (48 ≤ c ∧ c ≤ 57) ∨ (65 ≤ c ∧ c ≤ 90) ∨ (97 ≤ c ∧ c ≤ 122)

/-- Source: `strlen`. A C string is given by its bytes; the end of the list and a zero
byte both terminate it. -/
def strlen (s : List Nat) : Nat := (s.takeWhile (fun c => c ≠ 0)).length

/-- Source: `strcasecmp` on two C strings. -/
def strcasecmp : List Nat → List Nat → Int
  | [], s2 => (0 : Int) - (tolower (s2.headD 0) : Int)
  | c1 :: s1, s2 =>
    if tolower c1 = tolower (s2.headD 0) then
      if c1 = 0 then 0 else strcasecmp s1 s2.tail
    else (tolower c1 : Int) - (tolower (s2.headD 0) : Int)

/-! ## Directory operations -/

/-- Source: `vms_dirent_filenamecmp`. -/
def vms_dirent_filenamecmp (dp : vmsfs_dirent) (filename : List Nat) : Int :=
  strcasecmp (dp.name ++ [0]) filename

/-- Source: the `for` loop of `vms_dirent_alloc`; the first argument is the number of slots
left to examine. -/
def vms_dirent_alloc_loop (dir : List vmsfs_dirent) : Nat → Nat → Option Nat
  | 0, _ => none
  | n + 1, i =>
    if (dir_get dir i).type = DIR_TYPE_NONE then some i
    else vms_dirent_alloc_loop dir n (i + 1)

/-- Source: `vms_dirent_alloc`; the result is the index of the slot. -/
def vms_dirent_alloc (s : Vms) : Except Errno Nat :=
  match vms_dirent_alloc_loop s.vms_dirblk (dir_nentries s) 0 with
  | some i => .ok i
  | none => .error Errno.ENOSPC

/-- Source: the `for` loop of `vms_dirent_lookup`; the first argument is the number of slots
left to examine. -/
def vms_dirent_lookup_loop (dir : List vmsfs_dirent) (filename : List Nat) :
    Nat → Nat → Option Nat
  | 0, _ => none
  | n + 1, i =>
    if (dir_get dir i).type = DIR_TYPE_NONE then vms_dirent_lookup_loop dir filename n (i + 1)
    else if vms_dirent_filenamecmp (dir_get dir i) filename = 0 then some i
    else vms_dirent_lookup_loop dir filename n (i + 1)

/-- Source: `vms_dirent_lookup`; the result is the index of the slot. -/
def vms_dirent_lookup (s : Vms) (filename : List Nat) : Except Errno Nat :=
  if strlen filename > DIR_NAMELEN then .error Errno.ENOENT
  else
    match vms_dirent_lookup_loop s.vms_dirblk filename (dir_nentries s) 0 with
    | some i => .ok i
    | none => .error Errno.ENOENT

/-! ## Delete -/

/-- Source: the chain-freeing `for` loop of `vmsfs_unlink` from loop state `blk`. The result
is the table and whether the loop ran to its end (`.ok`) or returned on an illegal block
number; `none` means the fuel (first argument) ran out. -/
def vmsfs_unlink_loop : Nat → List Nat → Nat → Option (List Nat × Except Errno Unit)
  | 0, _, _ => none
  | fuel + 1, fat, blk =>
    let nextblk := vms_nextblock fat blk
    if blk > VMS_MAXBLOCKNO then some (fat, .error Errno.ENXIO)
    else
      let fat1 := fat_set fat blk BLOCK_UNALLOCATED
      match nextblk with
      | none => some (fat1, .ok ())
      | some b => vmsfs_unlink_loop fuel fat1 b

/-- Source: `vmsfs_unlink`. Each pass of the loop that continues turns a slot that was not
`BLOCK_UNALLOCATED` into `BLOCK_UNALLOCATED`, so 257 passes are enough for 256 slots. -/
def vmsfs_unlink (s : Vms) (file : List Nat) : Vms × Except Errno Unit :=
  match vms_dirent_lookup s file with
  | .error _ => (s, .error Errno.ENOENT)
  | .ok dp =>
    match vmsfs_unlink_loop (VMS_NUM_BLOCKS + 1) s.vms_fatblk (dir_get s.vms_dirblk dp).block with
    | none => (s, .error Errno.ENXIO)
    | some (fat, .error e) => ({ s with vms_fatblk := fat }, .error e)
    | some (fat, .ok _) =>
      let s1 : Vms := { s with
        vms_fatblk := fat
        vms_dirblk := s.vms_dirblk.set dp { dir_get s.vms_dirblk dp with type := DIR_TYPE_NONE } }
      let s2 := (vms_save_dir s1).1
      let s3 := (vms_save_fat s2).1
      (s3, .ok ())

/-! ## Read -/

/-- Source: `vms_loadfile`; the result is the buffer, whose length is the size reported
through `sizep`. -/
def vms_loadfile (s : Vms) (filename : List Nat) : Except Errno (List Nat) :=
  match vms_dirent_lookup s filename with
  | .error e => .error e
  | .ok dp =>
    let startblk := (dir_get s.vms_dirblk dp).block
    let nblk := (dir_get s.vms_dirblk dp).size
    vms_read_blocks s.vms_fatblk s.vms_fd startblk nblk

/-! ## Write -/

/-- Source: `vmsfs_regular_name`, positions `i ..` of the 12-character result; the first
argument is `DIR_NAMELEN - i`. -/
def vmsfs_regular_name_loop (filename : List Nat) : Nat → Nat → List Nat
  | 0, _ => []
  | n + 1, i =>
    let ch := toupper (filename.getD i 0 % 256)
    if ch = 0 then List.replicate (n + 1) 95
    else
      (if ¬ isalnum ch ∧ ch ≠ 95 ∧ ch ≠ 46 then 95 else ch) ::
        vmsfs_regular_name_loop filename n (i + 1)

/-- Source: `vmsfs_regular_name`: the 12 characters stored in `vmsname`. -/
def vmsfs_regular_name (filename : List Nat) : List Nat :=
  vmsfs_regular_name_loop filename DIR_NAMELEN 0

/-- Source: the fields of `struct tm` that `vmsfs_unixtime2bcdtimestamp` reads from the
result of `localtime`. -/
structure Tm where
  tm_year : Int
  tm_mon : Int
  tm_mday : Int
  tm_hour : Int
  tm_min : Int
  tm_sec : Int
deriving DecidableEq, Repr, Inhabited

/-- Source: the macro `DEC2BCD`, `(uint8_t)((((d) / 10) << 4) | ((d) % 10))` on an `int`. -/
def DEC2BCD (d : Int) : Nat :=
  (Int.lor (Int.tdiv d 10 * 16) (Int.tmod d 10) % 256).toNat

/-- Source: `vmsfs_unixtime2bcdtimestamp`, writing `bcd[0..6]` of the timestamp `ts`. -/
def vmsfs_unixtime2bcdtimestamp (ts : List Nat) (tm : Tm) : List Nat :=
  [DEC2BCD (Int.tdiv (tm.tm_year + 1900) 100), DEC2BCD (Int.tmod tm.tm_year 100),
   DEC2BCD (tm.tm_mon + 1), DEC2BCD tm.tm_mday, DEC2BCD tm.tm_hour, DEC2BCD tm.tm_min,
   DEC2BCD tm.tm_sec] ++ ts.drop 7

/-- Source: `vmsfs_writefile`. The state is returned also on failure, since the directory
slot and the table may already have been changed; the result is the index of the slot. The
sum `size + VMS_BLOCKSIZE - 1` is formed in the natural numbers, which is the C value for
every `size` up to `SIZE_MAX - 511`; `vmsfs_writefile_size_t` forms it in `size_t`. -/
def vmsfs_writefile (s : Vms) (filename : List Nat) (buf : List Nat) (size : Nat) (mtime : Tm) :
    Vms × Except Errno Nat :=
  if strlen filename > DIR_NAMELEN then (s, .error Errno.ENAMETOOLONG)
  else if size = 0 then (s, .error Errno.EINVAL)
  else
    let nblk := (size + VMS_BLOCKSIZE - 1) / VMS_BLOCKSIZE
    if nblk > VMS_MAXBLOCKNO then (s, .error Errno.ENOSPC)
    else
      match vms_dirent_alloc s with
      | .error e => (s, .error e)
      | .ok dp =>
        let d0 : vmsfs_dirent :=
          { type := 0, attr := 0, block := 0, name := List.replicate DIR_NAMELEN 0,
            timestamp := List.replicate 8 0, size := 0, header_block_offset := 0,
            reserved := List.replicate 4 0 }
        let d1 : vmsfs_dirent :=
          { d0 with
            type := DIR_TYPE_DATA
            attr := DIR_ATTR_COPIABLE
            name := vmsfs_regular_name filename
            timestamp := vmsfs_unixtime2bcdtimestamp d0.timestamp mtime
            size := nblk % 65536
            header_block_offset := 0 }
        let r := vms_allocate_fat s.vms_fatblk nblk
        let s1 : Vms := { s with vms_fatblk := r.1, vms_dirblk := s.vms_dirblk.set dp d1 }
        match r.2 with
        | .error e => (s1, .error e)
        | .ok startblk =>
          let s2 : Vms :=
            { s1 with vms_dirblk := s.vms_dirblk.set dp { d1 with block := startblk % 65536 } }
          let w := vms_write_blocks s2.vms_fatblk s2.vms_fd buf startblk nblk
          let s3 : Vms := { s2 with vms_fd := w.1 }
          match w.2 with
          | .error e => (s3, .error e)
          | .ok _ => (s3, .ok dp)

/-- Source: `readfile`: the `size` bytes of the host file in a zero-filled buffer of whole
blocks; `fread` of a zero-size item returns 0, so an empty file yields `NULL`. -/
def readfile (content : List Nat) : Option (List Nat) :=
  let size := content.length
  let padsize := (size + VMS_BLOCKSIZE - 1) / VMS_BLOCKSIZE * VMS_BLOCKSIZE
  if size = 0 then none
  else some (content ++ List.replicate (padsize - size) 0)

/-- Source: `dcvmtool_cmd_put` after option parsing, for a host file named `filename` with
the given content and modification time. The second component is the exit status: 0 for
`return 0` and 1 for the exit through `err(1, ...)`. -/
def dcvmtool_cmd_put (s : Vms) (filename : List Nat) (content : List Nat) (mtime : Tm) :
    Vms × Nat :=
  let size := content.length
  match readfile content with
  | none => (s, 1)
  | some buf =>
    let s1 := (vmsfs_unlink s filename).1
    let r := vmsfs_writefile s1 filename buf size mtime
    match r.2 with
    | .error _ => (r.1, 1)
    | .ok _ =>
      let s2 := (vms_save_fat r.1).1
      let s3 := (vms_save_dir s2).1
      (s3, 0)

/-! ## Vocabulary of the statements -/

/-- Indices of the free slots of the table, in ascending order. -/
def freeSlots (fat : List Nat) : List Nat :=
  (List.range (VMS_MAXBLOCKNO + 1)).filter (fun i => fat_get fat i = BLOCK_UNALLOCATED)

/-- Blocks visited when following `vms_nextblock` from `blk`, at most `fuel` of them. -/
def fat_chain (fat : List Nat) : Nat → Nat → List Nat
  | 0, _ => []
  | fuel + 1, blk =>
    blk :: (match vms_nextblock fat blk with
      | none => []
      | some b => fat_chain fat fuel b)

/-- The value reached from `blk` after `k` raw links `blk = fat[blk]`. -/
def chain_at (fat : List Nat) : Nat → Nat → Nat
  | 0, blk => blk
  | k + 1, blk => chain_at fat k (fat_get fat blk)

/-- The first `n` values of the raw walk from `blk`. -/
def chain_blocks (fat : List Nat) : Nat → Nat → List Nat
  | 0, _ => []
  | n + 1, blk => blk :: chain_blocks fat n (fat_get fat blk)

/-- The chain from `blk` has exactly `n` blocks with numbers `0..255` and then `BLOCK_LAST`. -/
def chain_ok (fat : List Nat) : Nat → Nat → Bool
  | 0, blk => decide (blk = BLOCK_LAST)
  | n + 1, blk => decide (blk ≤ VMS_MAXBLOCKNO) && chain_ok fat n (fat_get fat blk)

/-! ## A concrete card -/

/-- The root block fields of a standard card. -/
def stdRoot : vmsfs_root :=
  { fat_blockno := 254, fat_nblocksize := 1, directory_blockno := 253,
    directory_blocksize := 13, icon_block := 0, user_blocks := 200 }

/-- An empty directory slot. -/
def emptyDirent : vmsfs_dirent :=
  { type := 0, attr := 0, block := 0, name := List.replicate 12 0,
    timestamp := List.replicate 8 0, size := 0, header_block_offset := 0,
    reserved := List.replicate 4 0 }

/-- The root block of a standard card: the fields of `stdRoot` at `+0x46 .. +0x51`. -/
def stdRootBytes : List Nat :=
  List.replicate 0x46 0 ++ [254, 0, 1, 0, 253, 0, 13, 0, 0, 0, 200, 0] ++
    List.replicate 430 0

/-- The image of an empty standard card: root block 255, table block 254, all else zero. -/
def emptyImage : Nat → List Nat :=
  fun b => if b = 255 then stdRootBytes
    else if b = 254 then (emptyFat.map (fun v => [v % 256, v / 256 % 256])).flatten
    else List.replicate 512 0

/-- The session state on an empty standard card, as loaded from `emptyImage`. -/
def emptyCard : Vms :=
  { vms_fd := emptyImage
    vms_rootblk := stdRoot
    vms_fatblk := emptyFat
    vms_dirblk := List.replicate 208 emptyDirent }

/-- The name `TEST`. -/
def nameTEST : List Nat := [84, 69, 83, 84]

/-- A modification time, 2021-06-15 12:34:56. -/
def tm0 : Tm :=
  { tm_year := 121, tm_mon := 5, tm_mday := 15, tm_hour := 12, tm_min := 34, tm_sec := 56 }

deriving instance DecidableEq for Except

/-- Linking the slots `fs` one after the other, each to the one before it. -/
def linkChain : List Nat → Nat → List Nat → List Nat × Nat
  | [], blk, fat => (fat, blk)
  | f :: fs, blk, fat => linkChain fs f (fat_set fat f blk)

/-- Writing consecutive chunks of `buf`, from chunk `k` on, to the blocks `bs` in order. -/
def write_chunks (buf : List Nat) : List Nat → Nat → (Nat → List Nat) → (Nat → List Nat)
  | [], _, fd => fd
  | b :: bs, k, fd => write_chunks buf bs (k + 1) (fd_write fd b (buf_chunk buf k))

/-- The concatenated content of the blocks `bs`. -/
def read_chunks (fd : Nat → List Nat) (bs : List Nat) : List Nat := (bs.map fd).flatten

/-- Setting every slot of `bs` to `BLOCK_UNALLOCATED`. -/
def free_blocks (fat : List Nat) (bs : List Nat) : List Nat :=
  bs.foldl (fun f x => fat_set f x BLOCK_UNALLOCATED) fat

/-- Slot `i` is occupied and its name compares equal to `filename`. -/
def dirent_matches (dir : List vmsfs_dirent) (filename : List Nat) (i : Nat) : Prop :=
  (dir_get dir i).type ≠ DIR_TYPE_NONE ∧ vms_dirent_filenamecmp (dir_get dir i) filename = 0

instance (dir : List vmsfs_dirent) (filename : List Nat) (i : Nat) :
    Decidable (dirent_matches dir filename i) := by
  unfold dirent_matches; infer_instance

/-- The first index `j` with `i ≤ j < i + n` at which `p` holds. -/
def first_index (p : Nat → Bool) : Nat → Nat → Option Nat
  | 0, _ => none
  | n + 1, i => if p i then some i else first_index p n (i + 1)

/-- The directory entry that `vmsfs_writefile` leaves in the slot it allocated. -/
def written_dirent (filename : List Nat) (nblk : Nat) (mtime : Tm) (startblk : Nat) :
    vmsfs_dirent :=
  { type := DIR_TYPE_DATA, attr := DIR_ATTR_COPIABLE, block := startblk,
    name := vmsfs_regular_name filename,
    timestamp := vmsfs_unixtime2bcdtimestamp (List.replicate 8 0) mtime,
    size := nblk, header_block_offset := 0, reserved := List.replicate 4 0 }

/-- The number of blocks `vmsfs_writefile` computes for `size` bytes. -/
def nblk_of_size (size : Nat) : Nat := (size + VMS_BLOCKSIZE - 1) / VMS_BLOCKSIZE

/-- The cached structures have the sizes they are allocated with: 256 table slots and
`16 * dir_blksize` directory slots. -/
def Loaded (s : Vms) : Prop :=
  s.vms_fatblk.length = VMS_NUM_BLOCKS ∧ s.vms_dirblk.length = dir_nentries s

/-- The first `size` blocks of the chain of directory slot `i`. -/
def entry_chain (s : Vms) (i : Nat) : List Nat :=
  chain_blocks s.vms_fatblk (dir_get s.vms_dirblk i).size (dir_get s.vms_dirblk i).block

/-- Chain integrity: the chain of every occupied slot has exactly `size` blocks `0..255`
and then `BLOCK_LAST`. -/
def ChainsOk (s : Vms) : Prop :=
  ∀ i, i < dir_nentries s → (dir_get s.vms_dirblk i).type ≠ DIR_TYPE_NONE →
    chain_ok s.vms_fatblk (dir_get s.vms_dirblk i).size (dir_get s.vms_dirblk i).block = true

/-- The chains of distinct occupied slots share no block. -/
def ChainsDisjoint (s : Vms) : Prop :=
  ∀ i, i < dir_nentries s → (dir_get s.vms_dirblk i).type ≠ DIR_TYPE_NONE →
    ∀ j, j < dir_nentries s → i ≠ j → (dir_get s.vms_dirblk j).type ≠ DIR_TYPE_NONE →
    ∀ x, x ∈ entry_chain s i → x ∉ entry_chain s j

/-- Sum of the block counts of the occupied directory slots (`total_blksize` of
`dcvmtool_cmd_dir`). -/
def total_blksize (s : Vms) : Nat :=
  (s.vms_dirblk.map (fun d => if d.type = DIR_TYPE_NONE then 0 else d.size)).sum

instance (s : Vms) : Decidable (Loaded s) := by unfold Loaded; infer_instance

instance (s : Vms) : Decidable (ChainsOk s) := by unfold ChainsOk; infer_instance

set_option synthInstance.maxSize 2000 in
set_option synthInstance.maxHeartbeats 200000 in
instance (s : Vms) : Decidable (ChainsDisjoint s) := by unfold ChainsDisjoint; infer_instance

/-- The buffer `readfile` builds for a non-empty host file. -/
def padded (content : List Nat) : List Nat :=
  content ++ List.replicate (nblk_of_size content.length * VMS_BLOCKSIZE - content.length) 0

/-- Block `x` is reached from `b` by following `vms_nextblock` zero or more times. -/
inductive Reach (fat : List Nat) : Nat → Nat → Prop where
  | refl (b : Nat) : Reach fat b b
  | step (b c x : Nat) : vms_nextblock fat b = some c → Reach fat c x → Reach fat b x

/-- Every occupied slot describes a file of at least one block. -/
def SizesPos (s : Vms) : Prop :=
  ∀ i, i < dir_nentries s → (dir_get s.vms_dirblk i).type ≠ DIR_TYPE_NONE →
    1 ≤ (dir_get s.vms_dirblk i).size

/-- The blocks that hold the root block, the table and the directory. -/
def sys_blocks (s : Vms) : List Nat :=
  VMS_ROOTBLOCKNO :: s.vms_rootblk.fat_blockno ::
    chain_blocks s.vms_fatblk s.vms_rootblk.directory_blocksize s.vms_rootblk.directory_blockno

/-- The system blocks are neither free nor on the chain of a file. -/
def SysBlocksOk (s : Vms) : Prop :=
  ∀ b, b ∈ sys_blocks s → fat_get s.vms_fatblk b ≠ BLOCK_UNALLOCATED ∧
    ∀ i, i < dir_nentries s → (dir_get s.vms_dirblk i).type ≠ DIR_TYPE_NONE →
      b ∉ entry_chain s i

instance (s : Vms) : Decidable (SizesPos s) := by unfold SizesPos; infer_instance

instance (s : Vms) : Decidable (SysBlocksOk s) := by unfold SysBlocksOk; infer_instance

/-- The name `TEST` in normalized form, `TEST________`. -/
def name12 : List Nat := [84, 69, 83, 84, 95, 95, 95, 95, 95, 95, 95, 95]

/-- A payload of 1000 bytes. -/
def payload1000 : List Nat := (List.range 1000).map (fun i => i % 251)

/-- A directory entry of type data. -/
def dataDirent (name : List Nat) (block size : Nat) : vmsfs_dirent :=
  { type := DIR_TYPE_DATA, attr := DIR_ATTR_COPIABLE, block := block, name := name,
    timestamp := [0x20, 0x21, 0x06, 0x15, 0x12, 0x34, 0x56, 0], size := size,
    header_block_offset := 0, reserved := List.replicate 4 0 }

/-- A card with one file `TEST________` of two blocks, 1 → 0. -/
def oneFileCard : Vms :=
  { emptyCard with
    vms_fatblk := fat_set (fat_set emptyFat 0 BLOCK_LAST) 1 0
    vms_dirblk := emptyCard.vms_dirblk.set 0 (dataDirent name12 1 2) }

/-- A card with two files that are both named `TEST________`, of one block each. -/
def dupCard : Vms :=
  { emptyCard with
    vms_fatblk := fat_set (fat_set emptyFat 0 BLOCK_LAST) 1 BLOCK_LAST
    vms_dirblk := (emptyCard.vms_dirblk.set 0 (dataDirent name12 0 1)).set 1
      (dataDirent name12 1 1) }

/-- The 16-bit little-endian value at byte offset `off` of a block (`le16toh`). -/
def get16 (b : List Nat) (off : Nat) : Nat := b.getD off 0 + 256 * b.getD (off + 1) 0

/-- The fields of `struct vmsfs_root` at their offsets `+0x46 .. +0x51`. -/
def root_of_bytes (b : List Nat) : vmsfs_root :=
  { fat_blockno := get16 b 0x46, fat_nblocksize := get16 b 0x48,
    directory_blockno := get16 b 0x4a, directory_blocksize := get16 b 0x4c,
    icon_block := get16 b 0x4e, user_blocks := get16 b 0x50 }

/-- The 256 slots of `struct vmsfs_fat` in a block. -/
def fat_of_bytes (b : List Nat) : List Nat :=
  (List.range VMS_NUM_BLOCKS).map (fun i => get16 b (2 * i))

/-- One `struct vmsfs_dirent` from its 32 bytes. -/
def dirent_of_bytes (e : List Nat) : vmsfs_dirent :=
  { type := e.getD 0 0, attr := e.getD 1 0, block := get16 e 2,
    name := (e.drop 4).take DIR_NAMELEN, timestamp := (e.drop 16).take 8,
    size := get16 e 24, header_block_offset := get16 e 26, reserved := (e.drop 28).take 4 }

/-- The `n` entries of `struct vmsfs_dir[]` in the bytes of the directory blocks. -/
def dir_of_bytes (b : List Nat) (n : Nat) : List vmsfs_dirent :=
  (List.range n).map (fun i => dirent_of_bytes ((b.drop (32 * i)).take 32))

/-- Source: `vms_load_root` on a fresh session; the root block is read without the table. -/
def vms_load_root (fd : Nat → List Nat) : Except Errno vmsfs_root :=
  match vms_read_blocks [] fd VMS_ROOTBLOCKNO 1 with
  | .error e => .error e
  | .ok b => .ok (root_of_bytes b)

/-- Source: `vms_load_fat` on a fresh session. -/
def vms_load_fat (fd : Nat → List Nat) : Except Errno (vmsfs_root × List Nat) :=
  match vms_load_root fd with
  | .error e => .error e
  | .ok root =>
    match vms_read_blocks [] fd root.fat_blockno 1 with
    | .error e => .error e
    | .ok b => .ok (root, fat_of_bytes b)

/-- Source: `vms_load_dir` on a fresh session: the state with which a command starts. -/
def vms_load_dir (fd : Nat → List Nat) : Except Errno Vms :=
  match vms_load_fat fd with
  | .error e => .error e
  | .ok (root, fat) =>
    match vms_read_blocks fat fd root.directory_blockno root.directory_blocksize with
    | .error e => .error e
    | .ok b =>
      .ok { vms_fd := fd, vms_rootblk := root, vms_fatblk := fat,
            vms_dirblk := dir_of_bytes b (VMSFS_DIR_NENTRIES_PER_BLOCK * root.directory_blocksize) }

/-- A list of `n` bytes. -/
def byte_list (n : Nat) (l : List Nat) : Prop := l.length = n ∧ ∀ x ∈ l, x < 256

/-- Every field of the entry fits its C type. -/
def dirent_typed (d : vmsfs_dirent) : Prop :=
  d.type < 256 ∧ d.attr < 256 ∧ d.block < 65536 ∧ byte_list DIR_NAMELEN d.name ∧
    byte_list 8 d.timestamp ∧ d.size < 65536 ∧ d.header_block_offset < 65536 ∧
    byte_list 4 d.reserved

/-- Every slot of the table and every field of the directory fits its C type. -/
def Typed (s : Vms) : Prop :=
  (∀ v ∈ s.vms_fatblk, v < 65536) ∧ ∀ d ∈ s.vms_dirblk, dirent_typed d

instance (n : Nat) (l : List Nat) : Decidable (byte_list n l) := by
  unfold byte_list; infer_instance

instance (d : vmsfs_dirent) : Decidable (dirent_typed d) := by
  unfold dirent_typed; infer_instance

instance (s : Vms) : Decidable (Typed s) := by unfold Typed; infer_instance

/-- The image holds the cached structures: the root block decodes to `vms_rootblk`, the table
block holds the bytes of `vms_fatblk`, and the blocks of the directory chain hold the bytes of
`vms_dirblk`. -/
def Persisted (t : Vms) : Prop :=
  vms_load_root t.vms_fd = .ok t.vms_rootblk ∧
  t.vms_rootblk.fat_blockno ≤ VMS_MAXBLOCKNO ∧
  t.vms_fd t.vms_rootblk.fat_blockno = fat_bytes t.vms_fatblk ∧
  1 ≤ t.vms_rootblk.directory_blocksize ∧
  (∀ j, j < t.vms_rootblk.directory_blocksize →
    chain_at t.vms_fatblk j t.vms_rootblk.directory_blockno ≤ VMS_MAXBLOCKNO) ∧
  read_chunks t.vms_fd (chain_blocks t.vms_fatblk t.vms_rootblk.directory_blocksize
    t.vms_rootblk.directory_blockno) = dir_bytes t.vms_dirblk

/-- The system blocks are distinct blocks of the image. -/
def Layout (s : Vms) : Prop :=
  (sys_blocks s).Nodup ∧ ∀ b ∈ sys_blocks s, b ≤ VMS_MAXBLOCKNO

instance (s : Vms) : Decidable (Layout s) := by unfold Layout; infer_instance

/-- A well-formed session on a well-formed image: the cached structures have their sizes and
value ranges, every file has a chain of exactly `size ≥ 1` blocks, the root, table and
directory blocks are distinct blocks that are neither free nor on a file's chain, and the
cached root is what block 255 of the image holds. -/
def WellFormed (s : Vms) : Prop :=
  Loaded s ∧ Typed s ∧ ChainsOk s ∧ SizesPos s ∧ SysBlocksOk s ∧ Layout s ∧
    root_of_bytes (s.vms_fd VMS_ROOTBLOCKNO) = s.vms_rootblk

instance (s : Vms) : Decidable (WellFormed s) := by unfold WellFormed; infer_instance

/-- The characters of a C string: the bytes before the first zero byte. -/
def cstring (s : List Nat) : List Nat := s.takeWhile (fun c => c ≠ 0)

/-- Two characters are the same when ASCII case is ignored: they are equal, or one is an
upper-case letter `A..Z` and the other is the lower-case letter 32 above it. -/
def same_char_nocase (c d : Nat) : Prop :=
  c = d ∨ (65 ≤ c ∧ c ≤ 90 ∧ d = c + 32) ∨ (65 ≤ d ∧ d ≤ 90 ∧ c = d + 32)

instance (c d : Nat) : Decidable (same_char_nocase c d) := by
  unfold same_char_nocase; infer_instance

/-- Two C strings are equal when ASCII case is ignored: they have the same number of
characters and agree position by position up to case. -/
def same_name_nocase (a b : List Nat) : Prop :=
  (cstring a).length = (cstring b).length ∧
    ∀ i, i < (cstring a).length → same_char_nocase ((cstring a).getD i 0) ((cstring b).getD i 0)

instance (a b : List Nat) : Decidable (same_name_nocase a b) := by
  unfold same_name_nocase; infer_instance

/-- Slot `i` is occupied and its stored name, read up to its first zero byte, equals
`filename` when ASCII case is ignored. -/
def slot_matches (s : Vms) (filename : List Nat) (i : Nat) : Prop :=
  (dir_get s.vms_dirblk i).type ≠ DIR_TYPE_NONE ∧
    same_name_nocase (dir_get s.vms_dirblk i).name filename

instance (s : Vms) (filename : List Nat) (i : Nat) : Decidable (slot_matches s filename i) := by
  unfold slot_matches; infer_instance

/-- The name `THIS_NAME_IS_TOO_LONG`, 21 characters. -/
def nameTooLong : List Nat :=
  [84, 72, 73, 83, 95, 78, 65, 77, 69, 95, 73, 83, 95, 84, 79, 79, 95, 76, 79, 78, 71]

/-- The name `Test________`, the stored name of `oneFileCard` in mixed case. -/
def nameMixed : List Nat := [84, 101, 115, 116, 95, 95, 95, 95, 95, 95, 95, 95]

/-- The character the specification stores for the input character `c`: the upper-cased
character if `c` is a letter, a digit, `_` or `.`, and `_` otherwise. -/
def regular_char (c : Nat) : Nat :=
  if 97 ≤ c ∧ c ≤ 122 then c - 32
  else if (65 ≤ c ∧ c ≤ 90) ∨ (48 ≤ c ∧ c ≤ 57) ∨ c = 95 ∨ c = 46 then c
  else 95

/-- The 12 characters the specification stores for a name of at most 12 characters: the
characters of the name, each replaced by `regular_char`, then `_` up to 12. -/
def regular_name_spec (name : List Nat) : List Nat :=
  name.map regular_char ++ List.replicate (12 - name.length) 95

/-- A character of the stored alphabet: `A-Z`, `0-9`, `_` or `.`. -/
def is_regular_char (c : Nat) : Prop :=
  (65 ≤ c ∧ c ≤ 90) ∨ (48 ≤ c ∧ c ≤ 57) ∨ c = 95 ∨ c = 46

instance (c : Nat) : Decidable (is_regular_char c) := by
  unfold is_regular_char; infer_instance

/-- The name `a-b.Cd` followed by a byte outside ASCII and `9`. -/
def nameOdd : List Nat := [97, 45, 98, 46, 67, 100, 200, 57]

/-- A card whose only entry starts a chain with an out-of-range link: 0 → 1 → 300. -/
def badChainCard : Vms :=
  { emptyCard with
    vms_fatblk := fat_set (fat_set emptyFat 0 1) 1 300
    vms_dirblk := emptyCard.vms_dirblk.set 0 (dataDirent name12 0 3) }

/-- Source: the `for` loop of `vms_readwrite_blocks` in write mode, on a device whose `write`
can fail. `dev k = none` means that transfer number `k` of the call succeeds;
`dev k = some f` means that it fails (`len != VMS_BLOCKSIZE`, `errno = ESPIPE`) and leaves
`f old` in the block that held `old`. Loop state and fuel are those of `vms_readwrite_loop`;
the result is the image and either `nblkread` or the error of the failed transfer. -/
def vms_write_loop_dev (dev : Nat → Option (List Nat → List Nat)) (fat buf : List Nat)
    (nblk : Nat) : Nat → Nat → Nat → (Nat → List Nat) → (Nat → List Nat) × Except Errno Nat
  | 0, _, nblkread, fd => (fd, .ok nblkread)
  | fuel + 1, blk, nblkread, fd =>
    if blk ≤ VMS_MAXBLOCKNO then
      match dev nblkread with
      | some f => (fd_write fd blk (f (fd blk)), .error Errno.ESPIPE)
      | none =>
        let fd1 := fd_write fd blk (buf_chunk buf nblkread)
        if nblkread + 1 ≥ nblk then (fd1, .ok (nblkread + 1))
        else vms_write_loop_dev dev fat buf nblk fuel (fat_get fat blk) (nblkread + 1) fd1
    else (fd, .ok nblkread)

/-- Source: `vms_write_blocks` (`vms_readwrite_blocks` in write mode) on a device whose
`write` can fail. -/
def vms_write_blocks_dev (dev : Nat → Option (List Nat → List Nat)) (fat : List Nat)
    (fd : Nat → List Nat) (buf : List Nat) (startblk nblk : Nat) :
    (Nat → List Nat) × Except Errno Unit :=
  let r := vms_write_loop_dev dev fat buf nblk (nblk + 1) startblk 0 fd
  match r.2 with
  | .error e => (r.1, .error e)
  | .ok nblkread => if nblkread ≠ nblk then (r.1, .error Errno.ENXIO) else (r.1, .ok ())

/-- Source: `vmsfs_writefile` on a device whose `write` can fail while the payload is
written; everything but the call of `vms_write_blocks` is as in `vmsfs_writefile`. -/
def vmsfs_writefile_dev (dev : Nat → Option (List Nat → List Nat)) (s : Vms)
    (filename : List Nat) (buf : List Nat) (size : Nat) (mtime : Tm) : Vms × Except Errno Nat :=
  if strlen filename > DIR_NAMELEN then (s, .error Errno.ENAMETOOLONG)
  else if size = 0 then (s, .error Errno.EINVAL)
  else
    let nblk := (size + VMS_BLOCKSIZE - 1) / VMS_BLOCKSIZE
    if nblk > VMS_MAXBLOCKNO then (s, .error Errno.ENOSPC)
    else
      match vms_dirent_alloc s with
      | .error e => (s, .error e)
      | .ok dp =>
        let d0 : vmsfs_dirent :=
          { type := 0, attr := 0, block := 0, name := List.replicate DIR_NAMELEN 0,
            timestamp := List.replicate 8 0, size := 0, header_block_offset := 0,
            reserved := List.replicate 4 0 }
        let d1 : vmsfs_dirent :=
          { d0 with
            type := DIR_TYPE_DATA
            attr := DIR_ATTR_COPIABLE
            name := vmsfs_regular_name filename
            timestamp := vmsfs_unixtime2bcdtimestamp d0.timestamp mtime
            size := nblk % 65536
            header_block_offset := 0 }
        let r := vms_allocate_fat s.vms_fatblk nblk
        let s1 : Vms := { s with vms_fatblk := r.1, vms_dirblk := s.vms_dirblk.set dp d1 }
        match r.2 with
        | .error e => (s1, .error e)
        | .ok startblk =>
          let s2 : Vms :=
            { s1 with vms_dirblk := s.vms_dirblk.set dp { d1 with block := startblk % 65536 } }
          let w := vms_write_blocks_dev dev s2.vms_fatblk s2.vms_fd buf startblk nblk
          let s3 : Vms := { s2 with vms_fd := w.1 }
          match w.2 with
          | .error e => (s3, .error e)
          | .ok _ => (s3, .ok dp)

/-- Source: `dcvmtool_cmd_put` on a device whose `write` can fail while `vmsfs_writefile`
writes the payload; the exit through `err(1, ...)` leaves `vms_save_fat` and `vms_save_dir`
out. -/
def dcvmtool_cmd_put_dev (dev : Nat → Option (List Nat → List Nat)) (s : Vms)
    (filename : List Nat) (content : List Nat) (mtime : Tm) : Vms × Nat :=
  let size := content.length
  match readfile content with
  | none => (s, 1)
  | some buf =>
    let s1 := (vmsfs_unlink s filename).1
    let r := vmsfs_writefile_dev dev s1 filename buf size mtime
    match r.2 with
    | .error _ => (r.1, 1)
    | .ok _ =>
      let s2 := (vms_save_fat r.1).1
      let s3 := (vms_save_dir s2).1
      (s3, 0)

/-- A table that marks its own block, 254, as free: slots 0 and 254 are free, every other
slot is in use, the directory chain is 253 → … → 241. -/
def corruptFat : List Nat :=
  [BLOCK_UNALLOCATED] ++ List.replicate 240 BLOCK_LAST ++ [BLOCK_LAST] ++
    (List.range 12).map (fun i => 241 + i) ++ [BLOCK_UNALLOCATED, BLOCK_LAST]

/-- A card whose table marks the table block as free; the image holds that table in block 254
and the standard root block in block 255. -/
def corruptCard : Vms :=
  { vms_fd := fun b => if b = 255 then stdRootBytes
      else if b = 254 then fat_bytes corruptFat else List.replicate 512 0
    vms_rootblk := stdRoot
    vms_fatblk := corruptFat
    vms_dirblk := List.replicate 208 emptyDirent }

/-- A device on which the second block write of a call fails and leaves the block as it
was. -/
def devFailSecond : Nat → Option (List Nat → List Nat) :=
  fun k => if k = 1 then some (fun old => old) else none

/-- A payload of 513 bytes, two blocks. -/
def payload513 : List Nat := List.replicate 513 65

/-- The byte of the specification for a number `n ≤ 99`: one decimal digit per nibble, the
tens in the high nibble and the units in the low nibble. -/
def bcd_byte (n : Nat) : Nat := 16 * (n / 10) + n % 10

/-- The broken-down time that `localtime` returns for the calendar date and time given. -/
def tm_of_date (year mon day hour min sec : Nat) : Tm :=
  { tm_year := (year : Int) - 1900, tm_mon := (mon : Int) - 1, tm_mday := day,
    tm_hour := hour, tm_min := min, tm_sec := sec }

/-- A table whose links form a cycle, 0 → 1 → 0, and a self-loop, 2 → 2. -/
def cycleFat : List Nat := fat_set (fat_set (fat_set emptyFat 0 1) 1 0) 2 2

/-- A table whose 256 slots form one ring, `i → (i + 1) mod 256`. -/
def ringFat : List Nat := (List.range 256).map (fun i => (i + 1) % 256)

/-- A table without a free slot: blocks 0..240 are chains of one block each. -/
def fullFat : List Nat :=
  List.replicate 241 BLOCK_LAST ++ [BLOCK_LAST] ++
    (List.range 12).map (fun i => 241 + i) ++ [BLOCK_LAST, BLOCK_LAST]

/-- The directory of `fullCard`: the file `TEST________` of one block, block 0, in slot 0. -/
def fullDir : List vmsfs_dirent :=
  (List.replicate 208 emptyDirent).set 0 (dataDirent name12 0 1)

/-- A card without a free block that holds the file `TEST________`; the image holds the root
block in block 255, the table in block 254 and the first directory block in block 253. -/
def fullCard : Vms :=
  { vms_fd := fun b => if b = 255 then stdRootBytes
      else if b = 254 then fat_bytes fullFat
      else if b = 253 then (dir_bytes fullDir).take 512
      else List.replicate 512 0
    vms_rootblk := stdRoot
    vms_fatblk := fullFat
    vms_dirblk := fullDir }

/-- What the verbose part of `vms_dirent_print` prints after `FAT:`: a block number,
`printf(" %d", blk)`, or the diagnostic `<ERR:over FAT chain!>`. -/
inductive FatItem where
  | blk (n : Nat)
  | over
deriving DecidableEq, Repr

/-- Source: the `for` loop in the verbose part of `vms_dirent_print`, from loop state
`(blk, j)` with `blk >= 0`. The result is what is printed; `none` means that the fuel (first
argument after `nblk`) ran out. -/
def vms_dirent_print_loop (fat : List Nat) (nblk : Nat) : Nat → Nat → Nat → Option (List FatItem)
  | 0, _, _ => none
  | fuel + 1, blk, j =>
    if j > nblk then some [FatItem.over]
    else
      match vms_nextblock fat blk with
      | none => some [FatItem.blk blk]
      | some b =>
        match vms_dirent_print_loop fat nblk fuel b (j + 1) with
        | none => none
        | some l => some (FatItem.blk blk :: l)

/-- Source: `vms_dirent_print`. Of the output only the items after `FAT:` are kept (nothing
in a listing that is not verbose); the second component is the return value `nblk`. The loop
makes at most `nblk + 2` passes. -/
def vms_dirent_print (fat : List Nat) (dp : vmsfs_dirent) (verbose : Bool) :
    Option (List FatItem) × Nat :=
  let nblk := dp.size
  (if verbose then vms_dirent_print_loop fat nblk (nblk + 2) dp.block 0 else some [], nblk)

/-- Source: the `while` loop of `vmsfs_readdir` from `dirp->loc = loc`; the first argument is
the number of slots left to examine, the result the index of the entry returned. -/
def vmsfs_readdir_loop (dir : List vmsfs_dirent) : Nat → Nat → Option Nat
  | 0, _ => none
  | n + 1, loc =>
    if (dir_get dir loc).type = DIR_TYPE_NONE then vmsfs_readdir_loop dir n (loc + 1)
    else some loc

/-- Source: `vmsfs_readdir` with `dirp->loc = loc`: the index of the entry returned and the
new `dirp->loc`, or `none` for `NULL`. -/
def vmsfs_readdir (s : Vms) (loc : Nat) : Option (Nat × Nat) :=
  match vmsfs_readdir_loop s.vms_dirblk (dir_nentries s - loc) loc with
  | none => none
  | some i => some (i, i + 1)

/-- Source: the `while` loop of `dcvmtool_cmd_dir` from the state
`(dirp->loc, nfiles, total_blksize)`. The result is what `vms_dirent_print` printed for each
entry, `nfiles` and `total_blksize`; `none` means that the fuel (first argument after
`opt_v`) ran out. -/
def dcvmtool_cmd_dir_loop (s : Vms) (opt_v : Bool) :
    Nat → Nat → Nat → Nat → Option (List (List FatItem) × Nat × Nat)
  | 0, _, _, _ => none
  | fuel + 1, loc, nfiles, total_blksize =>
    match vmsfs_readdir s loc with
    | none => some ([], nfiles, total_blksize)
    | some (i, loc1) =>
      let r := vms_dirent_print s.vms_fatblk (dir_get s.vms_dirblk i) opt_v
      match r.1 with
      | none => none
      | some out =>
        match dcvmtool_cmd_dir_loop s opt_v fuel loc1 (nfiles + 1) (total_blksize + r.2) with
        | none => none
        | some (outs, n, t) => some (out :: outs, n, t)

/-- Source: the listing of `dcvmtool_cmd_dir`; one entry is returned for each pass of the
loop, so `dir_nentries s + 1` passes are enough. -/
def dcvmtool_cmd_dir (s : Vms) (opt_v : Bool) : Option (List (List FatItem) × Nat × Nat) :=
  dcvmtool_cmd_dir_loop s opt_v (dir_nentries s + 1) 0 0 0

/-- The indices of the occupied slots from `loc` on, in order. -/
def occupied_from (s : Vms) (loc : Nat) : List Nat :=
  (List.range' loc (dir_nentries s - loc)).filter
    (fun i => decide ((dir_get s.vms_dirblk i).type ≠ DIR_TYPE_NONE))

/-- What the verbose listing prints after `FAT:` for an entry of `nblk` blocks starting at
`start`: the first `nblk + 1` blocks of the walk, then the diagnostic if the walk has at
least `nblk + 2` blocks. -/
def fat_listing (fat : List Nat) (nblk start : Nat) : List FatItem :=
  (fat_chain fat (nblk + 1) start).map FatItem.blk ++
    if (fat_chain fat (nblk + 2) start).length = nblk + 2 then [FatItem.over] else []

/-- A card with two files whose chains do not have the declared length: `A___________` in
slot 2 with the chain 2 and three blocks declared, `B___________` in slot 5 with the chain
3 → 4 → 5 and one block declared. -/
def listCard : Vms :=
  { emptyCard with
    vms_fatblk := fat_set (fat_set (fat_set (fat_set emptyFat 2 BLOCK_LAST) 3 4) 4 5) 5
      BLOCK_LAST
    vms_dirblk := (emptyCard.vms_dirblk.set 2
      (dataDirent [65, 95, 95, 95, 95, 95, 95, 95, 95, 95, 95, 95] 2 3)).set 5
      (dataDirent [66, 95, 95, 95, 95, 95, 95, 95, 95, 95, 95, 95] 3 1) }

/-! ## Theorems -/

theorem fat_get_set_eq (fat : List Nat) (i v : Nat) (h : i < fat.length) :
    fat_get (fat_set fat i v) i = v := by
  simp [fat_get, fat_set, List.getElem?_set, h]

theorem fat_get_set_ne (fat : List Nat) (i j v : Nat) (h : i ≠ j) :
    fat_get (fat_set fat i v) j = fat_get fat j := by
  simp [fat_get, fat_set, List.getElem?_set_ne h]

theorem fat_set_length (fat : List Nat) (i v : Nat) :
    (fat_set fat i v).length = fat.length := by
  simp [fat_set]

theorem lt_length_of_fat_get_ne_zero (fat : List Nat) (i : Nat) (h : fat_get fat i ≠ 0) :
    i < fat.length := by
  by_contra hlt
  apply h
  have : fat.length ≤ i := Nat.le_of_not_lt hlt
  simp [fat_get, List.getElem?_eq_none this]

theorem lt_length_of_free (fat : List Nat) (i : Nat) (h : fat_get fat i = BLOCK_UNALLOCATED) :
    i < fat.length :=
  lt_length_of_fat_get_ne_zero fat i (by rw [h]; decide)

theorem vms_getfreeblock_eq_length (fat : List Nat) :
    vms_getfreeblock fat = (freeSlots fat).length := by
  simp [vms_getfreeblock, freeSlots, List.countP_eq_length_filter]

theorem vms_allocate_fat_loop_eq (fuel : Nat) :
    ∀ (i nblock blk : Nat) (fat : List Nat), i + fuel = VMS_MAXBLOCKNO + 1 →
      vms_allocate_fat_loop fuel i nblock blk fat =
        linkChain (((List.range' i fuel).filter
          (fun j => fat_get fat j = BLOCK_UNALLOCATED)).take nblock) blk fat := by
  induction fuel with
  | zero => intro i nblock blk fat _; simp [vms_allocate_fat_loop, linkChain]
  | succ fuel ih =>
    intro i nblock blk fat hi
    have hi255 : i ≤ VMS_MAXBLOCKNO := by omega
    rw [vms_allocate_fat_loop]
    by_cases hn : nblock > 0
    · simp only [hn, hi255, and_self, if_true]
      obtain ⟨m, rfl⟩ : ∃ m, nblock = m + 1 := ⟨nblock - 1, by omega⟩
      by_cases hfree : fat_get fat i = BLOCK_UNALLOCATED
      · rw [if_pos hfree, ih (i + 1) _ i _ (by omega)]
        have hcongr : (List.range' (i + 1) fuel).filter
              (fun j => fat_get (fat_set fat i blk) j = BLOCK_UNALLOCATED) =
            (List.range' (i + 1) fuel).filter (fun j => fat_get fat j = BLOCK_UNALLOCATED) := by
          apply List.filter_congr
          intro x hx
          have hne : i ≠ x := by
            have := (List.mem_range'_1.mp hx).1
            omega
          rw [fat_get_set_ne fat i x blk hne]
        rw [hcongr, List.range'_succ, List.filter_cons_of_pos (by simpa using hfree)]
        simp [linkChain]
      · rw [if_neg hfree, ih (i + 1) _ blk _ (by omega)]
        rw [List.range'_succ, List.filter_cons_of_neg (by simpa using hfree)]
    · have h0 : nblock = 0 := by omega
      subst h0
      simp [linkChain]

theorem linkChain_frame (fs : List Nat) :
    ∀ (blk : Nat) (fat : List Nat) (j : Nat), j ∉ fs →
      fat_get (linkChain fs blk fat).1 j = fat_get fat j := by
  induction fs with
  | nil => intro blk fat j _; rfl
  | cons f fs ih =>
    intro blk fat j hj
    simp only [List.mem_cons, not_or] at hj
    rw [linkChain, ih f _ j hj.2, fat_get_set_ne fat f j blk (Ne.symm hj.1)]

theorem linkChain_length (fs : List Nat) :
    ∀ (blk : Nat) (fat : List Nat), (linkChain fs blk fat).1.length = fat.length := by
  induction fs with
  | nil => intro blk fat; rfl
  | cons f fs ih => intro blk fat; rw [linkChain, ih, fat_set_length]

theorem linkChain_head (fs : List Nat) :
    ∀ (blk : Nat) (fat : List Nat), (linkChain fs blk fat).2 = fs.getLast?.getD blk := by
  induction fs with
  | nil => intro blk fat; rfl
  | cons f fs ih =>
    intro blk fat
    rw [linkChain, ih]
    cases fs with
    | nil => rfl
    | cons g gs =>
      rw [List.getLast?_cons_cons]
      cases h : (g :: gs).getLast? with
      | none => simp at h
      | some x => rfl

/-- After linking, each slot of `fs` (read backwards) points to the slot before it, and the
first one to `blk`. -/
theorem linkChain_chain (fs : List Nat) :
    ∀ (blk : Nat) (fat : List Nat), fs.Nodup → (∀ f ∈ fs, f < fat.length) →
      List.Chain' (fun a b => fat_get (linkChain fs blk fat).1 a = b) (fs.reverse ++ [blk]) := by
  induction fs with
  | nil => intro blk fat _ _; simp
  | cons f fs ih =>
    intro blk fat hnd hlt
    rw [linkChain]
    have hnd' := List.nodup_cons.mp hnd
    have h1 := ih f (fat_set fat f blk) hnd'.2
      (fun g hg => by rw [fat_set_length]; exact hlt g (List.mem_cons_of_mem _ hg))
    have hlast : fat_get (linkChain fs f (fat_set fat f blk)).1 f = blk := by
      rw [linkChain_frame fs f _ f hnd'.1]
      exact fat_get_set_eq fat f blk (hlt f (List.mem_cons_self _ _))
    rw [List.reverse_cons, List.append_assoc]
    -- fs.reverse ++ ([f] ++ [blk])
    have h2 : List.Chain' (fun a b => fat_get (linkChain fs f (fat_set fat f blk)).1 a = b)
        ([f] ++ [blk]) := by
      simp [hlast]
    rw [← List.append_assoc]
    apply List.Chain'.append h1 (by simp)
    intro x hx y hy
    simp at hy
    subst hy
    simp at hx
    subst hx
    exact hlast

/-- Following a linked list of in-range blocks that ends in `BLOCK_LAST`. -/
theorem fat_chain_of_chain (fat : List Nat) (l : List Nat) :
    ∀ (b : Nat), (∀ x ∈ b :: l, x ≤ VMS_MAXBLOCKNO) →
      List.Chain' (fun a c => fat_get fat a = c) (b :: l ++ [BLOCK_LAST]) →
      ∀ fuel, l.length + 1 ≤ fuel → fat_chain fat fuel b = b :: l := by
  induction l with
  | nil =>
    intro b hb hc fuel hfuel
    obtain ⟨k, rfl⟩ : ∃ k, fuel = k + 1 := ⟨fuel - 1, by simp at hfuel; omega⟩
    have hb' : b ≤ VMS_MAXBLOCKNO := hb b (by simp)
    have : fat_get fat b = BLOCK_LAST := by simpa using hc
    simp [fat_chain, vms_nextblock, this, Nat.not_lt.mpr hb']
  | cons c l ih =>
    intro b hb hc fuel hfuel
    obtain ⟨k, rfl⟩ : ∃ k, fuel = k + 1 := ⟨fuel - 1, by simp at hfuel; omega⟩
    have hb' : b ≤ 255 := hb b (by simp)
    have hc' : c ≤ 255 := hb c (by simp)
    simp only [List.cons_append, List.chain'_cons] at hc
    have hrest := ih c (fun x hx => hb x (List.mem_cons_of_mem _ hx))
      (by simpa using hc.2) k (by simp at hfuel ⊢; omega)
    have hne1 : c ≠ BLOCK_UNALLOCATED := by show c ≠ 0xfffc; omega
    have hne2 : c ≠ BLOCK_LAST := by show c ≠ 0xfffa; omega
    simp [fat_chain, vms_nextblock, hc.1, Nat.not_lt.mpr hb', hne1, hne2, hrest]

theorem freeSlots_sorted (fat : List Nat) : (freeSlots fat).Sorted (· < ·) := by
  unfold freeSlots
  exact List.Pairwise.filter _ (List.pairwise_lt_range _)

theorem freeSlots_nodup (fat : List Nat) : (freeSlots fat).Nodup :=
  (freeSlots_sorted fat).nodup

theorem mem_freeSlots (fat : List Nat) (i : Nat) :
    i ∈ freeSlots fat ↔ i ≤ VMS_MAXBLOCKNO ∧ fat_get fat i = BLOCK_UNALLOCATED := by
  simp [freeSlots, Nat.lt_succ_iff]

/-- The successful path of `vms_allocate_fat` links the first `n` free slots. -/
theorem vms_allocate_fat_eq_linkChain (fat : List Nat) (n : Nat)
    (h : n ≤ vms_getfreeblock fat) :
    vms_allocate_fat fat n =
      ((linkChain ((freeSlots fat).take n) BLOCK_LAST fat).1,
        .ok (linkChain ((freeSlots fat).take n) BLOCK_LAST fat).2) := by
  unfold vms_allocate_fat
  simp only [Nat.not_lt.mpr h, if_false]
  rw [vms_allocate_fat_loop_eq _ 0 n BLOCK_LAST fat (by simp)]
  simp [freeSlots, List.range_eq_range']

/-- C7. For `1 ≤ n ≤ free_block_count()`, `vms_allocate_fat(n)` returns the `n`-th free slot in
ascending order; following the table from it visits exactly the `n` lowest free slots in
strictly decreasing order, the lowest of them holds `BLOCK_LAST`, and all other slots keep
their value. -/
theorem vms_allocate_fat_order (fat : List Nat) (n : Nat) (h1 : 1 ≤ n)
    (h2 : n ≤ vms_getfreeblock fat) :
    ∃ head, (vms_allocate_fat fat n).2 = .ok head ∧
      (freeSlots fat)[n - 1]? = some head ∧
      (∀ fuel, n ≤ fuel →
        fat_chain (vms_allocate_fat fat n).1 fuel head = ((freeSlots fat).take n).reverse) ∧
      (((freeSlots fat).take n).reverse).Sorted (· > ·) ∧
      (∀ low, (freeSlots fat)[0]? = some low →
        fat_get (vms_allocate_fat fat n).1 low = BLOCK_LAST) ∧
      (∀ i, i ∉ (freeSlots fat).take n →
        fat_get (vms_allocate_fat fat n).1 i = fat_get fat i) := by
  rw [vms_allocate_fat_eq_linkChain fat n h2]
  have hlen : n ≤ (freeSlots fat).length := by rw [← vms_getfreeblock_eq_length]; exact h2
  set fs := (freeSlots fat).take n with hfs
  have hfslen : fs.length = n := by simp [hfs, hlen]
  have hnd : fs.Nodup := (freeSlots_nodup fat).sublist (List.take_sublist _ _)
  have hmem : ∀ f ∈ fs, f ≤ VMS_MAXBLOCKNO ∧ fat_get fat f = BLOCK_UNALLOCATED := fun f hf =>
    (mem_freeSlots fat f).mp (List.mem_of_mem_take hf)
  have hlt : ∀ f ∈ fs, f < fat.length := fun f hf => lt_length_of_free fat f (hmem f hf).2
  have hne : fs ≠ [] := by
    intro h0; rw [h0] at hfslen; simp at hfslen; omega
  have hsorted : fs.reverse.Sorted (· > ·) := by
    rw [List.Sorted, List.pairwise_reverse]
    exact (freeSlots_sorted fat).sublist (List.take_sublist _ _)
  have hchain := linkChain_chain fs BLOCK_LAST fat hnd hlt
  -- the head is the last of the linked slots
  have hhead : (linkChain fs BLOCK_LAST fat).2 = fs.getLast hne := by
    rw [linkChain_head, List.getLast?_eq_getLast _ hne]; rfl
  refine ⟨_, rfl, ?_, ?_, hsorted, ?_, ?_⟩
  · rw [hhead, List.getLast_eq_getElem]
    simp only [hfslen]
    rw [List.getElem?_eq_getElem (by omega)]
    simp [hfs, List.getElem_take]
  · intro fuel hfuel
    obtain ⟨b, l, hbl⟩ : ∃ b l, fs.reverse = b :: l := by
      cases hr : fs.reverse with
      | nil => simp at hr; exact absurd hr hne
      | cons b l => exact ⟨b, l, rfl⟩
    have hb : (linkChain fs BLOCK_LAST fat).2 = b := by
      rw [hhead, List.getLast_eq_head_reverse]
      simp [hbl]
    rw [hb, hbl]
    apply fat_chain_of_chain
    · intro x hx
      rw [← hbl] at hx
      exact (hmem x (List.mem_reverse.mp hx)).1
    · rw [← hbl]; exact hchain
    · have : (b :: l).length = n := by rw [← hbl, List.length_reverse, hfslen]
      simp at this; omega
  · intro low hlow
    -- the lowest free slot is the first of `fs`, hence last of the reversed list
    obtain ⟨g, gs, hg⟩ : ∃ g gs, fs = g :: gs := by
      cases hr : fs with
      | nil => exact absurd hr hne
      | cons g gs => exact ⟨g, gs, rfl⟩
    have hlowg : low = g := by
      have : fs[0]? = some low := by
        rw [hfs, List.getElem?_take]; simp [hlow]; omega
      rw [hg] at this; simpa using this.symm
    subst hlowg
    rw [hg, List.reverse_cons, List.append_assoc] at hchain
    have hr := List.Chain'.right_of_append hchain
    rw [hg]
    simpa using hr
  · intro i hi
    exact linkChain_frame fs BLOCK_LAST fat i hi

/-- C7 at the empty card with `n = 2`: the head is block 1 and the chain is 1, 0. -/
theorem vms_allocate_fat_order_witness :
    1 ≤ 2 ∧ 2 ≤ vms_getfreeblock emptyFat ∧
    ∃ head, (vms_allocate_fat emptyFat 2).2 = .ok head ∧
      (freeSlots emptyFat)[2 - 1]? = some head ∧
      (∀ fuel, 2 ≤ fuel →
        fat_chain (vms_allocate_fat emptyFat 2).1 fuel head =
          ((freeSlots emptyFat).take 2).reverse) ∧
      (((freeSlots emptyFat).take 2).reverse).Sorted (· > ·) ∧
      (∀ low, (freeSlots emptyFat)[0]? = some low →
        fat_get (vms_allocate_fat emptyFat 2).1 low = BLOCK_LAST) ∧
      (∀ i, i ∉ (freeSlots emptyFat).take 2 →
        fat_get (vms_allocate_fat emptyFat 2).1 i = fat_get emptyFat i) :=
  ⟨by decide, by decide!, vms_allocate_fat_order emptyFat 2 (by decide) (by decide!)⟩

/-- C8. When `n` exceeds the number of free blocks, `vms_allocate_fat(n)` fails with
`ENOSPC` and the table, hence each of its 256 slots, is what it was. -/
theorem vms_allocate_fat_nospace (fat : List Nat) (n : Nat) (h : n > vms_getfreeblock fat) :
    (vms_allocate_fat fat n).2 = .error Errno.ENOSPC ∧
      (vms_allocate_fat fat n).1 = fat ∧
      ∀ i, i ≤ VMS_MAXBLOCKNO → fat_get (vms_allocate_fat fat n).1 i = fat_get fat i := by
  unfold vms_allocate_fat
  simp [h]

/-- C8 at the empty card, which has 241 free blocks, with `n = 242`. -/
theorem vms_allocate_fat_nospace_witness :
    242 > vms_getfreeblock emptyFat ∧
    (vms_allocate_fat emptyFat 242).2 = .error Errno.ENOSPC ∧
      (vms_allocate_fat emptyFat 242).1 = emptyFat ∧
      ∀ i, i ≤ VMS_MAXBLOCKNO → fat_get (vms_allocate_fat emptyFat 242).1 i = fat_get emptyFat i :=
  ⟨by decide!, vms_allocate_fat_nospace emptyFat 242 (by decide!)⟩

theorem chain_at_succ (fat : List Nat) (k blk : Nat) :
    chain_at fat (k + 1) blk = chain_at fat k (fat_get fat blk) := rfl

theorem chain_blocks_length (fat : List Nat) (n : Nat) :
    ∀ blk, (chain_blocks fat n blk).length = n := by
  induction n with
  | zero => intro blk; rfl
  | succ n ih => intro blk; simp [chain_blocks, ih]

theorem chain_blocks_getElem (fat : List Nat) (n : Nat) :
    ∀ blk j (h : j < (chain_blocks fat n blk).length),
      (chain_blocks fat n blk)[j] = chain_at fat j blk := by
  induction n with
  | zero => intro blk j h; simp [chain_blocks] at h
  | succ n ih =>
    intro blk j h
    cases j with
    | zero => simp [chain_blocks, chain_at]
    | succ j => simp [chain_blocks, chain_at, ih]

theorem mem_chain_blocks (fat : List Nat) (n blk x : Nat) :
    x ∈ chain_blocks fat n blk ↔ ∃ j, j < n ∧ chain_at fat j blk = x := by
  constructor
  · intro hx
    obtain ⟨j, hj, rfl⟩ := List.getElem_of_mem hx
    exact ⟨j, by simpa [chain_blocks_length] using hj, (chain_blocks_getElem fat n blk j hj).symm⟩
  · rintro ⟨j, hj, rfl⟩
    have h : j < (chain_blocks fat n blk).length := by simpa [chain_blocks_length] using hj
    rw [← chain_blocks_getElem fat n blk j h]
    exact List.getElem_mem _

/-- The loop of `vms_readwrite_blocks` in read mode when the next `m` blocks are in range. -/
theorem vms_readwrite_loop_read (fat buf : List Nat) (nblk : Nat) (fd : Nat → List Nat)
    (fuel : Nat) :
    ∀ (m blk k : Nat) (out : List Nat), k + m = nblk → 1 ≤ m → m ≤ fuel →
      (∀ j, j < m → chain_at fat j blk ≤ VMS_MAXBLOCKNO) →
      vms_readwrite_loop fat buf nblk false fuel blk k fd out =
        (fd, out ++ read_chunks fd (chain_blocks fat m blk), nblk) := by
  induction fuel with
  | zero => intro m blk k out _ h1 h2; omega
  | succ fuel ih =>
    intro m blk k out hk h1 h2 hin
    obtain ⟨m', rfl⟩ : ∃ m', m = m' + 1 := ⟨m - 1, by omega⟩
    have hb : blk ≤ VMS_MAXBLOCKNO := hin 0 (by omega)
    rw [vms_readwrite_loop]
    simp only [hb, if_true, Bool.false_eq_true, if_false]
    by_cases hm : m' = 0
    · subst hm
      have : k + 1 ≥ nblk := by omega
      simp [this, read_chunks, chain_blocks]
      omega
    · have : ¬ k + 1 ≥ nblk := by omega
      rw [if_neg this, ih m' (fat_get fat blk) (k + 1) _ (by omega) (by omega) (by omega)
        (fun j hj => by have := hin (j + 1) (by omega); rwa [chain_at_succ] at this)]
      simp [read_chunks, chain_blocks]

/-- The loop of `vms_readwrite_blocks` in write mode when the next `m` blocks are in range. -/
theorem vms_readwrite_loop_write (fat buf : List Nat) (nblk : Nat) (fuel : Nat) :
    ∀ (m blk k : Nat) (fd : Nat → List Nat) (out : List Nat), k + m = nblk → 1 ≤ m → m ≤ fuel →
      (∀ j, j < m → chain_at fat j blk ≤ VMS_MAXBLOCKNO) →
      vms_readwrite_loop fat buf nblk true fuel blk k fd out =
        (write_chunks buf (chain_blocks fat m blk) k fd, out, nblk) := by
  induction fuel with
  | zero => intro m blk k fd out _ h1 h2; omega
  | succ fuel ih =>
    intro m blk k fd out hk h1 h2 hin
    obtain ⟨m', rfl⟩ : ∃ m', m = m' + 1 := ⟨m - 1, by omega⟩
    have hb : blk ≤ VMS_MAXBLOCKNO := hin 0 (by omega)
    rw [vms_readwrite_loop]
    simp only [hb, if_true]
    by_cases hm : m' = 0
    · subst hm
      have : k + 1 ≥ nblk := by omega
      simp [this, write_chunks, chain_blocks]
      omega
    · have : ¬ k + 1 ≥ nblk := by omega
      rw [if_neg this, ih m' (fat_get fat blk) (k + 1) _ _ (by omega) (by omega) (by omega)
        (fun j hj => by have := hin (j + 1) (by omega); rwa [chain_at_succ] at this)]
      simp [write_chunks, chain_blocks]

theorem vms_read_blocks_ok (fat : List Nat) (fd : Nat → List Nat) (startblk nblk : Nat)
    (h1 : 1 ≤ nblk) (hin : ∀ j, j < nblk → chain_at fat j startblk ≤ VMS_MAXBLOCKNO) :
    vms_read_blocks fat fd startblk nblk =
      .ok (read_chunks fd (chain_blocks fat nblk startblk)) := by
  unfold vms_read_blocks vms_readwrite_blocks
  rw [vms_readwrite_loop_read fat [] nblk fd (nblk + 1) nblk startblk 0 [] (by omega) h1
    (by omega) hin]
  simp

theorem vms_write_blocks_ok (fat : List Nat) (fd : Nat → List Nat) (buf : List Nat)
    (startblk nblk : Nat) (h1 : 1 ≤ nblk)
    (hin : ∀ j, j < nblk → chain_at fat j startblk ≤ VMS_MAXBLOCKNO) :
    vms_write_blocks fat fd buf startblk nblk =
      (write_chunks buf (chain_blocks fat nblk startblk) 0 fd, .ok ()) := by
  unfold vms_write_blocks vms_readwrite_blocks
  rw [vms_readwrite_loop_write fat buf nblk (nblk + 1) nblk startblk 0 fd [] (by omega) h1
    (by omega) hin]
  simp

theorem range_map_getD (l : List Nat) : (List.range l.length).map (fun i => l.getD i 0) = l := by
  apply List.ext_getElem
  · simp
  · intro n h1 h2
    simp at h1
    simp [h1]

theorem vms_getfreeblock_eq_count (fat : List Nat) (hlen : fat.length = 256) :
    vms_getfreeblock fat = fat.count BLOCK_UNALLOCATED := by
  have h := range_map_getD fat
  rw [hlen] at h
  unfold vms_getfreeblock
  conv_rhs => rw [← h]
  rw [List.count, List.countP_map]
  apply List.countP_congr
  intro x _
  simp [fat_get]

theorem chain_at_add (fat : List Nat) (i : Nat) :
    ∀ k b, chain_at fat (i + k) b = chain_at fat k (chain_at fat i b) := by
  induction i with
  | zero => intro k b; simp [chain_at]
  | succ i ih =>
    intro k b
    rw [show i + 1 + k = (i + k) + 1 by omega, chain_at_succ, ih, chain_at_succ]

theorem chain_at_succ_right (fat : List Nat) (k b : Nat) :
    chain_at fat (k + 1) b = fat_get fat (chain_at fat k b) := by
  rw [chain_at_add fat k 1 b]; rfl

theorem chain_ok_iff (fat : List Nat) (n : Nat) :
    ∀ b, chain_ok fat n b = true ↔
      (∀ j, j < n → chain_at fat j b ≤ VMS_MAXBLOCKNO) ∧ chain_at fat n b = BLOCK_LAST := by
  induction n with
  | zero => intro b; simp [chain_ok, chain_at]
  | succ n ih =>
    intro b
    simp only [chain_ok, Bool.and_eq_true, decide_eq_true_eq, ih, chain_at_succ]
    constructor
    · rintro ⟨hb, hin, hlast⟩
      refine ⟨fun j hj => ?_, hlast⟩
      cases j with
      | zero => exact hb
      | succ j => rw [chain_at_succ]; exact hin j (by omega)
    · rintro ⟨hin, hlast⟩
      exact ⟨hin 0 (by omega), fun j hj => by
        have := hin (j + 1) (by omega); rwa [chain_at_succ] at this, hlast⟩

theorem chain_ok_unique (fat : List Nat) (n m b : Nat) (hn : chain_ok fat n b = true)
    (hm : chain_ok fat m b = true) : n = m := by
  rw [chain_ok_iff] at hn hm
  by_contra hne
  rcases Nat.lt_or_gt_of_ne hne with h | h
  · have h1 := hm.1 n h
    rw [hn.2] at h1
    exact absurd h1 (by decide)
  · have h1 := hn.1 m h
    rw [hm.2] at h1
    exact absurd h1 (by decide)

theorem chain_ok_nodup (fat : List Nat) (n : Nat) :
    ∀ b, chain_ok fat n b = true → (chain_blocks fat n b).Nodup := by
  induction n with
  | zero => intro b _; simp [chain_blocks]
  | succ n ih =>
    intro b h
    have h' := h
    simp only [chain_ok, Bool.and_eq_true, decide_eq_true_eq] at h'
    rw [chain_blocks, List.nodup_cons]
    refine ⟨?_, ih _ h'.2⟩
    intro hmem
    obtain ⟨j, hj, hjb⟩ := (mem_chain_blocks fat n _ b).mp hmem
    rw [← chain_at_succ] at hjb
    have hiff := (chain_ok_iff fat (n + 1) b).mp h
    have hper : chain_at fat (n + 1) b = chain_at fat (n - j) b := by
      rw [show n + 1 = (j + 1) + (n - j) by omega, chain_at_add, hjb]
    have hle := hiff.1 (n - j) (by omega)
    rw [← hper, hiff.2] at hle
    exact absurd hle (by decide)

theorem chain_ok_mem (fat : List Nat) (n b x : Nat) (h : chain_ok fat n b = true)
    (hx : x ∈ chain_blocks fat n b) :
    x ≤ VMS_MAXBLOCKNO ∧ fat_get fat x ≠ BLOCK_UNALLOCATED := by
  obtain ⟨j, hj, rfl⟩ := (mem_chain_blocks fat n b x).mp hx
  have hiff := (chain_ok_iff fat n b).mp h
  refine ⟨hiff.1 j hj, ?_⟩
  rw [← chain_at_succ_right]
  intro hU
  by_cases hjn : j + 1 < n
  · have := hiff.1 (j + 1) hjn
    rw [hU] at this; exact absurd this (by decide)
  · have hjn' : j + 1 = n := by omega
    rw [hjn', hiff.2] at hU
    exact absurd hU (by decide)

/-- Two tables that agree on the first `n` blocks of a walk give the same walk. -/
theorem chain_agree (fat fat' : List Nat) (n : Nat) :
    ∀ b, (∀ x ∈ chain_blocks fat n b, fat_get fat' x = fat_get fat x) →
      chain_blocks fat' n b = chain_blocks fat n b ∧ chain_at fat' n b = chain_at fat n b ∧
        chain_ok fat' n b = chain_ok fat n b := by
  induction n with
  | zero => intro b _; simp [chain_blocks, chain_at, chain_ok]
  | succ n ih =>
    intro b h
    have hb : fat_get fat' b = fat_get fat b := h b (by simp [chain_blocks])
    have hrest := ih (fat_get fat b) (fun x hx => h x (by simp [chain_blocks, hx]))
    simp [chain_blocks, chain_at, chain_ok, hb, hrest]

theorem free_blocks_length (bs : List Nat) :
    ∀ fat : List Nat, (free_blocks fat bs).length = fat.length := by
  induction bs with
  | nil => intro fat; rfl
  | cons b bs ih =>
    intro fat
    simp only [free_blocks, List.foldl_cons] at ih ⊢
    rw [ih, fat_set_length]

theorem free_blocks_cons (fat : List Nat) (b : Nat) (bs : List Nat) :
    free_blocks fat (b :: bs) = free_blocks (fat_set fat b BLOCK_UNALLOCATED) bs := rfl

theorem free_blocks_get_not_mem (bs : List Nat) :
    ∀ (fat : List Nat) (x : Nat), x ∉ bs → fat_get (free_blocks fat bs) x = fat_get fat x := by
  induction bs with
  | nil => intro fat x _; rfl
  | cons b bs ih =>
    intro fat x hx
    simp only [List.mem_cons, not_or] at hx
    rw [free_blocks_cons, ih _ x hx.2, fat_get_set_ne _ _ _ _ (Ne.symm hx.1)]

theorem free_blocks_get_free (bs : List Nat) :
    ∀ (fat : List Nat) (x : Nat), fat_get fat x = BLOCK_UNALLOCATED →
      fat_get (free_blocks fat bs) x = BLOCK_UNALLOCATED := by
  induction bs with
  | nil => intro fat x h; exact h
  | cons b bs ih =>
    intro fat x h
    rw [free_blocks_cons]
    apply ih
    by_cases hbx : b = x
    · subst hbx; exact fat_get_set_eq fat b _ (lt_length_of_free fat b h)
    · rw [fat_get_set_ne _ _ _ _ hbx]; exact h

theorem free_blocks_get_mem (bs : List Nat) :
    ∀ (fat : List Nat) (x : Nat), x ∈ bs → x < fat.length →
      fat_get (free_blocks fat bs) x = BLOCK_UNALLOCATED := by
  induction bs with
  | nil => intro fat x hx; simp at hx
  | cons b bs ih =>
    intro fat x hx hlt
    rw [free_blocks_cons]
    rcases List.mem_cons.mp hx with rfl | hmem
    · exact free_blocks_get_free bs _ x (fat_get_set_eq fat x _ hlt)
    · exact ih _ x hmem (by rw [fat_set_length]; exact hlt)

/-- On a chain of `n + 1` blocks ending in `BLOCK_LAST`, the chain-freeing loop of
`vmsfs_unlink` ends normally and frees exactly the blocks of the chain. -/
theorem vmsfs_unlink_loop_chain_ok (n : Nat) :
    ∀ (fuel : Nat) (fat : List Nat) (b : Nat), chain_ok fat (n + 1) b = true →
      fat.length = 256 → n + 1 ≤ fuel →
      vmsfs_unlink_loop fuel fat b =
        some (free_blocks fat (chain_blocks fat (n + 1) b), .ok ()) := by
  induction n with
  | zero =>
    intro fuel fat b hok hlen hfuel
    obtain ⟨k, rfl⟩ : ∃ k, fuel = k + 1 := ⟨fuel - 1, by omega⟩
    simp only [chain_ok, Bool.and_eq_true, decide_eq_true_eq] at hok
    have hb : ¬ b > VMS_MAXBLOCKNO := Nat.not_lt.mpr hok.1
    simp [vmsfs_unlink_loop, vms_nextblock, hb, hok.2, chain_blocks, free_blocks]
  | succ n ih =>
    intro fuel fat b hok hlen hfuel
    obtain ⟨k, rfl⟩ : ∃ k, fuel = k + 1 := ⟨fuel - 1, by omega⟩
    have hnd := chain_ok_nodup fat _ b hok
    have hok' := hok
    rw [chain_ok] at hok'
    simp only [Bool.and_eq_true, decide_eq_true_eq] at hok'
    obtain ⟨hb, hrest⟩ := hok'
    have hb' : ¬ b > VMS_MAXBLOCKNO := Nat.not_lt.mpr hb
    have hnext : fat_get fat b ≤ 255 := by
      have := hrest
      rw [chain_ok] at this
      simp only [Bool.and_eq_true, decide_eq_true_eq] at this
      exact this.1
    have hne1 : fat_get fat b ≠ BLOCK_UNALLOCATED := by show _ ≠ 0xfffc; omega
    have hne2 : fat_get fat b ≠ BLOCK_LAST := by show _ ≠ 0xfffa; omega
    rw [chain_blocks, List.nodup_cons] at hnd
    have hagree := chain_agree fat (fat_set fat b BLOCK_UNALLOCATED) (n + 1) (fat_get fat b)
      (fun x hx => fat_get_set_ne _ _ _ _ (fun h => hnd.1 (h ▸ hx)))
    rw [vmsfs_unlink_loop]
    simp only [hb', if_false, vms_nextblock, hne1, hne2]
    rw [ih k _ (fat_get fat b) (by rw [hagree.2.2]; exact hrest) (by rw [fat_set_length]; exact hlen)
      (by omega), hagree.1]
    conv_rhs => rw [chain_blocks, free_blocks_cons]

theorem vms_getfreeblock_set_free (fat : List Nat) (b : Nat) (hlen : fat.length = 256)
    (hb : b < 256) (hne : fat_get fat b ≠ BLOCK_UNALLOCATED) :
    vms_getfreeblock (fat_set fat b BLOCK_UNALLOCATED) = vms_getfreeblock fat + 1 := by
  rw [vms_getfreeblock_eq_count _ (by rw [fat_set_length]; exact hlen),
    vms_getfreeblock_eq_count _ hlen]
  have hb' : b < fat.length := by omega
  unfold fat_set
  rw [List.count_set _ _ _ _ hb']
  have : fat[b] ≠ BLOCK_UNALLOCATED := by
    intro h; apply hne; simp [fat_get, hb', h]
  simp [this]

theorem vms_getfreeblock_set_used (fat : List Nat) (b v : Nat) (hlen : fat.length = 256)
    (hfree : fat_get fat b = BLOCK_UNALLOCATED) (hv : v ≠ BLOCK_UNALLOCATED) :
    vms_getfreeblock (fat_set fat b v) + 1 = vms_getfreeblock fat := by
  rw [vms_getfreeblock_eq_count _ (by rw [fat_set_length]; exact hlen),
    vms_getfreeblock_eq_count _ hlen]
  have hb' : b < fat.length := lt_length_of_free fat b hfree
  unfold fat_set
  rw [List.count_set _ _ _ _ hb']
  have h1 : fat[b] = BLOCK_UNALLOCATED := by
    simpa [fat_get, hb'] using hfree
  have hpos : 0 < List.count BLOCK_UNALLOCATED fat := by
    rw [List.count_pos_iff]; rw [← h1]; exact List.getElem_mem _
  simp [h1, hv]
  omega

theorem vms_getfreeblock_free_blocks (bs : List Nat) :
    ∀ fat : List Nat, fat.length = 256 → bs.Nodup →
      (∀ x ∈ bs, x ≤ VMS_MAXBLOCKNO ∧ fat_get fat x ≠ BLOCK_UNALLOCATED) →
      vms_getfreeblock (free_blocks fat bs) = vms_getfreeblock fat + bs.length := by
  induction bs with
  | nil => intro fat _ _ _; rfl
  | cons b bs ih =>
    intro fat hlen hnd hmem
    rw [List.nodup_cons] at hnd
    rw [free_blocks_cons, ih _ (by rw [fat_set_length]; exact hlen) hnd.2]
    · have hb := hmem b (by simp)
      rw [vms_getfreeblock_set_free fat b hlen (Nat.lt_succ_of_le hb.1) hb.2]
      simp only [List.length_cons]; omega
    · intro x hx
      have hxb : b ≠ x := fun h => hnd.1 (h ▸ hx)
      rw [fat_get_set_ne _ _ _ _ hxb]
      exact hmem x (List.mem_cons_of_mem _ hx)

theorem vms_getfreeblock_linkChain (fs : List Nat) :
    ∀ (blk : Nat) (fat : List Nat), fat.length = 256 → fs.Nodup →
      (∀ f ∈ fs, f ≤ VMS_MAXBLOCKNO ∧ fat_get fat f = BLOCK_UNALLOCATED) →
      blk ≠ BLOCK_UNALLOCATED →
      vms_getfreeblock (linkChain fs blk fat).1 + fs.length = vms_getfreeblock fat := by
  induction fs with
  | nil => intro blk fat _ _ _ _; rfl
  | cons f fs ih =>
    intro blk fat hlen hnd hmem hblk
    rw [List.nodup_cons] at hnd
    have hf := hmem f (by simp)
    have hfne : f ≠ BLOCK_UNALLOCATED := by
      have : f ≤ 255 := hf.1
      show f ≠ 0xfffc
      omega
    rw [linkChain]
    have := ih f (fat_set fat f blk) (by rw [fat_set_length]; exact hlen) hnd.2
      (fun x hx => by
        have hxf : f ≠ x := fun h => hnd.1 (h ▸ hx)
        rw [fat_get_set_ne _ _ _ _ hxf]
        exact hmem x (List.mem_cons_of_mem _ hx)) hfne
    have h2 := vms_getfreeblock_set_used fat f blk hlen hf.2 hblk
    simp only [List.length_cons]
    omega

theorem first_index_some_iff (p : Nat → Bool) (n : Nat) :
    ∀ i j, first_index p n i = some j ↔
      i ≤ j ∧ j < i + n ∧ p j = true ∧ ∀ k, i ≤ k → k < j → p k = false := by
  induction n with
  | zero => intro i j; simp [first_index]; intro h1 h2; omega
  | succ n ih =>
    intro i j
    rw [first_index]
    cases hp : p i with
    | true =>
      simp only [if_true, Option.some.injEq]
      constructor
      · intro hij
        subst hij
        exact ⟨le_refl _, by omega, hp, fun k h1 h2 => by omega⟩
      · rintro ⟨h1, _, _, h4⟩
        by_contra hne
        have := h4 i (le_refl _) (by omega)
        rw [hp] at this; exact absurd this (by simp)
    | false =>
      simp only [Bool.false_eq_true, if_false, ih]
      constructor
      · rintro ⟨h1, h2, h3, h4⟩
        refine ⟨by omega, by omega, h3, fun k hk1 hk2 => ?_⟩
        by_cases hki : k = i
        · subst hki; exact hp
        · exact h4 k (by omega) hk2
      · rintro ⟨h1, h2, h3, h4⟩
        have hij : i ≠ j := by
          intro hij; subst hij; rw [hp] at h3; exact absurd h3 (by simp)
        exact ⟨by omega, by omega, h3, fun k hk1 hk2 => h4 k (by omega) hk2⟩

theorem first_index_none_iff (p : Nat → Bool) (n : Nat) :
    ∀ i, first_index p n i = none ↔ ∀ k, i ≤ k → k < i + n → p k = false := by
  induction n with
  | zero => intro i; simp [first_index]; intro k h1 h2; omega
  | succ n ih =>
    intro i
    rw [first_index]
    cases hp : p i with
    | true =>
      simp only [if_true]
      constructor
      · intro h; exact absurd h (by simp)
      · intro h
        have := h i (le_refl _) (by omega)
        rw [hp] at this; exact absurd this (by simp)
    | false =>
      simp only [Bool.false_eq_true, if_false, ih]
      constructor
      · intro h k hk1 hk2
        by_cases hki : k = i
        · subst hki; exact hp
        · exact h k (by omega) (by omega)
      · intro h k hk1 hk2
        exact h k (by omega) (by omega)

theorem vms_dirent_lookup_loop_eq (dir : List vmsfs_dirent) (filename : List Nat) (n : Nat) :
    ∀ i, vms_dirent_lookup_loop dir filename n i =
      first_index (fun j => decide (dirent_matches dir filename j)) n i := by
  induction n with
  | zero => intro i; rfl
  | succ n ih =>
    intro i
    rw [vms_dirent_lookup_loop, first_index, ih]
    by_cases h1 : (dir_get dir i).type = DIR_TYPE_NONE
    · simp [h1, dirent_matches]
    · by_cases h2 : vms_dirent_filenamecmp (dir_get dir i) filename = 0
      · simp [h1, h2, dirent_matches]
      · simp [h1, h2, dirent_matches]

theorem vms_dirent_alloc_loop_eq (dir : List vmsfs_dirent) (n : Nat) :
    ∀ i, vms_dirent_alloc_loop dir n i =
      first_index (fun j => decide ((dir_get dir j).type = DIR_TYPE_NONE)) n i := by
  induction n with
  | zero => intro i; rfl
  | succ n ih =>
    intro i
    rw [vms_dirent_alloc_loop, first_index, ih]
    by_cases h1 : (dir_get dir i).type = DIR_TYPE_NONE <;> simp [h1]

/-- The function `vms_dirent_lookup` returns the first occupied slot whose name matches. -/
theorem vms_dirent_lookup_ok_iff (s : Vms) (filename : List Nat) (j : Nat) :
    vms_dirent_lookup s filename = .ok j ↔
      strlen filename ≤ DIR_NAMELEN ∧ j < dir_nentries s ∧
        dirent_matches s.vms_dirblk filename j ∧
        ∀ k, k < j → ¬ dirent_matches s.vms_dirblk filename k := by
  unfold vms_dirent_lookup
  by_cases hlen : strlen filename > DIR_NAMELEN
  · simp [hlen]
  · simp only [hlen, if_false]
    have hlen' : strlen filename ≤ DIR_NAMELEN := Nat.le_of_not_lt hlen
    rw [vms_dirent_lookup_loop_eq]
    cases hf : first_index (fun j => decide (dirent_matches s.vms_dirblk filename j))
        (dir_nentries s) 0 with
    | none =>
      rw [first_index_none_iff] at hf
      simp only [reduceCtorEq, false_iff, not_and]
      intro _ hj hm
      have := hf j (Nat.zero_le _) (by omega)
      simp at this
      exact absurd hm this
    | some i =>
      simp only [Except.ok.injEq]
      rw [first_index_some_iff] at hf
      constructor
      · rintro rfl
        refine ⟨hlen', by omega, by simpa using hf.2.2.1, fun k hk => ?_⟩
        simpa using hf.2.2.2 k (Nat.zero_le _) hk
      · rintro ⟨_, h2, h3, h4⟩
        by_contra hne
        rcases Nat.lt_or_gt_of_ne hne with h | h
        · exact h4 i h (by simpa using hf.2.2.1)
        · have := hf.2.2.2 j (Nat.zero_le _) h
          simp at this
          exact this h3

theorem vms_dirent_lookup_error_iff (s : Vms) (filename : List Nat) (e : Errno) :
    vms_dirent_lookup s filename = .error e ↔
      e = Errno.ENOENT ∧ (strlen filename > DIR_NAMELEN ∨
        ∀ k, k < dir_nentries s → ¬ dirent_matches s.vms_dirblk filename k) := by
  unfold vms_dirent_lookup
  by_cases hlen : strlen filename > DIR_NAMELEN
  · simp [hlen]; exact eq_comm
  · simp only [hlen, if_false, false_or]
    rw [vms_dirent_lookup_loop_eq]
    cases hf : first_index (fun j => decide (dirent_matches s.vms_dirblk filename j))
        (dir_nentries s) 0 with
    | none =>
      rw [first_index_none_iff] at hf
      simp only [Except.error.injEq]
      constructor
      · rintro rfl
        exact ⟨rfl, fun k hk => by simpa using hf k (Nat.zero_le _) (by omega)⟩
      · rintro ⟨rfl, _⟩; rfl
    | some i =>
      rw [first_index_some_iff] at hf
      simp only [reduceCtorEq, false_iff, not_and]
      intro _ h
      exact h i (by omega) (by simpa using hf.2.2.1)

theorem vms_dirent_alloc_ok_iff (s : Vms) (j : Nat) :
    vms_dirent_alloc s = .ok j ↔
      j < dir_nentries s ∧ (dir_get s.vms_dirblk j).type = DIR_TYPE_NONE ∧
        ∀ k, k < j → (dir_get s.vms_dirblk k).type ≠ DIR_TYPE_NONE := by
  unfold vms_dirent_alloc
  rw [vms_dirent_alloc_loop_eq]
  cases hf : first_index (fun j => decide ((dir_get s.vms_dirblk j).type = DIR_TYPE_NONE))
      (dir_nentries s) 0 with
  | none =>
    rw [first_index_none_iff] at hf
    simp only [reduceCtorEq, false_iff, not_and]
    intro hj hm
    have := hf j (Nat.zero_le _) (by omega)
    simp at this
    exact absurd hm this
  | some i =>
    simp only [Except.ok.injEq]
    rw [first_index_some_iff] at hf
    constructor
    · rintro rfl
      refine ⟨by omega, by simpa using hf.2.2.1, fun k hk => ?_⟩
      simpa using hf.2.2.2 k (Nat.zero_le _) hk
    · rintro ⟨h2, h3, h4⟩
      by_contra hne
      rcases Nat.lt_or_gt_of_ne hne with h | h
      · exact h4 i h (by simpa using hf.2.2.1)
      · have := hf.2.2.2 j (Nat.zero_le _) h
        simp at this
        exact this h3

theorem vms_dirent_alloc_error_iff (s : Vms) (e : Errno) :
    vms_dirent_alloc s = .error e ↔
      e = Errno.ENOSPC ∧ ∀ k, k < dir_nentries s → (dir_get s.vms_dirblk k).type ≠ DIR_TYPE_NONE := by
  unfold vms_dirent_alloc
  rw [vms_dirent_alloc_loop_eq]
  cases hf : first_index (fun j => decide ((dir_get s.vms_dirblk j).type = DIR_TYPE_NONE))
      (dir_nentries s) 0 with
  | none =>
    rw [first_index_none_iff] at hf
    simp only [Except.error.injEq]
    constructor
    · rintro rfl
      exact ⟨rfl, fun k hk => by simpa using hf k (Nat.zero_le _) (by omega)⟩
    · rintro ⟨rfl, _⟩; rfl
  | some i =>
    rw [first_index_some_iff] at hf
    simp only [reduceCtorEq, false_iff, not_and]
    intro _ h
    exact h i (by omega) (by simpa using hf.2.2.1)

theorem dir_get_set_eq (dir : List vmsfs_dirent) (j : Nat) (e : vmsfs_dirent)
    (h : j < dir.length) : dir_get (dir.set j e) j = e := by
  simp [dir_get, List.getElem?_set, h]

theorem dir_get_set_ne (dir : List vmsfs_dirent) (i j : Nat) (e : vmsfs_dirent) (h : j ≠ i) :
    dir_get (dir.set j e) i = dir_get dir i := by
  simp [dir_get, List.getElem?_set_ne h]

@[simp] theorem vms_save_fat_fatblk (s : Vms) : (vms_save_fat s).1.vms_fatblk = s.vms_fatblk := rfl
@[simp] theorem vms_save_fat_dirblk (s : Vms) : (vms_save_fat s).1.vms_dirblk = s.vms_dirblk := rfl
@[simp] theorem vms_save_fat_rootblk (s : Vms) :
    (vms_save_fat s).1.vms_rootblk = s.vms_rootblk := rfl
@[simp] theorem vms_save_dir_fatblk (s : Vms) : (vms_save_dir s).1.vms_fatblk = s.vms_fatblk := rfl
@[simp] theorem vms_save_dir_dirblk (s : Vms) : (vms_save_dir s).1.vms_dirblk = s.vms_dirblk := rfl
@[simp] theorem vms_save_dir_rootblk (s : Vms) :
    (vms_save_dir s).1.vms_rootblk = s.vms_rootblk := rfl

theorem dir_nentries_congr (s t : Vms) (h : t.vms_rootblk = s.vms_rootblk) :
    dir_nentries t = dir_nentries s := by
  simp [dir_nentries, h]

theorem vmsfs_unlink_of_lookup_error (s : Vms) (file : List Nat) (e : Errno)
    (h : vms_dirent_lookup s file = .error e) :
    vmsfs_unlink s file = (s, .error Errno.ENOENT) := by
  unfold vmsfs_unlink; rw [h]

theorem vmsfs_unlink_of_loop_error (s : Vms) (file : List Nat) (dp : Nat) (fat : List Nat)
    (e : Errno) (h : vms_dirent_lookup s file = .ok dp)
    (hl : vmsfs_unlink_loop (VMS_NUM_BLOCKS + 1) s.vms_fatblk (dir_get s.vms_dirblk dp).block =
      some (fat, .error e)) :
    vmsfs_unlink s file = ({ s with vms_fatblk := fat }, .error e) := by
  unfold vmsfs_unlink; rw [h]; simp only; rw [hl]

theorem vmsfs_unlink_of_loop_ok (s : Vms) (file : List Nat) (dp : Nat) (fat : List Nat)
    (h : vms_dirent_lookup s file = .ok dp)
    (hl : vmsfs_unlink_loop (VMS_NUM_BLOCKS + 1) s.vms_fatblk (dir_get s.vms_dirblk dp).block =
      some (fat, .ok ())) :
    vmsfs_unlink s file =
      ((vms_save_fat (vms_save_dir { s with
        vms_fatblk := fat
        vms_dirblk := s.vms_dirblk.set dp
          { dir_get s.vms_dirblk dp with type := DIR_TYPE_NONE } }).1).1, .ok ()) := by
  unfold vmsfs_unlink; rw [h]; simp only; rw [hl]

/-- A successful `vmsfs_unlink` found a slot, freed its chain and cleared its type. -/
theorem vmsfs_unlink_ok (s : Vms) (file : List Nat) (h : (vmsfs_unlink s file).2 = .ok ()) :
    ∃ dp fat, vms_dirent_lookup s file = .ok dp ∧
      vmsfs_unlink_loop (VMS_NUM_BLOCKS + 1) s.vms_fatblk (dir_get s.vms_dirblk dp).block =
        some (fat, .ok ()) ∧
      (vmsfs_unlink s file).1.vms_fatblk = fat ∧
      (vmsfs_unlink s file).1.vms_dirblk =
        s.vms_dirblk.set dp { dir_get s.vms_dirblk dp with type := DIR_TYPE_NONE } ∧
      (vmsfs_unlink s file).1.vms_rootblk = s.vms_rootblk := by
  cases hl : vms_dirent_lookup s file with
  | error e => rw [vmsfs_unlink_of_lookup_error s file e hl] at h; simp at h
  | ok dp =>
    cases hloop : vmsfs_unlink_loop (VMS_NUM_BLOCKS + 1) s.vms_fatblk
        (dir_get s.vms_dirblk dp).block with
    | none =>
      unfold vmsfs_unlink at h; rw [hl] at h; simp only at h; rw [hloop] at h; simp at h
    | some r =>
      obtain ⟨fat, res⟩ := r
      cases res with
      | error e => rw [vmsfs_unlink_of_loop_error s file dp fat e hl hloop] at h; simp at h
      | ok u =>
        refine ⟨dp, fat, rfl, hloop, ?_⟩
        · rw [vmsfs_unlink_of_loop_ok s file dp fat hl hloop]
          exact ⟨rfl, rfl, rfl⟩

/-- A list of in-range blocks, each linked to the next and the last to `BLOCK_LAST`, is a
chain of exactly that many blocks. -/
theorem chain_ok_of_chain (fat : List Nat) (l : List Nat) :
    ∀ b, (∀ x ∈ b :: l, x ≤ VMS_MAXBLOCKNO) →
      List.Chain' (fun a c => fat_get fat a = c) (b :: l ++ [BLOCK_LAST]) →
      chain_blocks fat (l.length + 1) b = b :: l ∧ chain_ok fat (l.length + 1) b = true := by
  induction l with
  | nil =>
    intro b hb hc
    have : fat_get fat b = BLOCK_LAST := by simpa using hc
    have hb' : b ≤ VMS_MAXBLOCKNO := hb b (by simp)
    simp [chain_blocks, chain_ok, this, hb']
  | cons c l ih =>
    intro b hb hc
    have hb' : b ≤ VMS_MAXBLOCKNO := hb b (by simp)
    simp only [List.cons_append, List.chain'_cons] at hc
    have hrest := ih c (fun x hx => hb x (List.mem_cons_of_mem _ hx)) (by simpa using hc.2)
    simp only [List.length_cons]
    rw [chain_blocks, chain_ok, hc.1, hrest.1, hrest.2]
    simp [hb']

/-- The table produced by a successful `vms_allocate_fat(n)`, `n ≥ 1`: the new chain has
exactly `n` blocks, the first `n` free slots in descending order. -/
theorem vms_allocate_fat_chain (fat : List Nat) (n : Nat) (h1 : 1 ≤ n)
    (h2 : n ≤ vms_getfreeblock fat) :
    ∃ head fat', vms_allocate_fat fat n = (fat', .ok head) ∧
      fat' = (linkChain ((freeSlots fat).take n) BLOCK_LAST fat).1 ∧
      head ≤ VMS_MAXBLOCKNO ∧
      chain_blocks fat' n head = ((freeSlots fat).take n).reverse ∧
      chain_ok fat' n head = true := by
  rw [vms_allocate_fat_eq_linkChain fat n h2]
  refine ⟨_, _, rfl, rfl, ?_⟩
  have hlen : n ≤ (freeSlots fat).length := by rw [← vms_getfreeblock_eq_length]; exact h2
  set fs := (freeSlots fat).take n with hfs
  have hfslen : fs.length = n := by simp [hfs, hlen]
  have hnd : fs.Nodup := (freeSlots_nodup fat).sublist (List.take_sublist _ _)
  have hmem : ∀ f ∈ fs, f ≤ VMS_MAXBLOCKNO ∧ fat_get fat f = BLOCK_UNALLOCATED := fun f hf =>
    (mem_freeSlots fat f).mp (List.mem_of_mem_take hf)
  have hlt : ∀ f ∈ fs, f < fat.length := fun f hf => lt_length_of_free fat f (hmem f hf).2
  have hne : fs ≠ [] := by
    intro h0; rw [h0] at hfslen; simp at hfslen; omega
  have hchain := linkChain_chain fs BLOCK_LAST fat hnd hlt
  have hhead : (linkChain fs BLOCK_LAST fat).2 = fs.getLast hne := by
    rw [linkChain_head, List.getLast?_eq_getLast _ hne]; rfl
  obtain ⟨b, l, hbl⟩ : ∃ b l, fs.reverse = b :: l := by
    cases hr : fs.reverse with
    | nil => simp at hr; exact absurd hr hne
    | cons b l => exact ⟨b, l, rfl⟩
  have hb : (linkChain fs BLOCK_LAST fat).2 = b := by
    rw [hhead, List.getLast_eq_head_reverse]
    simp [hbl]
  have hln : l.length + 1 = n := by
    have : (b :: l).length = n := by rw [← hbl, List.length_reverse, hfslen]
    simpa using this
  have hall : ∀ x ∈ b :: l, x ≤ VMS_MAXBLOCKNO := by
    intro x hx
    rw [← hbl] at hx
    exact (hmem x (List.mem_reverse.mp hx)).1
  have hres := chain_ok_of_chain (linkChain fs BLOCK_LAST fat).1 l b hall (by rw [← hbl]; exact hchain)
  rw [hln] at hres
  rw [hb, hbl]
  exact ⟨hall b (by simp), hres.1, hres.2⟩

theorem nblk_of_size_pos (size : Nat) (h : size ≠ 0) : 1 ≤ nblk_of_size size := by
  unfold nblk_of_size
  simp only [VMS_BLOCKSIZE]
  omega

/-- A successful `vmsfs_writefile` passed every check. -/
theorem vmsfs_writefile_ok_cond (s : Vms) (filename buf : List Nat) (size : Nat) (mtime : Tm)
    (dp : Nat) (h : (vmsfs_writefile s filename buf size mtime).2 = .ok dp) :
    strlen filename ≤ DIR_NAMELEN ∧ size ≠ 0 ∧ nblk_of_size size ≤ VMS_MAXBLOCKNO ∧
      vms_dirent_alloc s = .ok dp ∧ nblk_of_size size ≤ vms_getfreeblock s.vms_fatblk := by
  unfold vmsfs_writefile at h
  by_cases h1 : strlen filename > DIR_NAMELEN
  · rw [if_pos h1] at h; exact absurd h (by simp)
  rw [if_neg h1] at h
  by_cases h2 : size = 0
  · rw [if_pos h2] at h; exact absurd h (by simp)
  rw [if_neg h2] at h
  dsimp only at h
  by_cases h3 : (size + VMS_BLOCKSIZE - 1) / VMS_BLOCKSIZE > VMS_MAXBLOCKNO
  · rw [if_pos h3] at h; exact absurd h (by simp)
  rw [if_neg h3] at h
  cases h4 : vms_dirent_alloc s with
  | error e => rw [h4] at h; exact absurd h (by simp)
  | ok dp' =>
    rw [h4] at h
    dsimp only at h
    by_cases h5 : (size + VMS_BLOCKSIZE - 1) / VMS_BLOCKSIZE > vms_getfreeblock s.vms_fatblk
    · have : vms_allocate_fat s.vms_fatblk ((size + VMS_BLOCKSIZE - 1) / VMS_BLOCKSIZE) =
          (s.vms_fatblk, .error Errno.ENOSPC) := by
        unfold vms_allocate_fat; rw [if_pos h5]
      rw [this] at h
      exact absurd h (by simp)
    · refine ⟨Nat.le_of_not_lt h1, h2, Nat.le_of_not_lt h3, ?_, Nat.le_of_not_lt h5⟩
      rw [vms_allocate_fat_eq_linkChain _ _ (Nat.le_of_not_lt h5)] at h
      dsimp only at h
      split at h
      · exact absurd h (by simp)
      · simp only [Except.ok.injEq] at h; rw [h]

/-- The result of `vmsfs_writefile` when every check passes: the first `nblk` free slots are
linked into a chain, the payload is written along it and the slot is filled in. -/
theorem vmsfs_writefile_eq (s : Vms) (filename buf : List Nat) (size : Nat) (mtime : Tm)
    (dp : Nat) (h1 : strlen filename ≤ DIR_NAMELEN) (h2 : size ≠ 0)
    (h3 : nblk_of_size size ≤ VMS_MAXBLOCKNO) (h4 : vms_dirent_alloc s = .ok dp)
    (h5 : nblk_of_size size ≤ vms_getfreeblock s.vms_fatblk) :
    ∃ head fat, fat = (linkChain ((freeSlots s.vms_fatblk).take (nblk_of_size size))
          BLOCK_LAST s.vms_fatblk).1 ∧
      head ≤ VMS_MAXBLOCKNO ∧
      chain_blocks fat (nblk_of_size size) head =
        ((freeSlots s.vms_fatblk).take (nblk_of_size size)).reverse ∧
      chain_ok fat (nblk_of_size size) head = true ∧
      vmsfs_writefile s filename buf size mtime =
        ({ vms_fd := write_chunks buf (chain_blocks fat (nblk_of_size size) head) 0 s.vms_fd
           vms_rootblk := s.vms_rootblk
           vms_fatblk := fat
           vms_dirblk := s.vms_dirblk.set dp
             (written_dirent filename (nblk_of_size size) mtime head) }, .ok dp) := by
  obtain ⟨head, fat, halloc, hfat, hhead, hblocks, hok⟩ :=
    vms_allocate_fat_chain s.vms_fatblk (nblk_of_size size) (nblk_of_size_pos size h2) h5
  refine ⟨head, fat, hfat, hhead, hblocks, hok, ?_⟩
  have hin : ∀ j, j < nblk_of_size size → chain_at fat j head ≤ VMS_MAXBLOCKNO :=
    ((chain_ok_iff fat _ head).mp hok).1
  have hw := vms_write_blocks_ok fat s.vms_fd buf head (nblk_of_size size)
    (nblk_of_size_pos size h2) hin
  unfold vmsfs_writefile
  unfold nblk_of_size at halloc hw h3 ⊢
  have hn : (size + VMS_BLOCKSIZE - 1) / VMS_BLOCKSIZE % 65536 =
      (size + VMS_BLOCKSIZE - 1) / VMS_BLOCKSIZE := by
    apply Nat.mod_eq_of_lt
    simp only [VMS_MAXBLOCKNO] at h3
    omega
  have hh : head % 65536 = head := by
    apply Nat.mod_eq_of_lt
    simp only [VMS_MAXBLOCKNO] at hhead
    omega
  simp only [Nat.not_lt.mpr h1, h2, Nat.not_lt.mpr h3, if_false, h4, halloc, hw, hn, hh]
  rfl

theorem nodup_length_le (l : List Nat) (n : Nat) (hnd : l.Nodup) (h : ∀ x ∈ l, x < n) :
    l.length ≤ n := by
  have hsub : l ⊆ List.range n := fun x hx => List.mem_range.mpr (h x hx)
  have := (List.subperm_of_subset hnd hsub).length_le
  simpa using this

theorem chain_ok_length_le (fat : List Nat) (n b : Nat) (h : chain_ok fat n b = true) :
    n ≤ 256 := by
  have h1 := nodup_length_le _ 256 (chain_ok_nodup fat n b h)
    (fun x hx => Nat.lt_succ_of_le (chain_ok_mem fat n b x h hx).1)
  rwa [chain_blocks_length] at h1

/-- On a chain that is already at `BLOCK_LAST` the loop of `vmsfs_unlink` returns at once
with the table untouched. -/
theorem vmsfs_unlink_loop_chain_zero (fat : List Nat) (b : Nat) (fuel : Nat)
    (h : chain_ok fat 0 b = true) :
    vmsfs_unlink_loop (fuel + 1) fat b = some (fat, .error Errno.ENXIO) := by
  simp only [chain_ok, decide_eq_true_eq] at h
  subst h
  have hgt : BLOCK_LAST > VMS_MAXBLOCKNO := by decide
  rw [vmsfs_unlink_loop]
  simp only [hgt, if_true]

/-- The effect of `vmsfs_unlink` on a state with chain integrity: a successful call found slot
`dp`, whose chain has at least one block, freed exactly the blocks of that chain and cleared
the type. -/
theorem vmsfs_unlink_ok_wf (s : Vms) (file : List Nat) (hL : Loaded s) (hok : ChainsOk s)
    (h : (vmsfs_unlink s file).2 = .ok ()) :
    ∃ dp, vms_dirent_lookup s file = .ok dp ∧ 1 ≤ (dir_get s.vms_dirblk dp).size ∧
      (vmsfs_unlink s file).1.vms_fatblk = free_blocks s.vms_fatblk (entry_chain s dp) ∧
      (vmsfs_unlink s file).1.vms_dirblk =
        s.vms_dirblk.set dp { dir_get s.vms_dirblk dp with type := DIR_TYPE_NONE } ∧
      (vmsfs_unlink s file).1.vms_rootblk = s.vms_rootblk := by
  obtain ⟨dp, fat, hl, hloop, hfat, hdir, hroot⟩ := vmsfs_unlink_ok s file h
  have hm := (vms_dirent_lookup_ok_iff s file dp).mp hl
  have hc := hok dp hm.2.1 hm.2.2.1.1
  refine ⟨dp, hl, ?_, ?_, hdir, hroot⟩
  · by_contra hz
    have hz0 : (dir_get s.vms_dirblk dp).size = 0 := by omega
    rw [hz0] at hc
    rw [vmsfs_unlink_loop_chain_zero _ _ _ hc] at hloop
    simp at hloop
  · rw [hfat]
    cases hsz : (dir_get s.vms_dirblk dp).size with
    | zero =>
      rw [hsz] at hc
      rw [vmsfs_unlink_loop_chain_zero _ _ _ hc] at hloop
      simp at hloop
    | succ n =>
      rw [hsz] at hc
      have hle := chain_ok_length_le _ _ _ hc
      rw [vmsfs_unlink_loop_chain_ok n _ _ _ hc hL.1 (by simp only [VMS_NUM_BLOCKS]; omega)] at hloop
      simp only [Option.some.injEq, Prod.mk.injEq, and_true] at hloop
      rw [← hloop, entry_chain, hsz]

/-- On a state with chain integrity `vmsfs_unlink` changes nothing when it fails. -/
theorem vmsfs_unlink_fail_wf (s : Vms) (file : List Nat) (hok : ChainsOk s)
    (hL : Loaded s) (h : (vmsfs_unlink s file).2 ≠ .ok ()) :
    (vmsfs_unlink s file).1 = s := by
  cases hl : vms_dirent_lookup s file with
  | error e => rw [vmsfs_unlink_of_lookup_error s file e hl]
  | ok dp =>
    have hm := (vms_dirent_lookup_ok_iff s file dp).mp hl
    have hc := hok dp hm.2.1 hm.2.2.1.1
    cases hsz : (dir_get s.vms_dirblk dp).size with
    | zero =>
      rw [hsz] at hc
      rw [vmsfs_unlink_of_loop_error s file dp _ _ hl (vmsfs_unlink_loop_chain_zero _ _ _ hc)]
    | succ n =>
      rw [hsz] at hc
      have hle := chain_ok_length_le _ _ _ hc
      have hloop := vmsfs_unlink_loop_chain_ok n (VMS_NUM_BLOCKS + 1) _ _ hc hL.1
        (by simp only [VMS_NUM_BLOCKS]; omega)
      rw [vmsfs_unlink_of_loop_ok s file dp _ hl hloop] at h
      exact absurd rfl h

theorem sum_map_set {α : Type} (f : α → Nat) (l : List α) :
    ∀ (j : Nat) (e : α) (h : j < l.length),
      ((l.set j e).map f).sum + f (l.get ⟨j, h⟩) = (l.map f).sum + f e := by
  induction l with
  | nil => intro j e h; simp at h
  | cons a l ih =>
    intro j e h
    cases j with
    | zero => simp; omega
    | succ j =>
      have := ih j e (by simpa using h)
      simp at this ⊢
      omega

theorem dir_get_eq_get (dir : List vmsfs_dirent) (j : Nat) (h : j < dir.length) :
    dir_get dir j = dir.get ⟨j, h⟩ := by
  simp [dir_get, h]

theorem total_blksize_set (s t : Vms) (dp : Nat) (e : vmsfs_dirent)
    (hdp : dp < s.vms_dirblk.length) (hdir : t.vms_dirblk = s.vms_dirblk.set dp e) :
    total_blksize t + (if (dir_get s.vms_dirblk dp).type = DIR_TYPE_NONE then 0
        else (dir_get s.vms_dirblk dp).size) =
      total_blksize s + (if e.type = DIR_TYPE_NONE then 0 else e.size) := by
  unfold total_blksize
  rw [hdir, dir_get_eq_get _ _ hdp]
  exact sum_map_set _ _ dp e hdp

/-- What a successful `vmsfs_unlink` does to a state with chain integrity. -/
theorem vmsfs_unlink_preserves (s : Vms) (file : List Nat) (hL : Loaded s) (hok : ChainsOk s)
    (hdj : ChainsDisjoint s) (h : (vmsfs_unlink s file).2 = .ok ()) :
    Loaded (vmsfs_unlink s file).1 ∧ ChainsOk (vmsfs_unlink s file).1 ∧
      ChainsDisjoint (vmsfs_unlink s file).1 := by
  obtain ⟨dp, hl, hsz, hfat, hdir, hroot⟩ := vmsfs_unlink_ok_wf s file hL hok h
  have hm := (vms_dirent_lookup_ok_iff s file dp).mp hl
  have hn : dir_nentries (vmsfs_unlink s file).1 = dir_nentries s := dir_nentries_congr _ _ hroot
  have hdplt : dp < s.vms_dirblk.length := by rw [hL.2]; exact hm.2.1
  have hget : ∀ i, i ≠ dp →
      dir_get (vmsfs_unlink s file).1.vms_dirblk i = dir_get s.vms_dirblk i := by
    intro i hi
    rw [hdir, dir_get_set_ne _ _ _ _ (Ne.symm hi)]
  have hgetdp : (dir_get (vmsfs_unlink s file).1.vms_dirblk dp).type = DIR_TYPE_NONE := by
    rw [hdir, dir_get_set_eq _ _ _ hdplt]
  have hframe : ∀ i, i < dir_nentries s → i ≠ dp →
      (dir_get s.vms_dirblk i).type ≠ DIR_TYPE_NONE →
      entry_chain (vmsfs_unlink s file).1 i = entry_chain s i ∧
      chain_ok (vmsfs_unlink s file).1.vms_fatblk (dir_get s.vms_dirblk i).size
        (dir_get s.vms_dirblk i).block = true := by
    intro i hi hidp hocc
    have hag := chain_agree s.vms_fatblk (vmsfs_unlink s file).1.vms_fatblk
      (dir_get s.vms_dirblk i).size (dir_get s.vms_dirblk i).block (fun x hx => by
        rw [hfat]
        exact free_blocks_get_not_mem _ _ x
          (hdj i hi hocc dp hm.2.1 hidp hm.2.2.1.1 x hx))
    refine ⟨?_, ?_⟩
    · unfold entry_chain
      rw [hget i hidp]
      exact hag.1
    · rw [hag.2.2]; exact hok i hi hocc
  refine ⟨⟨?_, ?_⟩, ?_, ?_⟩
  · rw [hfat, free_blocks_length]; exact hL.1
  · rw [hn, hdir, List.length_set]; exact hL.2
  · intro i hi hocc
    rw [hn] at hi
    by_cases hidp : i = dp
    · subst hidp; exact absurd hgetdp hocc
    · rw [hget i hidp] at hocc ⊢
      exact (hframe i hi hidp hocc).2
  · intro i hi hocci j hj hij hoccj x hxi hxj
    rw [hn] at hi hj
    by_cases hidp : i = dp
    · subst hidp; exact absurd hgetdp hocci
    by_cases hjdp : j = dp
    · subst hjdp; exact absurd hgetdp hoccj
    rw [hget i hidp] at hocci
    rw [hget j hjdp] at hoccj
    rw [(hframe i hi hidp hocci).1] at hxi
    rw [(hframe j hj hjdp hoccj).1] at hxj
    exact hdj i hi hocci j hj hij hoccj x hxi hxj

/-- Accounting of a successful `vmsfs_unlink` on a state with chain integrity. -/
theorem vmsfs_unlink_accounting (s : Vms) (file : List Nat) (hL : Loaded s) (hok : ChainsOk s)
    (h : (vmsfs_unlink s file).2 = .ok ()) :
    ∃ dp, vms_dirent_lookup s file = .ok dp ∧
      vms_getfreeblock (vmsfs_unlink s file).1.vms_fatblk =
        vms_getfreeblock s.vms_fatblk + (dir_get s.vms_dirblk dp).size ∧
      total_blksize (vmsfs_unlink s file).1 + (dir_get s.vms_dirblk dp).size =
        total_blksize s := by
  obtain ⟨dp, hl, hsz, hfat, hdir, hroot⟩ := vmsfs_unlink_ok_wf s file hL hok h
  have hm := (vms_dirent_lookup_ok_iff s file dp).mp hl
  have hdplt : dp < s.vms_dirblk.length := by rw [hL.2]; exact hm.2.1
  have hc := hok dp hm.2.1 hm.2.2.1.1
  refine ⟨dp, hl, ?_, ?_⟩
  · rw [hfat]
    unfold entry_chain
    rw [vms_getfreeblock_free_blocks _ _ hL.1 (chain_ok_nodup _ _ _ hc)
      (fun x hx => chain_ok_mem _ _ _ x hc hx), chain_blocks_length]
  · have := total_blksize_set s (vmsfs_unlink s file).1 dp _ hdplt hdir
    simpa [hm.2.2.1.1] using this

/-- A successful `vmsfs_writefile` in full: the checks it passed and the state it leaves. -/
theorem vmsfs_writefile_ok (s : Vms) (filename buf : List Nat) (size : Nat) (mtime : Tm)
    (dp : Nat) (h : (vmsfs_writefile s filename buf size mtime).2 = .ok dp) :
    1 ≤ nblk_of_size size ∧ nblk_of_size size ≤ VMS_MAXBLOCKNO ∧
    nblk_of_size size ≤ vms_getfreeblock s.vms_fatblk ∧ strlen filename ≤ DIR_NAMELEN ∧
    vms_dirent_alloc s = .ok dp ∧
    ∃ head, head ≤ VMS_MAXBLOCKNO ∧
      chain_blocks (linkChain ((freeSlots s.vms_fatblk).take (nblk_of_size size))
          BLOCK_LAST s.vms_fatblk).1 (nblk_of_size size) head =
        ((freeSlots s.vms_fatblk).take (nblk_of_size size)).reverse ∧
      chain_ok (linkChain ((freeSlots s.vms_fatblk).take (nblk_of_size size))
          BLOCK_LAST s.vms_fatblk).1 (nblk_of_size size) head = true ∧
      (vmsfs_writefile s filename buf size mtime).1 =
        { vms_fd := write_chunks buf
            ((freeSlots s.vms_fatblk).take (nblk_of_size size)).reverse 0 s.vms_fd
          vms_rootblk := s.vms_rootblk
          vms_fatblk := (linkChain ((freeSlots s.vms_fatblk).take (nblk_of_size size))
            BLOCK_LAST s.vms_fatblk).1
          vms_dirblk := s.vms_dirblk.set dp
            (written_dirent filename (nblk_of_size size) mtime head) } := by
  obtain ⟨h1, h2, h3, h4, h5⟩ := vmsfs_writefile_ok_cond s filename buf size mtime dp h
  obtain ⟨head, fat, hfat, hhead, hblocks, hok, heq⟩ :=
    vmsfs_writefile_eq s filename buf size mtime dp h1 h2 h3 h4 h5
  subst hfat
  refine ⟨nblk_of_size_pos size h2, h3, h5, h1, h4, head, hhead, hblocks, hok, ?_⟩
  rw [heq, hblocks]

/-- The slot found by `vms_dirent_alloc` lies inside the directory of a loaded session. -/
theorem vms_dirent_alloc_lt (s : Vms) (dp : Nat) (hL : Loaded s)
    (h : vms_dirent_alloc s = .ok dp) :
    dp < s.vms_dirblk.length ∧ (dir_get s.vms_dirblk dp).type = DIR_TYPE_NONE := by
  have := (vms_dirent_alloc_ok_iff s dp).mp h
  exact ⟨by rw [hL.2]; exact this.1, this.2.1⟩

/-- What a successful `vmsfs_writefile` does to a state with chain integrity. -/
theorem vmsfs_writefile_preserves (s : Vms) (filename buf : List Nat) (size : Nat) (mtime : Tm)
    (dp : Nat) (hL : Loaded s) (hok : ChainsOk s) (hdj : ChainsDisjoint s)
    (h : (vmsfs_writefile s filename buf size mtime).2 = .ok dp) :
    Loaded (vmsfs_writefile s filename buf size mtime).1 ∧
      ChainsOk (vmsfs_writefile s filename buf size mtime).1 ∧
      ChainsDisjoint (vmsfs_writefile s filename buf size mtime).1 := by
  obtain ⟨hn1, hn255, hnfree, hname, halloc, head, hhead, hblocks, hcok, hst⟩ :=
    vmsfs_writefile_ok s filename buf size mtime dp h
  obtain ⟨hdplt, hdpnone⟩ := vms_dirent_alloc_lt s dp hL halloc
  rw [hst]
  set fs := (freeSlots s.vms_fatblk).take (nblk_of_size size) with hfs
  set fat := (linkChain fs BLOCK_LAST s.vms_fatblk).1 with hfat
  set t : Vms :=
    { vms_fd := write_chunks buf fs.reverse 0 s.vms_fd
      vms_rootblk := s.vms_rootblk
      vms_fatblk := fat
      vms_dirblk := s.vms_dirblk.set dp (written_dirent filename (nblk_of_size size) mtime head) }
    with ht
  have hn : dir_nentries t = dir_nentries s := rfl
  have hmemfs : ∀ x ∈ fs, fat_get s.vms_fatblk x = BLOCK_UNALLOCATED := fun x hx =>
    ((mem_freeSlots _ x).mp (List.mem_of_mem_take hx)).2
  have hget : ∀ i, i ≠ dp → dir_get t.vms_dirblk i = dir_get s.vms_dirblk i := by
    intro i hi
    exact dir_get_set_ne _ _ _ _ (Ne.symm hi)
  have hgetdp : dir_get t.vms_dirblk dp =
      written_dirent filename (nblk_of_size size) mtime head :=
    dir_get_set_eq _ _ _ hdplt
  have hnewchain : entry_chain t dp = fs.reverse := by
    unfold entry_chain
    rw [hgetdp]
    exact hblocks
  have hframe : ∀ i, i < dir_nentries s → i ≠ dp →
      (dir_get s.vms_dirblk i).type ≠ DIR_TYPE_NONE →
      entry_chain t i = entry_chain s i ∧
      chain_ok fat (dir_get s.vms_dirblk i).size (dir_get s.vms_dirblk i).block = true ∧
      ∀ x ∈ entry_chain s i, x ∉ fs := by
    intro i hi hidp hocc
    have hci := hok i hi hocc
    have hnot : ∀ x ∈ entry_chain s i, x ∉ fs := fun x hx hxfs =>
      (chain_ok_mem _ _ _ x hci hx).2 (hmemfs x hxfs)
    have hag := chain_agree s.vms_fatblk fat
      (dir_get s.vms_dirblk i).size (dir_get s.vms_dirblk i).block (fun x hx =>
        linkChain_frame fs BLOCK_LAST s.vms_fatblk x (hnot x hx))
    refine ⟨?_, ?_, hnot⟩
    · unfold entry_chain
      rw [hget i hidp]
      exact hag.1
    · rw [hag.2.2]; exact hci
  refine ⟨⟨?_, ?_⟩, ?_, ?_⟩
  · show fat.length = _
    rw [hfat, linkChain_length]; exact hL.1
  · show (s.vms_dirblk.set dp _).length = _
    rw [List.length_set, hn]; exact hL.2
  · intro i hi hocc
    rw [hn] at hi
    by_cases hidp : i = dp
    · subst hidp
      rw [hgetdp]
      exact hcok
    · rw [hget i hidp] at hocc ⊢
      exact (hframe i hi hidp hocc).2.1
  · intro i hi hocci j hj hij hoccj x hxi hxj
    rw [hn] at hi hj
    by_cases hidp : i = dp
    · subst hidp
      have hjdp : j ≠ i := Ne.symm hij
      rw [hget j hjdp] at hoccj
      rw [hnewchain] at hxi
      rw [(hframe j hj hjdp hoccj).1] at hxj
      exact (hframe j hj hjdp hoccj).2.2 x hxj (List.mem_reverse.mp hxi)
    · rw [hget i hidp] at hocci
      rw [(hframe i hi hidp hocci).1] at hxi
      by_cases hjdp : j = dp
      · subst hjdp
        rw [hnewchain] at hxj
        exact (hframe i hi hidp hocci).2.2 x hxi (List.mem_reverse.mp hxj)
      · rw [hget j hjdp] at hoccj
        rw [(hframe j hj hjdp hoccj).1] at hxj
        exact hdj i hi hocci j hj hij hoccj x hxi hxj

/-- Accounting of a successful `vmsfs_writefile`. -/
theorem vmsfs_writefile_accounting (s : Vms) (filename buf : List Nat) (size : Nat) (mtime : Tm)
    (dp : Nat) (hL : Loaded s)
    (h : (vmsfs_writefile s filename buf size mtime).2 = .ok dp) :
    (dir_get (vmsfs_writefile s filename buf size mtime).1.vms_dirblk dp).size =
        nblk_of_size size ∧
      vms_getfreeblock (vmsfs_writefile s filename buf size mtime).1.vms_fatblk +
        nblk_of_size size = vms_getfreeblock s.vms_fatblk ∧
      total_blksize (vmsfs_writefile s filename buf size mtime).1 =
        total_blksize s + nblk_of_size size := by
  obtain ⟨hn1, hn255, hnfree, hname, halloc, head, hhead, hblocks, hcok, hst⟩ :=
    vmsfs_writefile_ok s filename buf size mtime dp h
  obtain ⟨hdplt, hdpnone⟩ := vms_dirent_alloc_lt s dp hL halloc
  have hlen : nblk_of_size size ≤ (freeSlots s.vms_fatblk).length := by
    rw [← vms_getfreeblock_eq_length]; exact hnfree
  refine ⟨?_, ?_, ?_⟩
  · rw [hst]
    show (dir_get (s.vms_dirblk.set dp _) dp).size = _
    rw [dir_get_set_eq _ _ _ hdplt]; rfl
  · rw [hst]
    show vms_getfreeblock (linkChain _ _ _).1 + _ = _
    have := vms_getfreeblock_linkChain ((freeSlots s.vms_fatblk).take (nblk_of_size size))
      BLOCK_LAST s.vms_fatblk hL.1
      ((freeSlots_nodup _).sublist (List.take_sublist _ _))
      (fun f hf => (mem_freeSlots _ f).mp (List.mem_of_mem_take hf)) (by decide)
    rw [List.length_take, Nat.min_eq_left hlen] at this
    exact this
  · have := total_blksize_set s (vmsfs_writefile s filename buf size mtime).1 dp
      (written_dirent filename (nblk_of_size size) mtime head) hdplt (by rw [hst])
    rw [hdpnone] at this
    simpa [written_dirent] using this

theorem readfile_eq (content : List Nat) :
    readfile content = if content.length = 0 then none else some (padded content) := rfl

/-- A successful `dcvmtool_cmd_put`: the host file is not empty, `vmsfs_writefile` succeeded
on the state left by `vmsfs_unlink`, and only the image is touched afterwards. -/
theorem dcvmtool_cmd_put_ok (s : Vms) (filename content : List Nat) (mtime : Tm)
    (h : (dcvmtool_cmd_put s filename content mtime).2 = 0) :
    content.length ≠ 0 ∧
    ∃ dp, (vmsfs_writefile (vmsfs_unlink s filename).1 filename (padded content) content.length
        mtime).2 = .ok dp ∧
      (dcvmtool_cmd_put s filename content mtime).1 =
        (vms_save_dir (vms_save_fat (vmsfs_writefile (vmsfs_unlink s filename).1 filename
          (padded content) content.length mtime).1).1).1 := by
  unfold dcvmtool_cmd_put at h ⊢
  rw [readfile_eq] at h ⊢
  by_cases h0 : content.length = 0
  · rw [if_pos h0] at h; exact absurd h (by simp)
  · rw [if_neg h0] at h ⊢
    refine ⟨h0, ?_⟩
    dsimp only at h ⊢
    cases hw : (vmsfs_writefile (vmsfs_unlink s filename).1 filename (padded content)
        content.length mtime).2 with
    | error e => rw [hw] at h; exact absurd h (by simp)
    | ok dp => exact ⟨dp, rfl, rfl⟩

theorem vmsfs_unlink_loaded (s : Vms) (file : List Nat) (hL : Loaded s) (hok : ChainsOk s) :
    Loaded (vmsfs_unlink s file).1 := by
  by_cases h : (vmsfs_unlink s file).2 = .ok ()
  · obtain ⟨dp, hl, hsz, hfat, hdir, hroot⟩ := vmsfs_unlink_ok_wf s file hL hok h
    refine ⟨?_, ?_⟩
    · rw [hfat, free_blocks_length]; exact hL.1
    · rw [dir_nentries_congr _ _ hroot, hdir, List.length_set]; exact hL.2
  · rw [vmsfs_unlink_fail_wf s file hok hL h]; exact hL

/-- C5. On a loaded state with chain integrity (every occupied entry's chain has exactly
`size` blocks and ends in `BLOCK_LAST`, hence holds no free slot), a successful
`dcvmtool_cmd_put` and a successful `vmsfs_unlink` leave
`free_block_count() + sum of block counts of occupied entries` unchanged. -/
theorem allocation_conservation (s : Vms) (hL : Loaded s) (hok : ChainsOk s) :
    (∀ filename content mtime, (dcvmtool_cmd_put s filename content mtime).2 = 0 →
      vms_getfreeblock (dcvmtool_cmd_put s filename content mtime).1.vms_fatblk +
          total_blksize (dcvmtool_cmd_put s filename content mtime).1 =
        vms_getfreeblock s.vms_fatblk + total_blksize s) ∧
    (∀ file, (vmsfs_unlink s file).2 = .ok () →
      vms_getfreeblock (vmsfs_unlink s file).1.vms_fatblk + total_blksize (vmsfs_unlink s file).1 =
        vms_getfreeblock s.vms_fatblk + total_blksize s) := by
  have hdel : ∀ file, (vmsfs_unlink s file).2 = .ok () →
      vms_getfreeblock (vmsfs_unlink s file).1.vms_fatblk +
          total_blksize (vmsfs_unlink s file).1 =
        vms_getfreeblock s.vms_fatblk + total_blksize s := by
    intro file h
    obtain ⟨dp, _, h1, h2⟩ := vmsfs_unlink_accounting s file hL hok h
    omega
  refine ⟨?_, hdel⟩
  intro filename content mtime h
  obtain ⟨_, dp, hw, hst⟩ := dcvmtool_cmd_put_ok s filename content mtime h
  have hL1 := vmsfs_unlink_loaded s filename hL hok
  obtain ⟨_, h1, h2⟩ := vmsfs_writefile_accounting _ filename _ _ mtime dp hL1 hw
  have hs1 : vms_getfreeblock (vmsfs_unlink s filename).1.vms_fatblk +
      total_blksize (vmsfs_unlink s filename).1 =
      vms_getfreeblock s.vms_fatblk + total_blksize s := by
    by_cases hu : (vmsfs_unlink s filename).2 = .ok ()
    · exact hdel filename hu
    · rw [vmsfs_unlink_fail_wf s filename hok hL hu]
  rw [hst]
  simp only [vms_save_dir_fatblk, vms_save_fat_fatblk]
  have ht : total_blksize (vms_save_dir (vms_save_fat (vmsfs_writefile (vmsfs_unlink s filename).1
      filename (padded content) content.length mtime).1).1).1 =
      total_blksize (vmsfs_writefile (vmsfs_unlink s filename).1
      filename (padded content) content.length mtime).1 := rfl
  rw [ht]
  omega

/-- C6. Chain integrity and disjointness of chains are preserved by a successful
`dcvmtool_cmd_put` (including the entry it creates) and by a successful `vmsfs_unlink`. -/
theorem chain_integrity_preserved (s : Vms) (hL : Loaded s) (hok : ChainsOk s)
    (hdj : ChainsDisjoint s) :
    (∀ filename content mtime, (dcvmtool_cmd_put s filename content mtime).2 = 0 →
      Loaded (dcvmtool_cmd_put s filename content mtime).1 ∧
      ChainsOk (dcvmtool_cmd_put s filename content mtime).1 ∧
      ChainsDisjoint (dcvmtool_cmd_put s filename content mtime).1) ∧
    (∀ file, (vmsfs_unlink s file).2 = .ok () →
      Loaded (vmsfs_unlink s file).1 ∧ ChainsOk (vmsfs_unlink s file).1 ∧
      ChainsDisjoint (vmsfs_unlink s file).1) := by
  refine ⟨?_, fun file h => vmsfs_unlink_preserves s file hL hok hdj h⟩
  intro filename content mtime h
  obtain ⟨_, dp, hw, hst⟩ := dcvmtool_cmd_put_ok s filename content mtime h
  have h1 : Loaded (vmsfs_unlink s filename).1 ∧ ChainsOk (vmsfs_unlink s filename).1 ∧
      ChainsDisjoint (vmsfs_unlink s filename).1 := by
    by_cases hu : (vmsfs_unlink s filename).2 = .ok ()
    · exact vmsfs_unlink_preserves s filename hL hok hdj hu
    · rw [vmsfs_unlink_fail_wf s filename hok hL hu]; exact ⟨hL, hok, hdj⟩
  have h2 := vmsfs_writefile_preserves _ filename (padded content) content.length mtime dp
    h1.1 h1.2.1 h1.2.2 hw
  rw [hst]
  exact h2

theorem nblk_of_size_eq_ceil (L : Nat) : nblk_of_size L = ⌈(L : ℚ) / 512⌉₊ := by
  by_cases h0 : L = 0
  · subst h0; simp [nblk_of_size, VMS_BLOCKSIZE]
  symm
  have hpos : nblk_of_size L ≠ 0 := by have := nblk_of_size_pos L h0; omega
  rw [Nat.ceil_eq_iff hpos]
  have h1 : (nblk_of_size L - 1) * 512 < L := by
    unfold nblk_of_size; simp only [VMS_BLOCKSIZE]; omega
  have h2 : L ≤ nblk_of_size L * 512 := by
    unfold nblk_of_size; simp only [VMS_BLOCKSIZE]; omega
  constructor
  · rw [lt_div_iff₀ (by norm_num)]
    exact_mod_cast h1
  · rw [div_le_iff₀ (by norm_num)]
    exact_mod_cast h2

/-- C9. A successful `dcvmtool_cmd_put` of `L` bytes under a name that matches no occupied
slot records `ceil(L/512)` as the block count of the slot it fills (the first free slot) and
lowers the free-block count by exactly `ceil(L/512)`. -/
theorem write_accounting (s : Vms) (filename content : List Nat) (mtime : Tm) (hL : Loaded s)
    (hnew : ∀ k, k < dir_nentries s → ¬ dirent_matches s.vms_dirblk filename k)
    (h : (dcvmtool_cmd_put s filename content mtime).2 = 0) :
    ∃ dp, vms_dirent_alloc s = .ok dp ∧
      (dir_get (dcvmtool_cmd_put s filename content mtime).1.vms_dirblk dp).type =
        DIR_TYPE_DATA ∧
      (dir_get (dcvmtool_cmd_put s filename content mtime).1.vms_dirblk dp).size =
        ⌈(content.length : ℚ) / 512⌉₊ ∧
      vms_getfreeblock (dcvmtool_cmd_put s filename content mtime).1.vms_fatblk +
        ⌈(content.length : ℚ) / 512⌉₊ = vms_getfreeblock s.vms_fatblk := by
  obtain ⟨_, dp, hw, hst⟩ := dcvmtool_cmd_put_ok s filename content mtime h
  have hu : vmsfs_unlink s filename = (s, .error Errno.ENOENT) :=
    vmsfs_unlink_of_lookup_error s filename Errno.ENOENT
      ((vms_dirent_lookup_error_iff s filename _).mpr ⟨rfl, Or.inr hnew⟩)
  rw [hu] at hw hst
  dsimp only at hw hst
  obtain ⟨h1, h2, _⟩ := vmsfs_writefile_accounting s filename _ _ mtime dp hL hw
  obtain ⟨_, _, _, _, halloc, head, _, _, _, hres⟩ := vmsfs_writefile_ok s filename _ _ mtime dp hw
  obtain ⟨hdplt, _⟩ := vms_dirent_alloc_lt s dp hL halloc
  refine ⟨dp, halloc, ?_, ?_, ?_⟩
  · rw [hst]
    simp only [vms_save_dir_dirblk, vms_save_fat_dirblk]
    rw [hres]
    show (dir_get (s.vms_dirblk.set dp _) dp).type = _
    rw [dir_get_set_eq _ _ _ hdplt]; rfl
  · rw [hst, ← nblk_of_size_eq_ceil]
    exact h1
  · rw [hst, ← nblk_of_size_eq_ceil]
    exact h2

theorem reach_of_mem_fat_chain (fat : List Nat) (fuel : Nat) :
    ∀ b x, x ∈ fat_chain fat fuel b → Reach fat b x := by
  induction fuel with
  | zero => intro b x hx; simp [fat_chain] at hx
  | succ fuel ih =>
    intro b x hx
    rw [fat_chain, List.mem_cons] at hx
    rcases hx with rfl | hx
    · exact Reach.refl _
    · cases hn : vms_nextblock fat b with
      | none => rw [hn] at hx; simp at hx
      | some c =>
        rw [hn] at hx
        exact Reach.step b c x hn (ih c x hx)

theorem vms_nextblock_set_ne (fat : List Nat) (b y v : Nat) (h : y ≠ b) :
    vms_nextblock (fat_set fat b v) y = vms_nextblock fat y := by
  unfold vms_nextblock
  rw [fat_get_set_ne _ _ _ _ (Ne.symm h)]

theorem vms_nextblock_some_le (fat : List Nat) (b c : Nat) (h : vms_nextblock fat b = some c) :
    b ≤ VMS_MAXBLOCKNO := by
  unfold vms_nextblock at h
  by_contra hb
  rw [if_pos (Nat.lt_of_not_le hb)] at h
  exact absurd h (by simp)

/-- After slot `b` is freed, everything that was reachable is free, or still reachable from the
same block, or reachable from the block after `b`. -/
theorem reach_after_free (fat : List Nat) (b c : Nat) (hbc : vms_nextblock fat b = some c)
    (y x : Nat) (h : Reach fat y x) :
    fat_get (fat_set fat b BLOCK_UNALLOCATED) x = BLOCK_UNALLOCATED ∨
      Reach (fat_set fat b BLOCK_UNALLOCATED) y x ∨
      Reach (fat_set fat b BLOCK_UNALLOCATED) c x := by
  induction h with
  | refl y => exact Or.inr (Or.inl (Reach.refl _))
  | step y z x hyz _ ih =>
    by_cases hyb : y = b
    · subst hyb
      have hzc : z = c := by rw [hbc] at hyz; exact (Option.some.inj hyz).symm
      subst hzc
      rcases ih with h1 | h2 | h3
      · exact Or.inl h1
      · exact Or.inr (Or.inr h2)
      · exact Or.inr (Or.inr h3)
    · rcases ih with h1 | h2 | h3
      · exact Or.inl h1
      · exact Or.inr (Or.inl (Reach.step y z x (by rw [vms_nextblock_set_ne _ _ _ _ hyb]; exact hyz) h2))
      · exact Or.inr (Or.inr h3)

theorem fat_get_set_free (fat : List Nat) (b x : Nat) (hb : b < fat.length)
    (h : fat_get fat x = BLOCK_UNALLOCATED ∨ x = b) :
    fat_get (fat_set fat b BLOCK_UNALLOCATED) x = BLOCK_UNALLOCATED := by
  by_cases hxb : x = b
  · subst hxb; exact fat_get_set_eq _ _ _ hb
  · rw [fat_get_set_ne _ _ _ _ (Ne.symm hxb)]
    rcases h with h | h
    · exact h
    · exact absurd h hxb

/-- When the chain-freeing loop of `vmsfs_unlink` ends normally, every slot that was free and
every block reachable from the start block is free. -/
theorem vmsfs_unlink_loop_frees (fuel : Nat) :
    ∀ (fat : List Nat) (b : Nat) (fat' : List Nat), fat.length = 256 →
      vmsfs_unlink_loop fuel fat b = some (fat', .ok ()) →
      ∀ x, fat_get fat x = BLOCK_UNALLOCATED ∨ Reach fat b x →
        fat_get fat' x = BLOCK_UNALLOCATED := by
  induction fuel with
  | zero => intro fat b fat' _ h; simp [vmsfs_unlink_loop] at h
  | succ fuel ih =>
    intro fat b fat' hlen h x hx
    rw [vmsfs_unlink_loop] at h
    by_cases hb : b > VMS_MAXBLOCKNO
    · simp only [hb, if_true] at h
      simp at h
    · simp only [hb, if_false] at h
      have hblt : b < fat.length := by
        rw [hlen]; simp only [VMS_MAXBLOCKNO] at hb; omega
      cases hn : vms_nextblock fat b with
      | none =>
        rw [hn] at h
        simp only [Option.some.injEq, Prod.mk.injEq, and_true] at h
        subst h
        apply fat_get_set_free _ _ _ hblt
        rcases hx with hx | hx
        · exact Or.inl hx
        · cases hx with
          | refl => exact Or.inr rfl
          | step _ c _ hc _ => rw [hn] at hc; exact absurd hc (by simp)
      | some c =>
        rw [hn] at h
        simp only at h
        apply ih _ c fat' (by rw [fat_set_length]; exact hlen) h x
        rcases hx with hx | hx
        · exact Or.inl (fat_get_set_free _ _ _ hblt (Or.inl hx))
        · cases hx with
          | refl => exact Or.inl (fat_get_set_free _ _ _ hblt (Or.inr rfl))
          | step _ c' _ hc hr =>
            have hcc : c' = c := by rw [hn] at hc; exact (Option.some.inj hc).symm
            subst hcc
            rcases reach_after_free fat b c' hn c' x hr with h1 | h2 | h3
            · exact Or.inl h1
            · exact Or.inr h2
            · exact Or.inr h3

theorem dirent_matches_after_unlink (dir : List vmsfs_dirent) (file : List Nat) (dp k : Nat)
    (hdp : dp < dir.length) :
    dirent_matches (dir.set dp { dir_get dir dp with type := DIR_TYPE_NONE }) file k ↔
      k ≠ dp ∧ dirent_matches dir file k := by
  unfold dirent_matches
  by_cases hk : k = dp
  · subst hk
    rw [dir_get_set_eq _ _ _ hdp]
    simp
  · rw [dir_get_set_ne _ _ _ _ (Ne.symm hk)]
    simp [hk]

/-- C4 (as amended). After a successful `vmsfs_unlink(name)` on any loaded state, `lookup(name)`
no longer returns the deleted slot: it fails with `ENOENT` exactly when no other occupied slot
matches the name, and otherwise returns a later slot that matched before; and every block
that was on the deleted entry's chain is `BLOCK_UNALLOCATED`. -/
theorem unlink_then_lookup (s : Vms) (file : List Nat) (hL : Loaded s)
    (h : (vmsfs_unlink s file).2 = .ok ()) :
    ∃ dp, vms_dirent_lookup s file = .ok dp ∧
      (vms_dirent_lookup (vmsfs_unlink s file).1 file = .error Errno.ENOENT ↔
        ∀ k, k < dir_nentries s → k ≠ dp → ¬ dirent_matches s.vms_dirblk file k) ∧
      (∀ j, vms_dirent_lookup (vmsfs_unlink s file).1 file = .ok j →
        dp < j ∧ dirent_matches s.vms_dirblk file j) ∧
      (∀ fuel x, x ∈ fat_chain s.vms_fatblk fuel (dir_get s.vms_dirblk dp).block →
        fat_get (vmsfs_unlink s file).1.vms_fatblk x = BLOCK_UNALLOCATED) := by
  obtain ⟨dp, fat, hl, hloop, hfat, hdir, hroot⟩ := vmsfs_unlink_ok s file h
  have hm := (vms_dirent_lookup_ok_iff s file dp).mp hl
  have hdplt : dp < s.vms_dirblk.length := by rw [hL.2]; exact hm.2.1
  have hn : dir_nentries (vmsfs_unlink s file).1 = dir_nentries s := dir_nentries_congr _ _ hroot
  have hmatch : ∀ k, dirent_matches (vmsfs_unlink s file).1.vms_dirblk file k ↔
      k ≠ dp ∧ dirent_matches s.vms_dirblk file k := by
    intro k; rw [hdir]; exact dirent_matches_after_unlink _ _ _ _ hdplt
  refine ⟨dp, hl, ?_, ?_, ?_⟩
  · rw [vms_dirent_lookup_error_iff, hn]
    constructor
    · rintro ⟨_, hor⟩ k hk hkdp hmk
      rcases hor with hlen | hnone
      · exact absurd hm.1 (Nat.not_le.mpr hlen)
      · exact hnone k hk ((hmatch k).mpr ⟨hkdp, hmk⟩)
    · intro hall
      exact ⟨rfl, Or.inr (fun k hk hmk => hall k hk ((hmatch k).mp hmk).1 ((hmatch k).mp hmk).2)⟩
  · intro j hj
    have hj' := (vms_dirent_lookup_ok_iff _ file j).mp hj
    have hjm := (hmatch j).mp hj'.2.2.1
    refine ⟨?_, hjm.2⟩
    by_contra hle
    have hlt : j < dp := by
      have := hjm.1
      omega
    exact hm.2.2.2 j hlt hjm.2
  · intro fuel x hx
    rw [hfat]
    exact vmsfs_unlink_loop_frees _ _ _ fat hL.1 hloop x
      (Or.inr (reach_of_mem_fat_chain _ fuel _ x hx))

/-- The function `vms_loadfile` reads `size` blocks from `block` of the slot that `lookup` finds. -/
theorem vms_loadfile_of_lookup (s : Vms) (filename : List Nat) (dp : Nat)
    (hl : vms_dirent_lookup s filename = .ok dp) :
    vms_loadfile s filename = vms_read_blocks s.vms_fatblk s.vms_fd
      (dir_get s.vms_dirblk dp).block (dir_get s.vms_dirblk dp).size := by
  unfold vms_loadfile; rw [hl]

/-- The write loop of `vms_readwrite_blocks` leaves every block outside the walk untouched. -/
theorem vms_readwrite_loop_write_frame (fat buf : List Nat) (nblk : Nat) (x : Nat)
    (fuel : Nat) :
    ∀ (m blk k : Nat) (fd : Nat → List Nat) (out : List Nat), k + m = nblk → 1 ≤ m →
      x ∉ chain_blocks fat m blk →
      (vms_readwrite_loop fat buf nblk true fuel blk k fd out).1 x = fd x := by
  induction fuel with
  | zero => intro m blk k fd out _ _ _; rfl
  | succ fuel ih =>
    intro m blk k fd out hk h1 hx
    obtain ⟨m', rfl⟩ : ∃ m', m = m' + 1 := ⟨m - 1, by omega⟩
    rw [chain_blocks, List.mem_cons, not_or] at hx
    rw [vms_readwrite_loop]
    by_cases hb : blk ≤ VMS_MAXBLOCKNO
    · simp only [hb, if_true]
      by_cases hlast : k + 1 ≥ nblk
      · rw [if_pos hlast]
        simp [fd_write, hx.1]
      · rw [if_neg hlast, ih m' _ (k + 1) _ _ (by omega) (by omega) hx.2]
        simp [fd_write, hx.1]
    · simp only [hb, if_false]

theorem vms_write_blocks_frame (fat : List Nat) (fd : Nat → List Nat) (buf : List Nat)
    (startblk nblk x : Nat) (h1 : 1 ≤ nblk) (hx : x ∉ chain_blocks fat nblk startblk) :
    (vms_write_blocks fat fd buf startblk nblk).1 x = fd x := by
  unfold vms_write_blocks vms_readwrite_blocks
  have := vms_readwrite_loop_write_frame fat buf nblk x (nblk + 1) nblk startblk 0 fd []
    (by omega) h1 hx
  dsimp only
  split <;> exact this

theorem write_chunks_frame (buf : List Nat) (bs : List Nat) :
    ∀ (k : Nat) (fd : Nat → List Nat) (x : Nat), x ∉ bs → write_chunks buf bs k fd x = fd x := by
  induction bs with
  | nil => intro k fd x _; rfl
  | cons b bs ih =>
    intro k fd x hx
    rw [List.mem_cons, not_or] at hx
    rw [write_chunks, ih _ _ x hx.2]
    simp [fd_write, hx.1]

/-- Reading back the blocks just written gives the bytes of the buffer. -/
theorem read_chunks_write_chunks (buf : List Nat) (bs : List Nat) :
    ∀ (k : Nat) (fd : Nat → List Nat), bs.Nodup →
      read_chunks (write_chunks buf bs k fd) bs =
        (buf.drop (VMS_BLOCKSIZE * k)).take (VMS_BLOCKSIZE * bs.length) := by
  induction bs with
  | nil => intro k fd _; simp [read_chunks]
  | cons b bs ih =>
    intro k fd hnd
    rw [List.nodup_cons] at hnd
    have hrest := ih (k + 1) (fd_write fd b (buf_chunk buf k)) hnd.2
    have hb : write_chunks buf (b :: bs) k fd b = buf_chunk buf k := by
      rw [write_chunks, write_chunks_frame _ _ _ _ b hnd.1]
      simp [fd_write]
    unfold read_chunks at hrest ⊢
    rw [List.map_cons, List.flatten_cons, hb]
    have hmap : List.map (write_chunks buf (b :: bs) k fd) bs =
        List.map (write_chunks buf bs (k + 1) (fd_write fd b (buf_chunk buf k))) bs := rfl
    rw [hmap, hrest]
    unfold buf_chunk
    rw [List.length_cons,
      show VMS_BLOCKSIZE * (bs.length + 1) = VMS_BLOCKSIZE + VMS_BLOCKSIZE * bs.length by ring,
      List.take_add, List.drop_drop,
      show VMS_BLOCKSIZE * (k + 1) = VMS_BLOCKSIZE * k + VMS_BLOCKSIZE by ring]

theorem vmsfs_regular_name_loop_length (filename : List Nat) (n : Nat) :
    ∀ i, (vmsfs_regular_name_loop filename n i).length = n := by
  induction n with
  | zero => intro i; rfl
  | succ n ih =>
    intro i
    rw [vmsfs_regular_name_loop]
    split
    · simp
    · simp [ih]

theorem vmsfs_regular_name_length (filename : List Nat) :
    (vmsfs_regular_name filename).length = DIR_NAMELEN :=
  vmsfs_regular_name_loop_length filename _ 0

theorem strlen_le_length (l : List Nat) : strlen l ≤ l.length := by
  unfold strlen
  exact (List.takeWhile_sublist _).length_le

theorem strcasecmp_self (l : List Nat) : strcasecmp (l ++ [0]) l = 0 := by
  induction l with
  | nil => simp [strcasecmp]
  | cons c l ih =>
    rw [List.cons_append, strcasecmp]
    simp [ih]

/-- With chain integrity, `vmsfs_unlink` succeeds on every entry it finds that has at least one
block. -/
theorem vmsfs_unlink_ok_of_lookup (s : Vms) (file : List Nat) (dp : Nat) (hL : Loaded s)
    (hok : ChainsOk s) (hl : vms_dirent_lookup s file = .ok dp)
    (h1 : 1 ≤ (dir_get s.vms_dirblk dp).size) : (vmsfs_unlink s file).2 = .ok () := by
  have hm := (vms_dirent_lookup_ok_iff s file dp).mp hl
  have hc := hok dp hm.2.1 hm.2.2.1.1
  obtain ⟨n, hn⟩ : ∃ n, (dir_get s.vms_dirblk dp).size = n + 1 :=
    ⟨(dir_get s.vms_dirblk dp).size - 1, by omega⟩
  rw [hn] at hc
  have hle := chain_ok_length_le _ _ _ hc
  have hloop := vmsfs_unlink_loop_chain_ok n (VMS_NUM_BLOCKS + 1) _ _ hc hL.1
    (by simp only [VMS_NUM_BLOCKS]; omega)
  rw [vmsfs_unlink_of_loop_ok s file dp _ hl hloop]

/-- The state `vmsfs_unlink` hands to `vmsfs_writefile` inside `dcvmtool_cmd_put`. -/
theorem vmsfs_unlink_for_put (s : Vms) (file : List Nat) (hL : Loaded s) (hok : ChainsOk s)
    (hsz : SizesPos s) (hname : strlen file ≤ DIR_NAMELEN) :
    Loaded (vmsfs_unlink s file).1 ∧
    (vmsfs_unlink s file).1.vms_rootblk = s.vms_rootblk ∧
    vms_getfreeblock s.vms_fatblk ≤ vms_getfreeblock (vmsfs_unlink s file).1.vms_fatblk ∧
    (∀ x, fat_get s.vms_fatblk x ≠ BLOCK_UNALLOCATED →
      (∀ i, i < dir_nentries s → (dir_get s.vms_dirblk i).type ≠ DIR_TYPE_NONE →
        x ∉ entry_chain s i) →
      fat_get (vmsfs_unlink s file).1.vms_fatblk x = fat_get s.vms_fatblk x) ∧
    (∀ i, (dir_get s.vms_dirblk i).type = DIR_TYPE_NONE →
      (dir_get (vmsfs_unlink s file).1.vms_dirblk i).type = DIR_TYPE_NONE) ∧
    (∀ dp, dp < dir_nentries s →
      (∀ k, k < dp → (dir_get (vmsfs_unlink s file).1.vms_dirblk k).type ≠ DIR_TYPE_NONE) →
      ∀ k, k < dp → ¬ dirent_matches (vmsfs_unlink s file).1.vms_dirblk file k) := by
  cases hl : vms_dirent_lookup s file with
  | error e =>
    rw [vmsfs_unlink_of_lookup_error s file e hl]
    refine ⟨hL, rfl, le_refl _, fun _ _ _ => rfl, fun _ h => h, ?_⟩
    intro dp hdp _ k hk
    rcases ((vms_dirent_lookup_error_iff s file e).mp hl).2 with h | h
    · exact absurd hname (Nat.not_le.mpr h)
    · exact h k (by omega)
  | ok dp0 =>
    have hm := (vms_dirent_lookup_ok_iff s file dp0).mp hl
    have hu := vmsfs_unlink_ok_of_lookup s file dp0 hL hok hl (hsz dp0 hm.2.1 hm.2.2.1.1)
    obtain ⟨dp', hl', _, hfat, hdir, hroot⟩ := vmsfs_unlink_ok_wf s file hL hok hu
    have hdd : dp' = dp0 := by rw [hl] at hl'; exact (Except.ok.inj hl').symm
    subst hdd
    obtain ⟨dp'', hl'', hacc, _⟩ := vmsfs_unlink_accounting s file hL hok hu
    have hdd : dp'' = dp' := by rw [hl] at hl''; exact (Except.ok.inj hl'').symm
    subst hdd
    have hdplt : dp'' < s.vms_dirblk.length := by rw [hL.2]; exact hm.2.1
    refine ⟨vmsfs_unlink_loaded s file hL hok, hroot, by omega, ?_, ?_, ?_⟩
    · intro x _ hx
      rw [hfat]
      exact free_blocks_get_not_mem _ _ x (hx dp'' hm.2.1 hm.2.2.1.1)
    · intro i hi
      rw [hdir]
      by_cases hidp : i = dp''
      · subst hidp; rw [dir_get_set_eq _ _ _ hdplt]
      · rw [dir_get_set_ne _ _ _ _ (Ne.symm hidp)]; exact hi
    · intro dp hdp hfirst k hk
      have hnone : (dir_get (vmsfs_unlink s file).1.vms_dirblk dp'').type = DIR_TYPE_NONE := by
        rw [hdir, dir_get_set_eq _ _ _ hdplt]
      have hle : dp ≤ dp'' := by
        by_contra hgt
        exact hfirst dp'' (by omega) hnone
      rw [hdir, dirent_matches_after_unlink _ _ _ _ hdplt]
      intro hmk
      exact hm.2.2.2 k (by omega) hmk.2

theorem vms_save_fat_fd (s : Vms) :
    (vms_save_fat s).1.vms_fd =
      (vms_write_blocks s.vms_fatblk s.vms_fd (fat_bytes s.vms_fatblk)
        s.vms_rootblk.fat_blockno 1).1 := rfl

theorem vms_save_dir_fd (s : Vms) :
    (vms_save_dir s).1.vms_fd =
      (vms_write_blocks s.vms_fatblk s.vms_fd (dir_bytes s.vms_dirblk)
        s.vms_rootblk.directory_blockno s.vms_rootblk.directory_blocksize).1 := rfl

theorem padded_length (content : List Nat) :
    (padded content).length = nblk_of_size content.length * VMS_BLOCKSIZE := by
  unfold padded
  rw [List.length_append, List.length_replicate]
  have : content.length ≤ nblk_of_size content.length * VMS_BLOCKSIZE := by
    unfold nblk_of_size; simp only [VMS_BLOCKSIZE]; omega
  omega

theorem read_chunks_congr (fd fd' : Nat → List Nat) (bs : List Nat)
    (h : ∀ x ∈ bs, fd' x = fd x) : read_chunks fd' bs = read_chunks fd bs := by
  unfold read_chunks
  rw [List.map_congr_left h]

/-- The state in which `dcvmtool_cmd_put` leaves a well-formed image: the slot `dp`, the head
`head` of the new chain and the table `fat2`, with the facts that relate them to the state
before the call. -/
theorem dcvmtool_cmd_put_state (s : Vms) (name content : List Nat) (mtime : Tm)
    (hL : Loaded s) (hok : ChainsOk s) (hsz : SizesPos s) (hsys : SysBlocksOk s)
    (hstrlen : strlen name ≤ DIR_NAMELEN)
    (hlen1 : 1 ≤ content.length) (hlen2 : content.length ≤ 255 * 512)
    (hslot : ∃ i, i < dir_nentries s ∧ (dir_get s.vms_dirblk i).type = DIR_TYPE_NONE)
    (hfree : nblk_of_size content.length ≤ vms_getfreeblock s.vms_fatblk) :
    ∃ dp head fat2,
      vms_dirent_alloc (vmsfs_unlink s name).1 = .ok dp ∧
      fat2 = (linkChain ((freeSlots (vmsfs_unlink s name).1.vms_fatblk).take
        (nblk_of_size content.length)) BLOCK_LAST (vmsfs_unlink s name).1.vms_fatblk).1 ∧
      head ≤ VMS_MAXBLOCKNO ∧
      chain_ok fat2 (nblk_of_size content.length) head = true ∧
      (∀ b ∈ sys_blocks s, fat_get fat2 b = fat_get s.vms_fatblk b ∧
        b ∉ chain_blocks fat2 (nblk_of_size content.length) head) ∧
      chain_blocks fat2 s.vms_rootblk.directory_blocksize s.vms_rootblk.directory_blockno =
        chain_blocks s.vms_fatblk s.vms_rootblk.directory_blocksize
          s.vms_rootblk.directory_blockno ∧
      dcvmtool_cmd_put s name content mtime =
        ((vms_save_dir (vms_save_fat
          { vms_fd := write_chunks (padded content)
              (chain_blocks fat2 (nblk_of_size content.length) head) 0
              (vmsfs_unlink s name).1.vms_fd
            vms_rootblk := (vmsfs_unlink s name).1.vms_rootblk
            vms_fatblk := fat2
            vms_dirblk := (vmsfs_unlink s name).1.vms_dirblk.set dp
              (written_dirent name (nblk_of_size content.length) mtime head) }).1).1, 0) := by
  have hsize : content.length ≠ 0 := by omega
  have hn255 : nblk_of_size content.length ≤ VMS_MAXBLOCKNO := by
    unfold nblk_of_size; simp only [VMS_BLOCKSIZE, VMS_MAXBLOCKNO]; omega
  obtain ⟨hL1, hroot1, hfree1, hsys1, hnone1, hfirst1⟩ :=
    vmsfs_unlink_for_put s name hL hok hsz hstrlen
  have hnent : dir_nentries (vmsfs_unlink s name).1 = dir_nentries s :=
    dir_nentries_congr _ _ hroot1
  obtain ⟨dp, hdp⟩ : ∃ dp, vms_dirent_alloc (vmsfs_unlink s name).1 = .ok dp := by
    cases ha : vms_dirent_alloc (vmsfs_unlink s name).1 with
    | ok dp => exact ⟨dp, rfl⟩
    | error e =>
      obtain ⟨i, hi, hnone⟩ := hslot
      have := ((vms_dirent_alloc_error_iff _ e).mp ha).2 i (by rw [hnent]; exact hi)
      exact absurd (hnone1 i hnone) this
  obtain ⟨head, fat2, hfat2, hhead, hblocks, hcok, heq⟩ :=
    vmsfs_writefile_eq (vmsfs_unlink s name).1 name (padded content) content.length mtime dp
      hstrlen hsize hn255 hdp (le_trans hfree hfree1)
  have hfsmem : ∀ x ∈ chain_blocks fat2 (nblk_of_size content.length) head,
      fat_get (vmsfs_unlink s name).1.vms_fatblk x = BLOCK_UNALLOCATED := by
    intro x hx
    rw [hblocks] at hx
    exact ((mem_freeSlots _ x).mp (List.mem_of_mem_take (List.mem_reverse.mp hx))).2
  have hsysfat : ∀ b ∈ sys_blocks s, fat_get fat2 b = fat_get s.vms_fatblk b ∧
      b ∉ chain_blocks fat2 (nblk_of_size content.length) head := by
    intro b hb
    have h1 := hsys1 b (hsys b hb).1 (hsys b hb).2
    have hnot : b ∉ chain_blocks fat2 (nblk_of_size content.length) head := by
      intro hmem
      have := hfsmem b hmem
      rw [h1] at this
      exact (hsys b hb).1 this
    refine ⟨?_, hnot⟩
    rw [hfat2, linkChain_frame _ _ _ b (by
      rw [hblocks] at hnot
      exact fun h => hnot (List.mem_reverse.mpr h)), h1]
  have hdirchain : chain_blocks fat2 s.vms_rootblk.directory_blocksize
      s.vms_rootblk.directory_blockno =
      chain_blocks s.vms_fatblk s.vms_rootblk.directory_blocksize
        s.vms_rootblk.directory_blockno :=
    (chain_agree s.vms_fatblk fat2 _ _ (fun x hx =>
      (hsysfat x (by simp [sys_blocks, hx])).1)).1
  refine ⟨dp, head, fat2, hdp, hfat2, hhead, hcok, hsysfat, hdirchain, ?_⟩
  unfold dcvmtool_cmd_put
  rw [readfile_eq, if_neg hsize]
  dsimp only
  rw [heq]

/-- Round trip inside one session: after `dcvmtool_cmd_put` on a well-formed state,
`vms_loadfile` of the normalized name returns the payload padded with zero bytes to whole
blocks. -/
theorem put_then_loadfile_core (s : Vms) (name content : List Nat) (mtime : Tm)
    (hL : Loaded s) (hok : ChainsOk s) (hsz : SizesPos s) (hsys : SysBlocksOk s)
    (hname : vmsfs_regular_name name = name)
    (hlen1 : 1 ≤ content.length) (hlen2 : content.length ≤ 255 * 512)
    (hslot : ∃ i, i < dir_nentries s ∧ (dir_get s.vms_dirblk i).type = DIR_TYPE_NONE)
    (hfree : ⌈(content.length : ℚ) / 512⌉₊ ≤ vms_getfreeblock s.vms_fatblk) :
    (dcvmtool_cmd_put s name content mtime).2 = 0 ∧
    vms_loadfile (dcvmtool_cmd_put s name content mtime).1 name =
      .ok (content ++
        List.replicate (⌈(content.length : ℚ) / 512⌉₊ * 512 - content.length) 0) ∧
    (content ++ List.replicate (⌈(content.length : ℚ) / 512⌉₊ * 512 - content.length) 0).length =
      ⌈(content.length : ℚ) / 512⌉₊ * 512 := by
  rw [← nblk_of_size_eq_ceil] at hfree ⊢
  have hnamelen : name.length = DIR_NAMELEN := by
    rw [← hname]; exact vmsfs_regular_name_length name
  have hstrlen : strlen name ≤ DIR_NAMELEN := by
    rw [← hnamelen]; exact strlen_le_length name
  have hn1 : 1 ≤ nblk_of_size content.length := nblk_of_size_pos _ (by omega)
  obtain ⟨hL1, hroot1, _, _, _, hfirst1⟩ := vmsfs_unlink_for_put s name hL hok hsz hstrlen
  have hnent : dir_nentries (vmsfs_unlink s name).1 = dir_nentries s :=
    dir_nentries_congr _ _ hroot1
  obtain ⟨dp, head, fat2, hdp, hfat2, hhead, hcok, hsysfat, hdirchain, hput⟩ :=
    dcvmtool_cmd_put_state s name content mtime hL hok hsz hsys hstrlen hlen1 hlen2 hslot hfree
  have hdpi := (vms_dirent_alloc_ok_iff _ dp).mp hdp
  obtain ⟨hdplt, _⟩ := vms_dirent_alloc_lt _ dp hL1 hdp
  have hpad : content ++
      List.replicate (nblk_of_size content.length * 512 - content.length) 0 = padded content := rfl
  rw [hput, hpad]
  refine ⟨rfl, ?_, padded_length content⟩
  dsimp only
  have hdirsize : 1 ≤ s.vms_rootblk.directory_blocksize := by
    obtain ⟨i, hi, _⟩ := hslot
    unfold dir_nentries at hi
    simp only [VMSFS_DIR_NENTRIES_PER_BLOCK] at hi
    omega
  -- the image after the two saves agrees with the written data on the new chain
  set S3 := (vms_save_dir (vms_save_fat
    { vms_fd := write_chunks (padded content)
        (chain_blocks fat2 (nblk_of_size content.length) head) 0 (vmsfs_unlink s name).1.vms_fd
      vms_rootblk := (vmsfs_unlink s name).1.vms_rootblk
      vms_fatblk := fat2
      vms_dirblk := (vmsfs_unlink s name).1.vms_dirblk.set dp
        (written_dirent name (nblk_of_size content.length) mtime head) }).1).1 with hS3
  have hS3fat : S3.vms_fatblk = fat2 := rfl
  have hS3dir : S3.vms_dirblk = (vmsfs_unlink s name).1.vms_dirblk.set dp
      (written_dirent name (nblk_of_size content.length) mtime head) := rfl
  have hS3root : S3.vms_rootblk = (vmsfs_unlink s name).1.vms_rootblk := rfl
  have hS3fd : ∀ x ∈ chain_blocks fat2 (nblk_of_size content.length) head,
      S3.vms_fd x = write_chunks (padded content)
        (chain_blocks fat2 (nblk_of_size content.length) head) 0
        (vmsfs_unlink s name).1.vms_fd x := by
    intro x hx
    have hxsys : x ∉ sys_blocks s := fun h => (hsysfat x h).2 hx
    rw [hS3, vms_save_dir_fd]
    rw [vms_write_blocks_frame _ _ _ _ _ x (by
        show 1 ≤ (vmsfs_unlink s name).1.vms_rootblk.directory_blocksize
        rw [hroot1]; exact hdirsize) (by
        show x ∉ chain_blocks fat2 (vmsfs_unlink s name).1.vms_rootblk.directory_blocksize
          (vmsfs_unlink s name).1.vms_rootblk.directory_blockno
        rw [hroot1, hdirchain]
        exact fun h => hxsys (by simp [sys_blocks, h]))]
    rw [vms_save_fat_fd]
    rw [vms_write_blocks_frame _ _ _ _ _ x (le_refl 1) (by
        show x ∉ chain_blocks fat2 1 (vmsfs_unlink s name).1.vms_rootblk.fat_blockno
        rw [hroot1]
        simp only [chain_blocks, List.mem_singleton]
        exact fun h => hxsys (by simp [sys_blocks, h]))]
  -- lookup finds the new slot
  have hgetdp : dir_get S3.vms_dirblk dp =
      written_dirent name (nblk_of_size content.length) mtime head := by
    rw [hS3dir, dir_get_set_eq _ _ _ hdplt]
  have hlook : vms_dirent_lookup S3 name = .ok dp := by
    rw [vms_dirent_lookup_ok_iff]
    refine ⟨hstrlen, by rw [dir_nentries_congr _ _ hS3root]; exact hdpi.1, ?_, ?_⟩
    · unfold dirent_matches
      rw [hgetdp]
      refine ⟨by show DIR_TYPE_DATA ≠ DIR_TYPE_NONE; decide, ?_⟩
      unfold vms_dirent_filenamecmp written_dirent
      dsimp only
      rw [hname]
      exact strcasecmp_self name
    · intro k hk
      have hkne : dp ≠ k := by omega
      have := hfirst1 dp (by rw [← hnent]; exact hdpi.1) (fun k hk => hdpi.2.2 k hk) k hk
      unfold dirent_matches at this ⊢
      rw [hS3dir, dir_get_set_ne _ _ _ _ hkne]
      exact this
  have hin : ∀ j, j < nblk_of_size content.length → chain_at fat2 j head ≤ VMS_MAXBLOCKNO :=
    ((chain_ok_iff fat2 _ head).mp hcok).1
  rw [vms_loadfile_of_lookup S3 name dp hlook, hgetdp, hS3fat]
  show vms_read_blocks fat2 S3.vms_fd head (nblk_of_size content.length) = _
  rw [vms_read_blocks_ok _ _ _ _ hn1 hin]
  rw [read_chunks_congr _ _ _ hS3fd, read_chunks_write_chunks _ _ _ _ (chain_ok_nodup _ _ _ hcok),
    chain_blocks_length, Nat.mul_zero, List.drop_zero, Nat.mul_comm, ← padded_length,
    List.take_length]

theorem vms_getfreeblock_le (fat : List Nat) : vms_getfreeblock fat ≤ 256 := by
  unfold vms_getfreeblock
  have := List.countP_le_length (fun i => decide (fat_get fat i = BLOCK_UNALLOCATED))
    (l := List.range (VMS_MAXBLOCKNO + 1))
  simpa using this

/-- The fuel of the chain-freeing loop is never used up: every pass that continues frees a slot
that was not free, so a table of 256 slots allows at most 256 such passes. -/
theorem vmsfs_unlink_loop_fuel (fuel : Nat) :
    ∀ (fat : List Nat) (b : Nat), fat.length = 256 →
      256 - vms_getfreeblock fat < fuel → (vmsfs_unlink_loop fuel fat b).isSome = true := by
  induction fuel with
  | zero => intro fat b _ h; omega
  | succ fuel ih =>
    intro fat b hlen hfuel
    rw [vmsfs_unlink_loop]
    by_cases hb : b > VMS_MAXBLOCKNO
    · simp only [hb, if_true, Option.isSome_some]
    · simp only [hb, if_false]
      cases hn : vms_nextblock fat b with
      | none => rfl
      | some c =>
        simp only
        have hne : fat_get fat b ≠ BLOCK_UNALLOCATED := by
          intro hU
          unfold vms_nextblock at hn
          simp [hb, hU] at hn
        have hb' : b < 256 := by simp only [VMS_MAXBLOCKNO] at hb; omega
        have hcount := vms_getfreeblock_set_free fat b hlen hb' hne
        have hle := vms_getfreeblock_le (fat_set fat b BLOCK_UNALLOCATED)
        apply ih _ c (by rw [fat_set_length]; exact hlen)
        omega

/-- For a table of 256 slots the chain-freeing loop of `vmsfs_unlink` ends within its 257
passes, whatever the table holds. -/
theorem vmsfs_unlink_loop_isSome (fat : List Nat) (b : Nat) (hlen : fat.length = 256) :
    (vmsfs_unlink_loop (VMS_NUM_BLOCKS + 1) fat b).isSome = true :=
  vmsfs_unlink_loop_fuel _ fat b hlen (by simp only [VMS_NUM_BLOCKS]; omega)

theorem flatten_drop_mul {α : Type} (n : Nat) (l : List (List α)) :
    ∀ i, (∀ c ∈ l, c.length = n) → l.flatten.drop (n * i) = (l.drop i).flatten := by
  induction l with
  | nil => intro i _; simp
  | cons c cs ih =>
    intro i h
    cases i with
    | zero => simp
    | succ i =>
      have hc : c.length = n := h c (by simp)
      rw [List.flatten_cons, List.drop_succ_cons, Nat.mul_succ, Nat.add_comm, ← hc,
        List.drop_append]
      rw [hc]
      exact ih i (fun c' hc' => h c' (List.mem_cons_of_mem _ hc'))

theorem flatten_chunk {α : Type} (n : Nat) (l : List (List α)) (i : Nat)
    (h : ∀ c ∈ l, c.length = n) (hi : i < l.length) :
    (l.flatten.drop (n * i)).take n = l.get ⟨i, hi⟩ := by
  rw [flatten_drop_mul n l i h]
  have hd : l.drop i = l.get ⟨i, hi⟩ :: l.drop (i + 1) := by
    rw [List.drop_eq_getElem_cons hi]; rfl
  rw [hd, List.flatten_cons]
  have hlen : (l.get ⟨i, hi⟩).length = n := h _ (List.get_mem _ _ _)
  rw [← hlen, List.take_left']
  rfl

theorem flatten_length_uniform {α : Type} (n : Nat) (l : List (List α))
    (h : ∀ c ∈ l, c.length = n) : l.flatten.length = n * l.length := by
  induction l with
  | nil => simp
  | cons c cs ih =>
    rw [List.flatten_cons, List.length_append, h c (by simp),
      ih (fun c' hc' => h c' (List.mem_cons_of_mem _ hc')), List.length_cons]
    ring

theorem getD_drop (l : List Nat) (k j : Nat) : (l.drop k).getD j 0 = l.getD (k + j) 0 := by
  simp [List.getD_eq_getElem?_getD, List.getElem?_drop]

theorem get16_drop (l : List Nat) (k j : Nat) : get16 (l.drop k) j = get16 l (k + j) := by
  unfold get16
  rw [getD_drop, getD_drop, Nat.add_assoc]

theorem get16_le16 (v : Nat) (rest : List Nat) (h : v < 65536) :
    get16 (le16 v ++ rest) 0 = v := by
  simp [get16, le16]
  omega

theorem le16_length (v : Nat) : (le16 v).length = 2 := rfl

theorem fat_bytes_length (fat : List Nat) : (fat_bytes fat).length = 2 * fat.length := by
  unfold fat_bytes
  rw [flatten_length_uniform 2 _ (by simp [le16_length]), List.length_map]

/-- Decoding the bytes of the table gives the table back. -/
theorem fat_of_bytes_fat_bytes (fat : List Nat) (hlen : fat.length = VMS_NUM_BLOCKS)
    (hv : ∀ v ∈ fat, v < 65536) : fat_of_bytes (fat_bytes fat) = fat := by
  apply List.ext_getElem
  · simp [fat_of_bytes, hlen]
  · intro i h1 h2
    simp only [fat_of_bytes, List.getElem_map, List.getElem_range]
    have hi : i < (fat.map le16).length := by simpa using h2
    have hdrop := flatten_drop_mul 2 (fat.map le16) i (by simp [le16_length])
    have h16 : get16 (fat_bytes fat) (2 * i) = get16 ((fat_bytes fat).drop (2 * i)) 0 := by
      rw [get16_drop]; rfl
    rw [h16]
    unfold fat_bytes
    rw [hdrop, List.drop_eq_getElem_cons hi, List.flatten_cons, List.getElem_map]
    exact get16_le16 _ _ (hv _ (List.getElem_mem _))

theorem dirent_bytes_length (d : vmsfs_dirent) (h : dirent_typed d) :
    (dirent_bytes d).length = 32 := by
  obtain ⟨_, _, _, hn, ht, _, _, hr⟩ := h
  have hn1 : d.name.length = 12 := hn.1
  simp only [dirent_bytes, List.length_append, le16_length, hn1, ht.1, hr.1, List.length_cons,
    List.length_nil]

/-- Decoding the 32 bytes of a directory entry gives the entry back. -/
theorem dirent_of_bytes_dirent_bytes (d : vmsfs_dirent) (h : dirent_typed d) :
    dirent_of_bytes (dirent_bytes d) = d := by
  obtain ⟨htype, hattr, hblock, hn, ht, hsize, hhbo, hr⟩ := h
  have e4 : dirent_bytes d = ([d.type, d.attr] ++ le16 d.block) ++
      (d.name ++ (d.timestamp ++ (le16 d.size ++ (le16 d.header_block_offset ++ d.reserved)))) := by
    simp [dirent_bytes, List.append_assoc]
  have e2 : dirent_bytes d = [d.type, d.attr] ++
      (le16 d.block ++ (d.name ++ (d.timestamp ++ (le16 d.size ++
        (le16 d.header_block_offset ++ d.reserved))))) := by
    simp [dirent_bytes, List.append_assoc]
  have e16 : dirent_bytes d = ([d.type, d.attr] ++ le16 d.block ++ d.name) ++
      (d.timestamp ++ (le16 d.size ++ (le16 d.header_block_offset ++ d.reserved))) := by
    simp [dirent_bytes, List.append_assoc]
  have e24 : dirent_bytes d = ([d.type, d.attr] ++ le16 d.block ++ d.name ++ d.timestamp) ++
      (le16 d.size ++ (le16 d.header_block_offset ++ d.reserved)) := by
    simp [dirent_bytes, List.append_assoc]
  have e26 : dirent_bytes d =
      ([d.type, d.attr] ++ le16 d.block ++ d.name ++ d.timestamp ++ le16 d.size) ++
      (le16 d.header_block_offset ++ d.reserved) := by
    simp [dirent_bytes, List.append_assoc]
  have e28 : dirent_bytes d =
      ([d.type, d.attr] ++ le16 d.block ++ d.name ++ d.timestamp ++ le16 d.size ++
        le16 d.header_block_offset) ++ d.reserved := by
    simp [dirent_bytes, List.append_assoc]
  have hn1 : d.name.length = 12 := hn.1
  have l4 : ([d.type, d.attr] ++ le16 d.block).length = 4 := rfl
  have l16 : ([d.type, d.attr] ++ le16 d.block ++ d.name).length = 16 := by
    simp [le16_length, hn1]
  have l24 : ([d.type, d.attr] ++ le16 d.block ++ d.name ++ d.timestamp).length = 24 := by
    simp [le16_length, hn1, ht.1]
  have l26 : ([d.type, d.attr] ++ le16 d.block ++ d.name ++ d.timestamp ++
      le16 d.size).length = 26 := by
    simp [le16_length, hn1, ht.1]
  have l28 : ([d.type, d.attr] ++ le16 d.block ++ d.name ++ d.timestamp ++ le16 d.size ++
      le16 d.header_block_offset).length = 28 := by
    simp [le16_length, hn1, ht.1]
  have h16 : ∀ off, get16 (dirent_bytes d) off = get16 ((dirent_bytes d).drop off) 0 := by
    intro off; rw [get16_drop]; rfl
  have f_type : (dirent_bytes d).getD 0 0 = d.type := by rw [e2]; rfl
  have f_attr : (dirent_bytes d).getD 1 0 = d.attr := by rw [e2]; rfl
  have f_block : get16 (dirent_bytes d) 2 = d.block := by
    rw [h16, e2, List.drop_left' (by rfl)]
    exact get16_le16 _ _ hblock
  have f_name : ((dirent_bytes d).drop 4).take DIR_NAMELEN = d.name := by
    rw [e4, List.drop_left' l4, List.take_left' hn.1]
  have f_ts : ((dirent_bytes d).drop 16).take 8 = d.timestamp := by
    rw [e16, List.drop_left' l16, List.take_left' ht.1]
  have f_size : get16 (dirent_bytes d) 24 = d.size := by
    rw [h16, e24, List.drop_left' l24]
    exact get16_le16 _ _ hsize
  have f_hbo : get16 (dirent_bytes d) 26 = d.header_block_offset := by
    rw [h16, e26, List.drop_left' l26]
    exact get16_le16 _ _ hhbo
  have f_res : ((dirent_bytes d).drop 28).take 4 = d.reserved := by
    rw [e28, List.drop_left' l28, ← hr.1, List.take_length]
  unfold dirent_of_bytes
  rw [f_type, f_attr, f_block, f_name, f_ts, f_size, f_hbo, f_res]

theorem dir_bytes_length (dir : List vmsfs_dirent) (h : ∀ d ∈ dir, dirent_typed d) :
    (dir_bytes dir).length = 32 * dir.length := by
  unfold dir_bytes
  rw [flatten_length_uniform 32 _ (by
    intro c hc
    obtain ⟨d, hd, rfl⟩ := List.mem_map.mp hc
    exact dirent_bytes_length d (h d hd)), List.length_map]

/-- Decoding the bytes of the directory gives the directory back. -/
theorem dir_of_bytes_dir_bytes (dir : List vmsfs_dirent) (h : ∀ d ∈ dir, dirent_typed d) :
    dir_of_bytes (dir_bytes dir) dir.length = dir := by
  apply List.ext_getElem
  · simp [dir_of_bytes]
  · intro i h1 h2
    simp only [dir_of_bytes, List.getElem_map, List.getElem_range]
    have hi : i < (dir.map dirent_bytes).length := by simpa using h2
    have hchunk := flatten_chunk 32 (dir.map dirent_bytes) i (by
      intro c hc
      obtain ⟨d, hd, rfl⟩ := List.mem_map.mp hc
      exact dirent_bytes_length d (h d hd)) hi
    unfold dir_bytes
    rw [hchunk]
    simp only [List.get_eq_getElem, List.getElem_map]
    exact dirent_of_bytes_dirent_bytes _ (h _ (List.getElem_mem _))

/-- A fresh session on an image that holds the cached structures of `t` loads exactly `t`. -/
theorem vms_load_dir_of_persisted (t : Vms) (hL : Loaded t) (hT : Typed t)
    (hP : Persisted t) : vms_load_dir t.vms_fd = .ok t := by
  obtain ⟨hroot, hfatno, hfat, hdsz, hdin, hdir⟩ := hP
  have hreadfat : vms_read_blocks [] t.vms_fd t.vms_rootblk.fat_blockno 1 =
      .ok (fat_bytes t.vms_fatblk) := by
    rw [vms_read_blocks_ok _ _ _ _ (le_refl 1) (by
      intro j hj
      have : j = 0 := by omega
      subst this
      exact hfatno)]
    simp [read_chunks, chain_blocks, hfat]
  have hloadfat : vms_load_fat t.vms_fd = .ok (t.vms_rootblk, t.vms_fatblk) := by
    unfold vms_load_fat
    rw [hroot]
    dsimp only
    rw [hreadfat]
    dsimp only
    rw [fat_of_bytes_fat_bytes _ hL.1 hT.1]
  unfold vms_load_dir
  rw [hloadfat]
  dsimp only
  rw [vms_read_blocks_ok _ _ _ _ hdsz hdin, hdir]
  dsimp only
  have hlen : VMSFS_DIR_NENTRIES_PER_BLOCK * t.vms_rootblk.directory_blocksize =
      t.vms_dirblk.length := hL.2.symm
  rw [hlen, dir_of_bytes_dir_bytes _ hT.2]

theorem fat_set_typed (fat : List Nat) (i x : Nat) (h : ∀ v ∈ fat, v < 65536)
    (hx : x < 65536) : ∀ v ∈ fat_set fat i x, v < 65536 := by
  intro v hv
  rcases List.mem_or_eq_of_mem_set hv with h1 | h1
  · exact h v h1
  · rw [h1]; exact hx

theorem free_blocks_typed (bs : List Nat) :
    ∀ fat : List Nat, (∀ v ∈ fat, v < 65536) → ∀ v ∈ free_blocks fat bs, v < 65536 := by
  induction bs with
  | nil => intro fat h; exact h
  | cons b bs ih =>
    intro fat h
    rw [free_blocks_cons]
    exact ih _ (fat_set_typed fat b _ h (by decide))

theorem linkChain_typed (fs : List Nat) :
    ∀ (blk : Nat) (fat : List Nat), (∀ v ∈ fat, v < 65536) → blk < 65536 →
      (∀ f ∈ fs, f ≤ VMS_MAXBLOCKNO) → ∀ v ∈ (linkChain fs blk fat).1, v < 65536 := by
  induction fs with
  | nil => intro blk fat h _ _; exact h
  | cons f fs ih =>
    intro blk fat h hblk hfs
    rw [linkChain]
    have hf : f ≤ 255 := hfs f (by simp)
    exact ih f _ (fat_set_typed fat f blk h hblk) (by omega)
      (fun g hg => hfs g (List.mem_cons_of_mem _ hg))

theorem dir_set_typed (dir : List vmsfs_dirent) (i : Nat) (e : vmsfs_dirent)
    (h : ∀ d ∈ dir, dirent_typed d) (he : dirent_typed e) :
    ∀ d ∈ dir.set i e, dirent_typed d := by
  intro d hd
  rcases List.mem_or_eq_of_mem_set hd with h1 | h1
  · exact h d h1
  · rw [h1]; exact he

theorem toupper_lt (c : Nat) (h : c < 256) : toupper c < 256 := by
  unfold toupper
  split <;> omega

theorem vmsfs_regular_name_loop_lt (filename : List Nat) (n : Nat) :
    ∀ i, ∀ c ∈ vmsfs_regular_name_loop filename n i, c < 256 := by
  induction n with
  | zero => intro i c hc; simp [vmsfs_regular_name_loop] at hc
  | succ n ih =>
    intro i c hc
    rw [vmsfs_regular_name_loop] at hc
    split at hc
    · rw [List.mem_replicate] at hc
      omega
    · rw [List.mem_cons] at hc
      rcases hc with rfl | hc
      · split
        · omega
        · exact toupper_lt _ (Nat.mod_lt _ (by omega))
      · exact ih _ c hc

theorem DEC2BCD_lt (d : Int) : DEC2BCD d < 256 := by
  unfold DEC2BCD
  have h := Int.emod_lt_of_pos (Int.lor (Int.tdiv d 10 * 16) (Int.tmod d 10))
    (show (0 : Int) < 256 by omega)
  have h0 := Int.emod_nonneg (Int.lor (Int.tdiv d 10 * 16) (Int.tmod d 10))
    (show (256 : Int) ≠ 0 by omega)
  omega

/-- The entry written by `vmsfs_writefile` fits the C types. -/
theorem written_dirent_typed (filename : List Nat) (nblk : Nat) (mtime : Tm) (head : Nat)
    (hn : nblk ≤ VMS_MAXBLOCKNO) (hh : head ≤ VMS_MAXBLOCKNO) :
    dirent_typed (written_dirent filename nblk mtime head) := by
  have hn' : nblk ≤ 255 := hn
  have hh' : head ≤ 255 := hh
  refine ⟨show DIR_TYPE_DATA < 256 by decide, show DIR_ATTR_COPIABLE < 256 by decide, ?_,
    ⟨vmsfs_regular_name_length filename, ?_⟩, ⟨rfl, ?_⟩, ?_, show 0 < 65536 by decide,
    show byte_list 4 (List.replicate 4 0) by decide⟩
  · show head < 65536
    omega
  · exact vmsfs_regular_name_loop_lt filename _ 0
  · intro x hx
    simp only [written_dirent, vmsfs_unixtime2bcdtimestamp, List.replicate, List.drop,
      List.cons_append, List.nil_append, List.mem_cons, List.mem_singleton,
      List.not_mem_nil, or_false] at hx
    rcases hx with rfl | rfl | rfl | rfl | rfl | rfl | rfl | rfl
    all_goals first | exact DEC2BCD_lt _ | omega
  · show nblk < 65536
    omega

theorem vmsfs_unlink_typed (s : Vms) (file : List Nat) (hL : Loaded s) (hok : ChainsOk s)
    (hT : Typed s) : Typed (vmsfs_unlink s file).1 := by
  by_cases h : (vmsfs_unlink s file).2 = .ok ()
  · obtain ⟨dp, hl, _, hfat, hdir, _⟩ := vmsfs_unlink_ok_wf s file hL hok h
    have hm := (vms_dirent_lookup_ok_iff s file dp).mp hl
    have hdplt : dp < s.vms_dirblk.length := by rw [hL.2]; exact hm.2.1
    have hd : dirent_typed (dir_get s.vms_dirblk dp) := by
      rw [dir_get_eq_get _ _ hdplt]
      exact hT.2 _ (List.get_mem _ _ _)
    refine ⟨?_, ?_⟩
    · rw [hfat]; exact free_blocks_typed _ _ hT.1
    · rw [hdir]
      exact dir_set_typed _ _ _ hT.2 ⟨show DIR_TYPE_NONE < 256 by decide, hd.2⟩
  · rw [vmsfs_unlink_fail_wf s file hok hL h]; exact hT

theorem vms_load_root_eq (fd : Nat → List Nat) :
    vms_load_root fd = .ok (root_of_bytes (fd VMS_ROOTBLOCKNO)) := by
  unfold vms_load_root
  rw [vms_read_blocks_ok _ _ _ _ (le_refl 1) (by
    intro j hj
    have : j = 0 := by omega
    subst this
    exact le_refl _)]
  simp [read_chunks, chain_blocks]

/-- The image blocks that `vmsfs_unlink` may write are the table block and the blocks of the
directory chain. -/
theorem vmsfs_unlink_fd_frame (s : Vms) (file : List Nat) (hL : Loaded s) (hok : ChainsOk s)
    (hsys : SysBlocksOk s) (hd : 1 ≤ s.vms_rootblk.directory_blocksize) (x : Nat)
    (hx1 : x ≠ s.vms_rootblk.fat_blockno)
    (hx2 : x ∉ chain_blocks s.vms_fatblk s.vms_rootblk.directory_blocksize
      s.vms_rootblk.directory_blockno) :
    (vmsfs_unlink s file).1.vms_fd x = s.vms_fd x := by
  by_cases h : (vmsfs_unlink s file).2 = .ok ()
  · obtain ⟨dp, fat, hl, hloop, _, _, _⟩ := vmsfs_unlink_ok s file h
    obtain ⟨dp', hl', _, hfat, _, _⟩ := vmsfs_unlink_ok_wf s file hL hok h
    have hdd : dp' = dp := by rw [hl] at hl'; exact (Except.ok.inj hl').symm
    subst hdd
    have hm := (vms_dirent_lookup_ok_iff s file dp').mp hl
    have hfat' : fat = free_blocks s.vms_fatblk (entry_chain s dp') := by
      rw [← hfat, vmsfs_unlink_of_loop_ok s file dp' fat hl hloop]
      rfl
    have hchain : chain_blocks fat s.vms_rootblk.directory_blocksize
        s.vms_rootblk.directory_blockno =
        chain_blocks s.vms_fatblk s.vms_rootblk.directory_blocksize
          s.vms_rootblk.directory_blockno :=
      (chain_agree s.vms_fatblk fat _ _ (fun y hy => by
        rw [hfat']
        exact free_blocks_get_not_mem _ _ y
          ((hsys y (by simp [sys_blocks, hy])).2 dp' hm.2.1 hm.2.2.1.1))).1
    rw [vmsfs_unlink_of_loop_ok s file dp' fat hl hloop]
    dsimp only
    rw [vms_save_fat_fd, vms_write_blocks_frame _ _ _ _ _ x (le_refl 1) (by
      simp only [chain_blocks, List.mem_singleton]
      exact hx1)]
    rw [vms_save_dir_fd, vms_write_blocks_frame _ _ _ _ _ x hd (by
      show x ∉ chain_blocks fat _ _
      rw [hchain]; exact hx2)]
  · rw [vmsfs_unlink_fail_wf s file hok hL h]

theorem vms_save_fat_fd_eq (t : Vms) (h : t.vms_rootblk.fat_blockno ≤ VMS_MAXBLOCKNO) :
    (vms_save_fat t).1.vms_fd =
      fd_write t.vms_fd t.vms_rootblk.fat_blockno (buf_chunk (fat_bytes t.vms_fatblk) 0) := by
  rw [vms_save_fat_fd, vms_write_blocks_ok _ _ _ _ _ (le_refl 1) (by
    intro j hj
    have : j = 0 := by omega
    subst this
    exact h)]
  rfl

theorem vms_save_dir_fd_eq (t : Vms) (h1 : 1 ≤ t.vms_rootblk.directory_blocksize)
    (hin : ∀ j, j < t.vms_rootblk.directory_blocksize →
      chain_at t.vms_fatblk j t.vms_rootblk.directory_blockno ≤ VMS_MAXBLOCKNO) :
    (vms_save_dir t).1.vms_fd =
      write_chunks (dir_bytes t.vms_dirblk)
        (chain_blocks t.vms_fatblk t.vms_rootblk.directory_blocksize
          t.vms_rootblk.directory_blockno) 0 t.vms_fd := by
  rw [vms_save_dir_fd, vms_write_blocks_ok _ _ _ _ _ h1 hin]

/-- Saving the table and then the directory of a loaded, typed state with distinct system
blocks leaves an image that holds both, provided the root block is not among the blocks
written. -/
theorem persisted_after_save (t : Vms) (hL : Loaded t) (hT : Typed t)
    (hroot : root_of_bytes (t.vms_fd VMS_ROOTBLOCKNO) = t.vms_rootblk)
    (hlay : Layout t) (h1 : 1 ≤ t.vms_rootblk.directory_blocksize) :
    Persisted (vms_save_dir (vms_save_fat t).1).1 := by
  obtain ⟨hnd, hle⟩ := hlay
  unfold sys_blocks at hnd hle
  rw [List.nodup_cons, List.nodup_cons] at hnd
  obtain ⟨h255, hfatno, hdirnd⟩ := hnd
  rw [List.mem_cons, not_or] at h255
  have hfle : t.vms_rootblk.fat_blockno ≤ VMS_MAXBLOCKNO := hle _ (by simp)
  have hdin : ∀ j, j < t.vms_rootblk.directory_blocksize →
      chain_at t.vms_fatblk j t.vms_rootblk.directory_blockno ≤ VMS_MAXBLOCKNO := by
    intro j hj
    exact hle _ (by
      simp only [List.mem_cons]
      exact Or.inr (Or.inr ((mem_chain_blocks _ _ _ _).mpr ⟨j, hj, rfl⟩)))
  have hfdS : (vms_save_dir (vms_save_fat t).1).1.vms_fd =
      write_chunks (dir_bytes t.vms_dirblk)
        (chain_blocks t.vms_fatblk t.vms_rootblk.directory_blocksize
          t.vms_rootblk.directory_blockno) 0
        (fd_write t.vms_fd t.vms_rootblk.fat_blockno (buf_chunk (fat_bytes t.vms_fatblk) 0)) := by
    rw [vms_save_dir_fd_eq (vms_save_fat t).1 h1 hdin, vms_save_fat_fd_eq t hfle]
    rfl
  refine ⟨?_, hfle, ?_, h1, hdin, ?_⟩
  · rw [vms_load_root_eq, hfdS, write_chunks_frame _ _ _ _ _ h255.2]
    simp only [fd_write, if_neg h255.1]
    rw [hroot]
    rfl
  · show (vms_save_dir (vms_save_fat t).1).1.vms_fd t.vms_rootblk.fat_blockno =
      fat_bytes t.vms_fatblk
    rw [hfdS, write_chunks_frame _ _ _ _ _ hfatno]
    simp only [fd_write, if_true, buf_chunk, Nat.mul_zero, List.drop_zero]
    have hlen : (fat_bytes t.vms_fatblk).length = VMS_BLOCKSIZE := by
      rw [fat_bytes_length, hL.1]
      rfl
    rw [← hlen, List.take_length]
  · show read_chunks (vms_save_dir (vms_save_fat t).1).1.vms_fd
      (chain_blocks t.vms_fatblk t.vms_rootblk.directory_blocksize
        t.vms_rootblk.directory_blockno) = dir_bytes t.vms_dirblk
    rw [hfdS, read_chunks_write_chunks _ _ _ _ hdirnd, chain_blocks_length, Nat.mul_zero,
      List.drop_zero]
    have hlen : (dir_bytes t.vms_dirblk).length =
        VMS_BLOCKSIZE * t.vms_rootblk.directory_blocksize := by
      rw [dir_bytes_length _ hT.2, hL.2]
      unfold dir_nentries
      simp only [VMSFS_DIR_NENTRIES_PER_BLOCK, VMS_BLOCKSIZE]
      omega
    rw [← hlen, List.take_length]

/-- After `dcvmtool_cmd_put` on a well-formed state the image holds the cached structures, so
a fresh session on that image starts from the state in which `dcvmtool_cmd_put` ended. -/
theorem dcvmtool_cmd_put_persisted (s : Vms) (name content : List Nat) (mtime : Tm)
    (hwf : WellFormed s) (hstrlen : strlen name ≤ DIR_NAMELEN)
    (hlen1 : 1 ≤ content.length) (hlen2 : content.length ≤ 255 * 512)
    (hslot : ∃ i, i < dir_nentries s ∧ (dir_get s.vms_dirblk i).type = DIR_TYPE_NONE)
    (hfree : nblk_of_size content.length ≤ vms_getfreeblock s.vms_fatblk) :
    vms_load_dir (dcvmtool_cmd_put s name content mtime).1.vms_fd =
      .ok (dcvmtool_cmd_put s name content mtime).1 := by
  obtain ⟨hL, hT, hok, hsz, hsys, hlay, hroot⟩ := hwf
  obtain ⟨hL1, hroot1, _, _, _, _⟩ := vmsfs_unlink_for_put s name hL hok hsz hstrlen
  have hT1 := vmsfs_unlink_typed s name hL hok hT
  obtain ⟨dp, head, fat2, hdp, hfat2, hhead, hcok, hsysfat, hdirchain, hput⟩ :=
    dcvmtool_cmd_put_state s name content mtime hL hok hsz hsys hstrlen hlen1 hlen2 hslot hfree
  obtain ⟨hdplt, _⟩ := vms_dirent_alloc_lt _ dp hL1 hdp
  have hn255 : nblk_of_size content.length ≤ VMS_MAXBLOCKNO := by
    unfold nblk_of_size; simp only [VMS_BLOCKSIZE, VMS_MAXBLOCKNO]; omega
  have hdirsize : 1 ≤ s.vms_rootblk.directory_blocksize := by
    obtain ⟨i, hi, _⟩ := hslot
    unfold dir_nentries at hi
    simp only [VMSFS_DIR_NENTRIES_PER_BLOCK] at hi
    omega
  rw [hput]
  dsimp only
  -- the state after `vmsfs_writefile`
  set W : Vms :=
    { vms_fd := write_chunks (padded content)
        (chain_blocks fat2 (nblk_of_size content.length) head) 0 (vmsfs_unlink s name).1.vms_fd
      vms_rootblk := (vmsfs_unlink s name).1.vms_rootblk
      vms_fatblk := fat2
      vms_dirblk := (vmsfs_unlink s name).1.vms_dirblk.set dp
        (written_dirent name (nblk_of_size content.length) mtime head) } with hW
  have hWroot : W.vms_rootblk = s.vms_rootblk := hroot1
  have hWsys : sys_blocks W = sys_blocks s := by
    unfold sys_blocks
    rw [hWroot]
    show _ :: _ :: chain_blocks fat2 _ _ = _
    rw [hdirchain]
  have hWL : Loaded W := by
    refine ⟨?_, ?_⟩
    · show fat2.length = _
      rw [hfat2, linkChain_length]; exact hL1.1
    · show (List.set _ _ _).length = _
      rw [List.length_set]; exact hL1.2
  have hWT : Typed W := by
    refine ⟨?_, ?_⟩
    · show ∀ v ∈ fat2, v < 65536
      rw [hfat2]
      exact linkChain_typed _ _ _ hT1.1 (by decide) (fun f hf =>
        ((mem_freeSlots _ f).mp (List.mem_of_mem_take hf)).1)
    · exact dir_set_typed _ _ _ hT1.2 (written_dirent_typed _ _ _ _ hn255 hhead)
  have hWlay : Layout W := by
    unfold Layout
    rw [hWsys]; exact hlay
  have h255 : VMS_ROOTBLOCKNO ∈ sys_blocks s := by simp [sys_blocks]
  have hlay' := hlay.1
  unfold sys_blocks at hlay'
  rw [List.nodup_cons, List.mem_cons, not_or] at hlay'
  have hWfd : W.vms_fd VMS_ROOTBLOCKNO = s.vms_fd VMS_ROOTBLOCKNO := by
    show write_chunks _ _ _ _ _ = _
    rw [write_chunks_frame _ _ _ _ _ (hsysfat _ h255).2]
    exact vmsfs_unlink_fd_frame s name hL hok hsys hdirsize _ hlay'.1.1 hlay'.1.2
  have hP := persisted_after_save W hWL hWT (by rw [hWfd, hroot, hWroot]) hWlay
    (by rw [hWroot]; exact hdirsize)
  exact vms_load_dir_of_persisted _ ⟨hWL.1, hWL.2⟩ ⟨hWT.1, hWT.2⟩ hP

/-- C1 (as amended). On a well-formed image with a free directory slot and at least
`ceil(L/512)` free blocks, `dcvmtool_cmd_put` of a payload of `1 ≤ L ≤ 255*512` bytes under a
name in normalized 12-character form succeeds, and `vms_loadfile` of that name then returns
the payload followed by zero bytes up to the next multiple of 512: the reported length is
`ceil(L/512) * 512`, which is `L` only when `L` is a multiple of 512. A fresh session on the
image left behind loads the very state in which `dcvmtool_cmd_put` ended, so a later run of
the tool reads the same bytes. -/
theorem put_then_loadfile (s : Vms) (name content : List Nat) (mtime : Tm)
    (hwf : WellFormed s) (hname : vmsfs_regular_name name = name)
    (hlen1 : 1 ≤ content.length) (hlen2 : content.length ≤ 255 * 512)
    (hslot : ∃ i, i < dir_nentries s ∧ (dir_get s.vms_dirblk i).type = DIR_TYPE_NONE)
    (hfree : ⌈(content.length : ℚ) / 512⌉₊ ≤ vms_getfreeblock s.vms_fatblk) :
    (dcvmtool_cmd_put s name content mtime).2 = 0 ∧
    vms_loadfile (dcvmtool_cmd_put s name content mtime).1 name =
      .ok (content ++
        List.replicate (⌈(content.length : ℚ) / 512⌉₊ * 512 - content.length) 0) ∧
    (∃ t, vms_load_dir (dcvmtool_cmd_put s name content mtime).1.vms_fd = .ok t ∧
      vms_loadfile t name = .ok (content ++
        List.replicate (⌈(content.length : ℚ) / 512⌉₊ * 512 - content.length) 0)) ∧
    (content ++ List.replicate (⌈(content.length : ℚ) / 512⌉₊ * 512 - content.length) 0).length =
      ⌈(content.length : ℚ) / 512⌉₊ * 512 := by
  have hcore := put_then_loadfile_core s name content mtime hwf.1 hwf.2.2.1 hwf.2.2.2.1
    hwf.2.2.2.2.1 hname hlen1 hlen2 hslot hfree
  have hnamelen : name.length = DIR_NAMELEN := by
    rw [← hname]; exact vmsfs_regular_name_length name
  have hstrlen : strlen name ≤ DIR_NAMELEN := by
    rw [← hnamelen]; exact strlen_le_length name
  have hload := dcvmtool_cmd_put_persisted s name content mtime hwf hstrlen hlen1 hlen2 hslot
    (by rw [nblk_of_size_eq_ceil]; exact hfree)
  exact ⟨hcore.1, hcore.2.1, ⟨_, hload, hcore.2.1⟩, hcore.2.2⟩

/-- C1, counterexample. On the empty card, with the normalized name `TEST________` and a
payload of one byte, `dcvmtool_cmd_put` succeeds and `vms_loadfile` returns 512 bytes, the
payload and 511 zero bytes, not the one byte written. -/
theorem put_then_loadfile_not_exact :
    WellFormed emptyCard ∧ vmsfs_regular_name name12 = name12 ∧
    (dcvmtool_cmd_put emptyCard name12 [65] tm0).2 = 0 ∧
    vms_loadfile (dcvmtool_cmd_put emptyCard name12 [65] tm0).1 name12 =
      .ok ([65] ++ List.replicate 511 0) ∧
    vms_loadfile (dcvmtool_cmd_put emptyCard name12 [65] tm0).1 name12 ≠ .ok [65] := by
  decide!

/-- C1 (as amended) at the empty card with the name `TEST________` and 1000 bytes. -/
theorem put_then_loadfile_witness :
    WellFormed emptyCard ∧
    (dcvmtool_cmd_put emptyCard name12 payload1000 tm0).2 = 0 ∧
    vms_loadfile (dcvmtool_cmd_put emptyCard name12 payload1000 tm0).1 name12 =
      .ok (payload1000 ++
        List.replicate (⌈(payload1000.length : ℚ) / 512⌉₊ * 512 - payload1000.length) 0) ∧
    (∃ t, vms_load_dir (dcvmtool_cmd_put emptyCard name12 payload1000 tm0).1.vms_fd = .ok t ∧
      vms_loadfile t name12 = .ok (payload1000 ++
        List.replicate (⌈(payload1000.length : ℚ) / 512⌉₊ * 512 - payload1000.length) 0)) ∧
    (payload1000 ++
      List.replicate (⌈(payload1000.length : ℚ) / 512⌉₊ * 512 - payload1000.length) 0).length =
      ⌈(payload1000.length : ℚ) / 512⌉₊ * 512 :=
  have hwf : WellFormed emptyCard := by decide!
  ⟨hwf,
    put_then_loadfile emptyCard name12 payload1000 tm0 hwf (by decide!) (by decide!)
      (by decide!) ⟨0, by decide!, by decide!⟩ (by rw [← nblk_of_size_eq_ceil]; decide!)⟩

/-- C2, the code at the failing input. Two runs of `dcvmtool_cmd_put` with the name `TEST` on
the empty card both succeed and leave two occupied entries named `TEST________`, in slots 0
and 1, because `vmsfs_unlink` looks up `TEST` and does not find `TEST________`; with the
normalized name `TEST________` the second run replaces the first entry. -/
theorem put_twice_duplicates :
    (dcvmtool_cmd_put emptyCard nameTEST [1] tm0).2 = 0 ∧
    (dcvmtool_cmd_put (dcvmtool_cmd_put emptyCard nameTEST [1] tm0).1 nameTEST [2] tm0).2 =
      0 ∧
    ((dcvmtool_cmd_put (dcvmtool_cmd_put emptyCard nameTEST [1] tm0).1 nameTEST [2]
      tm0).1.vms_dirblk.filter (fun d => decide (d.type ≠ DIR_TYPE_NONE ∧
        d.name = vmsfs_regular_name nameTEST))).length = 2 ∧
    (vmsfs_unlink (dcvmtool_cmd_put emptyCard nameTEST [1] tm0).1 nameTEST).2 =
      .error Errno.ENOENT ∧
    ((dcvmtool_cmd_put (dcvmtool_cmd_put emptyCard name12 [1] tm0).1 name12 [2]
      tm0).1.vms_dirblk.filter (fun d => decide (d.type ≠ DIR_TYPE_NONE ∧
        d.name = vmsfs_regular_name name12))).length = 1 := by
  decide!

/-- C3, the code at the failing input. After `dcvmtool_cmd_put` of 1000 bytes under the name
`TEST` on the empty card, the entry is stored as `TEST________`, and `vms_dirent_lookup` and
`vms_loadfile` called with `TEST` fail with `ENOENT`. -/
theorem put_then_lookup_by_name_fails :
    (dcvmtool_cmd_put emptyCard nameTEST payload1000 tm0).2 = 0 ∧
    (dir_get (dcvmtool_cmd_put emptyCard nameTEST payload1000 tm0).1.vms_dirblk 0).name =
      name12 ∧
    vms_dirent_lookup (dcvmtool_cmd_put emptyCard nameTEST payload1000 tm0).1 nameTEST =
      .error Errno.ENOENT ∧
    vms_loadfile (dcvmtool_cmd_put emptyCard nameTEST payload1000 tm0).1 nameTEST =
      .error Errno.ENOENT ∧
    vms_dirent_lookup (dcvmtool_cmd_put emptyCard nameTEST payload1000 tm0).1 name12 = .ok 0 := by
  decide!

/-- C4, counterexample. On a card with two entries named `TEST________`, `vmsfs_unlink`
succeeds and the following lookup of the same name finds the second entry, in slot 1. -/
theorem unlink_then_lookup_duplicate :
    Loaded dupCard ∧ (vmsfs_unlink dupCard name12).2 = .ok () ∧
    vms_dirent_lookup (vmsfs_unlink dupCard name12).1 name12 = .ok 1 := by
  decide!

/-- C4 (as amended) at the card with two entries named `TEST________`. -/
theorem unlink_then_lookup_witness :
    Loaded dupCard ∧ (vmsfs_unlink dupCard name12).2 = .ok () ∧
    ∃ dp, vms_dirent_lookup dupCard name12 = .ok dp ∧
      (vms_dirent_lookup (vmsfs_unlink dupCard name12).1 name12 = .error Errno.ENOENT ↔
        ∀ k, k < dir_nentries dupCard → k ≠ dp → ¬ dirent_matches dupCard.vms_dirblk name12 k) ∧
      (∀ j, vms_dirent_lookup (vmsfs_unlink dupCard name12).1 name12 = .ok j →
        dp < j ∧ dirent_matches dupCard.vms_dirblk name12 j) ∧
      (∀ fuel x, x ∈ fat_chain dupCard.vms_fatblk fuel (dir_get dupCard.vms_dirblk dp).block →
        fat_get (vmsfs_unlink dupCard name12).1.vms_fatblk x = BLOCK_UNALLOCATED) :=
  have hL : Loaded dupCard := by decide!
  have hdel : (vmsfs_unlink dupCard name12).2 = .ok () := by decide!
  ⟨hL, hdel, unlink_then_lookup dupCard name12 hL hdel⟩

/-- C5 at the card with one file: a put of one byte under `TEST` and the delete of
`TEST________`. -/
theorem allocation_conservation_witness :
    (Loaded oneFileCard ∧ ChainsOk oneFileCard) ∧
    ((dcvmtool_cmd_put oneFileCard nameTEST [65] tm0).2 = 0 ∧
      vms_getfreeblock (dcvmtool_cmd_put oneFileCard nameTEST [65] tm0).1.vms_fatblk +
          total_blksize (dcvmtool_cmd_put oneFileCard nameTEST [65] tm0).1 =
        vms_getfreeblock oneFileCard.vms_fatblk + total_blksize oneFileCard) ∧
    ((vmsfs_unlink oneFileCard name12).2 = .ok () ∧
      vms_getfreeblock (vmsfs_unlink oneFileCard name12).1.vms_fatblk +
          total_blksize (vmsfs_unlink oneFileCard name12).1 =
        vms_getfreeblock oneFileCard.vms_fatblk + total_blksize oneFileCard) :=
  have hL : Loaded oneFileCard := by decide!
  have hok : ChainsOk oneFileCard := by decide!
  have hput : (dcvmtool_cmd_put oneFileCard nameTEST [65] tm0).2 = 0 := by decide!
  have hdel : (vmsfs_unlink oneFileCard name12).2 = .ok () := by decide!
  ⟨⟨hL, hok⟩,
    ⟨hput, (allocation_conservation oneFileCard hL hok).1 nameTEST [65] tm0 hput⟩,
    ⟨hdel, (allocation_conservation oneFileCard hL hok).2 name12 hdel⟩⟩

/-- C6 at the card with one file: a put of one byte under `TEST` and the delete of
`TEST________`. -/
theorem chain_integrity_preserved_witness :
    (Loaded oneFileCard ∧ ChainsOk oneFileCard ∧ ChainsDisjoint oneFileCard) ∧
    ((dcvmtool_cmd_put oneFileCard nameTEST [65] tm0).2 = 0 ∧
      Loaded (dcvmtool_cmd_put oneFileCard nameTEST [65] tm0).1 ∧
      ChainsOk (dcvmtool_cmd_put oneFileCard nameTEST [65] tm0).1 ∧
      ChainsDisjoint (dcvmtool_cmd_put oneFileCard nameTEST [65] tm0).1) ∧
    ((vmsfs_unlink oneFileCard name12).2 = .ok () ∧
      Loaded (vmsfs_unlink oneFileCard name12).1 ∧ ChainsOk (vmsfs_unlink oneFileCard name12).1 ∧
      ChainsDisjoint (vmsfs_unlink oneFileCard name12).1) :=
  have hL : Loaded oneFileCard := by decide!
  have hok : ChainsOk oneFileCard := by decide!
  have hdj : ChainsDisjoint oneFileCard := by decide!
  have hput : (dcvmtool_cmd_put oneFileCard nameTEST [65] tm0).2 = 0 := by decide!
  have hdel : (vmsfs_unlink oneFileCard name12).2 = .ok () := by decide!
  ⟨⟨hL, hok, hdj⟩,
    ⟨hput, (chain_integrity_preserved oneFileCard hL hok hdj).1 nameTEST [65] tm0 hput⟩,
    ⟨hdel, (chain_integrity_preserved oneFileCard hL hok hdj).2 name12 hdel⟩⟩

/-- C9 at the empty card with the name `TEST` and 1000 bytes: the entry in slot 0 records 2
blocks and the free-block count drops from 241 to 239. -/
theorem write_accounting_witness :
    (Loaded emptyCard ∧
      (∀ k, k < dir_nentries emptyCard → ¬ dirent_matches emptyCard.vms_dirblk nameTEST k) ∧
      (dcvmtool_cmd_put emptyCard nameTEST payload1000 tm0).2 = 0) ∧
    (∃ dp, vms_dirent_alloc emptyCard = .ok dp ∧
      (dir_get (dcvmtool_cmd_put emptyCard nameTEST payload1000 tm0).1.vms_dirblk dp).type =
        DIR_TYPE_DATA ∧
      (dir_get (dcvmtool_cmd_put emptyCard nameTEST payload1000 tm0).1.vms_dirblk dp).size =
        ⌈(payload1000.length : ℚ) / 512⌉₊ ∧
      vms_getfreeblock (dcvmtool_cmd_put emptyCard nameTEST payload1000 tm0).1.vms_fatblk +
        ⌈(payload1000.length : ℚ) / 512⌉₊ = vms_getfreeblock emptyCard.vms_fatblk) ∧
    (payload1000.length = 1000 ∧
      (dir_get (dcvmtool_cmd_put emptyCard nameTEST payload1000 tm0).1.vms_dirblk 0).size = 2 ∧
      vms_getfreeblock emptyCard.vms_fatblk = 241 ∧
      vms_getfreeblock (dcvmtool_cmd_put emptyCard nameTEST payload1000 tm0).1.vms_fatblk =
        239) :=
  have hyp : Loaded emptyCard ∧
      (∀ k, k < dir_nentries emptyCard → ¬ dirent_matches emptyCard.vms_dirblk nameTEST k) ∧
      (dcvmtool_cmd_put emptyCard nameTEST payload1000 tm0).2 = 0 := by decide!
  ⟨hyp, write_accounting emptyCard nameTEST payload1000 tm0 hyp.1 hyp.2.1 hyp.2.2, by decide!⟩

theorem tolower_eq_zero (c : Nat) : tolower c = 0 ↔ c = 0 := by
  unfold tolower; split <;> omega

theorem tolower_eq_iff (c d : Nat) : tolower c = tolower d ↔ same_char_nocase c d := by
  unfold tolower same_char_nocase
  split <;> split <;> omega

theorem cstring_cons_zero (l : List Nat) : cstring (0 :: l) = [] := by
  simp [cstring]

theorem cstring_cons_ne (c : Nat) (l : List Nat) (h : c ≠ 0) :
    cstring (c :: l) = c :: cstring l := by
  simp [cstring, h]

theorem cstring_append_zero (l : List Nat) : cstring (l ++ [0]) = cstring l := by
  induction l with
  | nil => simp [cstring]
  | cons c l ih =>
    by_cases h : c = 0
    · subst h; simp [cstring]
    · rw [List.cons_append, cstring_cons_ne _ _ h, cstring_cons_ne _ _ h, ih]

theorem cstring_length (l : List Nat) : (cstring l).length = strlen l := rfl

theorem same_name_nocase_nil_left (b : List Nat) :
    same_name_nocase [] b ↔ b.headD 0 = 0 := by
  unfold same_name_nocase
  cases b with
  | nil => simp [cstring]
  | cons c b =>
    by_cases h : c = 0
    · subst h; simp [cstring]
    · simp [cstring, h]

theorem same_name_nocase_cons (c d : Nat) (a b : List Nat) (hc : c ≠ 0) (hd : d ≠ 0) :
    same_name_nocase (c :: a) (d :: b) ↔ same_char_nocase c d ∧ same_name_nocase a b := by
  unfold same_name_nocase
  rw [cstring_cons_ne _ _ hc, cstring_cons_ne _ _ hd]
  constructor
  · rintro ⟨hlen, h⟩
    refine ⟨?_, ?_, ?_⟩
    · simpa using h 0 (by simp)
    · simpa using hlen
    · intro i hi
      simpa using h (i + 1) (by simpa using hi)
  · rintro ⟨h0, hlen, h⟩
    refine ⟨by simpa using hlen, ?_⟩
    intro i hi
    cases i with
    | zero => simpa using h0
    | succ i => simpa using h i (by simpa using hi)

/-- The result of `strcasecmp` is zero exactly when the two C strings are equal up to ASCII
case. -/
theorem strcasecmp_eq_zero_iff (a : List Nat) :
    ∀ b, strcasecmp a b = 0 ↔ same_name_nocase a b := by
  induction a with
  | nil =>
    intro b
    rw [same_name_nocase_nil_left]
    unfold strcasecmp
    rw [← tolower_eq_zero (b.headD 0)]
    omega
  | cons c a ih =>
    intro b
    unfold strcasecmp
    by_cases hc : c = 0
    · subst hc
      have h0 : tolower 0 = 0 := rfl
      rw [h0]
      have hs : same_name_nocase (0 :: a) b ↔ b.headD 0 = 0 := by
        unfold same_name_nocase
        rw [cstring_cons_zero]
        cases b with
        | nil => simp [cstring]
        | cons d b =>
          by_cases hd : d = 0
          · subst hd; simp [cstring]
          · simp [cstring, hd]
      rw [hs, ← tolower_eq_zero (b.headD 0)]
      by_cases ht : 0 = tolower (b.headD 0)
      · rw [if_pos ht, if_pos rfl]
        exact ⟨fun _ => ht.symm, fun _ => rfl⟩
      · rw [if_neg ht]
        constructor
        · intro h; omega
        · intro h; omega
    · cases b with
      | nil =>
        have hne : tolower c ≠ tolower (([] : List Nat).headD 0) := by
          show tolower c ≠ tolower 0
          intro h
          exact hc ((tolower_eq_zero c).mp h)
        rw [if_neg hne]
        have hs : ¬ same_name_nocase (c :: a) [] := by
          unfold same_name_nocase
          rw [cstring_cons_ne _ _ hc]
          simp [cstring]
        constructor
        · intro h; exact absurd (by omega) hne
        · intro h; exact absurd h hs
      | cons d b =>
        show (if tolower c = tolower d then (if c = 0 then 0 else strcasecmp a b)
          else (tolower c : Int) - (tolower d : Int)) = 0 ↔ _
        by_cases ht : tolower c = tolower d
        · rw [if_pos ht, if_neg hc]
          have hd : d ≠ 0 := by
            intro hd
            subst hd
            exact hc ((tolower_eq_zero c).mp ht)
          rw [same_name_nocase_cons _ _ _ _ hc hd, ih b]
          constructor
          · intro h; exact ⟨(tolower_eq_iff c d).mp ht, h⟩
          · intro h; exact h.2
        · rw [if_neg ht]
          constructor
          · intro h; exact absurd (by omega) ht
          · intro h
            by_cases hd : d = 0
            · subst hd
              exfalso
              unfold same_name_nocase at h
              rw [cstring_cons_ne _ _ hc, cstring_cons_zero] at h
              simp at h
            · rw [same_name_nocase_cons _ _ _ _ hc hd] at h
              exact absurd ((tolower_eq_iff c d).mpr h.1) ht

theorem same_name_nocase_append_zero (a b : List Nat) :
    same_name_nocase (a ++ [0]) b ↔ same_name_nocase a b := by
  unfold same_name_nocase
  rw [cstring_append_zero]

theorem dirent_matches_iff (s : Vms) (filename : List Nat) (i : Nat) :
    dirent_matches s.vms_dirblk filename i ↔ slot_matches s filename i := by
  unfold dirent_matches slot_matches vms_dirent_filenamecmp
  rw [strcasecmp_eq_zero_iff, same_name_nocase_append_zero]

/-- C17. For every table and every block number `b`, `vms_nextblock` returns none (`-1`)
exactly when `b > 255` or slot `b` holds `BLOCK_UNALLOCATED` (0xfffc) or `BLOCK_LAST`
(0xfffa), and in every other case it returns the value stored in slot `b`. -/
theorem vms_nextblock_spec (fat : List Nat) (b : Nat) :
    (vms_nextblock fat b = none ↔
      (b > 255 ∨ fat_get fat b = 0xfffc ∨ fat_get fat b = 0xfffa)) ∧
    vms_nextblock fat b =
      if b > 255 ∨ fat_get fat b = 0xfffc ∨ fat_get fat b = 0xfffa then none
      else some (fat_get fat b) := by
  have h : vms_nextblock fat b =
      if b > 255 ∨ fat_get fat b = 0xfffc ∨ fat_get fat b = 0xfffa then none
      else some (fat_get fat b) := by
    unfold vms_nextblock
    simp only [VMS_MAXBLOCKNO, BLOCK_UNALLOCATED, BLOCK_LAST]
    by_cases h1 : b > 255
    · simp [h1]
    · by_cases h2 : fat_get fat b = 0xfffc
      · simp [h1, h2]
      · by_cases h3 : fat_get fat b = 0xfffa
        · simp [h1, h2, h3]
        · simp [h1, h2, h3]
  refine ⟨?_, h⟩
  rw [h]
  by_cases hc : b > 255 ∨ fat_get fat b = 0xfffc ∨ fat_get fat b = 0xfffa
  · simp [hc]
  · simp only [if_neg hc, reduceCtorEq, false_iff]
    exact hc

/-- C19. The result of `vms_dirent_alloc` is the lowest index among the
`16 * directory_blocksize` slots whose type byte is `DIR_TYPE_NONE`; it fails, with
`ENOSPC`, exactly when every slot has another type; and it depends on the type bytes only:
two directories with the same type bytes give the same result. The function returns the
index and leaves the state as it is. -/
theorem vms_dirent_alloc_spec (s : Vms) :
    dir_nentries s = 16 * s.vms_rootblk.directory_blocksize ∧
    (∀ j, vms_dirent_alloc s = .ok j ↔
      (j < dir_nentries s ∧ (dir_get s.vms_dirblk j).type = 0x00 ∧
        ∀ k, k < j → (dir_get s.vms_dirblk k).type ≠ 0x00)) ∧
    (vms_dirent_alloc s = .error Errno.ENOSPC ↔
      ∀ k, k < dir_nentries s → (dir_get s.vms_dirblk k).type ≠ 0x00) ∧
    (∀ e, vms_dirent_alloc s = .error e → e = Errno.ENOSPC) ∧
    (∀ s2 : Vms, dir_nentries s2 = dir_nentries s →
      (∀ k, k < dir_nentries s →
        (dir_get s2.vms_dirblk k).type = (dir_get s.vms_dirblk k).type) →
      vms_dirent_alloc s2 = vms_dirent_alloc s) := by
  refine ⟨rfl, fun j => vms_dirent_alloc_ok_iff s j, ?_, ?_, ?_⟩
  · rw [vms_dirent_alloc_error_iff]
    simp [DIR_TYPE_NONE]
  · intro e he
    exact ((vms_dirent_alloc_error_iff s e).mp he).1
  · intro s2 hn hty
    cases h : vms_dirent_alloc s with
    | error e =>
      rw [vms_dirent_alloc_error_iff] at h ⊢
      refine ⟨h.1, ?_⟩
      intro k hk
      rw [hn] at hk
      rw [hty k hk]
      exact h.2 k hk
    | ok j =>
      rw [vms_dirent_alloc_ok_iff] at h ⊢
      obtain ⟨h1, h2, h3⟩ := h
      refine ⟨by rw [hn]; exact h1, by rw [hty j h1]; exact h2, ?_⟩
      intro k hk
      rw [hty k (by omega)]
      exact h3 k hk

/-- C12 (as amended). For every name longer than 12 characters `vms_dirent_lookup` fails
with `ENOENT`, the error of a lookup miss, and the result does not depend on the session
state: no directory slot is examined. -/
theorem vms_dirent_lookup_long_name (s : Vms) (filename : List Nat)
    (h : strlen filename > 12) :
    vms_dirent_lookup s filename = .error Errno.ENOENT ∧
    ∀ s2 : Vms, vms_dirent_lookup s2 filename = vms_dirent_lookup s filename := by
  have h2 : ∀ t : Vms, vms_dirent_lookup t filename = .error Errno.ENOENT := by
    intro t
    unfold vms_dirent_lookup
    rw [if_pos h]
  exact ⟨h2 s, fun s2 => by rw [h2 s2, h2 s]⟩

/-- C12, counterexample. The lookup of `THIS_NAME_IS_TOO_LONG` (21 characters) on the card
with one file fails with `ENOENT`, not with `ENAMETOOLONG`; `vmsfs_writefile` rejects the
same name with `ENAMETOOLONG`. -/
theorem vms_dirent_lookup_long_name_enoent :
    strlen nameTooLong = 21 ∧
    vms_dirent_lookup oneFileCard nameTooLong = .error Errno.ENOENT ∧
    vms_dirent_lookup oneFileCard nameTooLong ≠ .error Errno.ENAMETOOLONG ∧
    (vmsfs_writefile oneFileCard nameTooLong [65] 1 tm0).2 = .error Errno.ENAMETOOLONG := by
  decide!

/-- C12 (as amended) at the name `THIS_NAME_IS_TOO_LONG` on the card with one file. -/
theorem vms_dirent_lookup_long_name_witness :
    strlen nameTooLong > 12 ∧
    vms_dirent_lookup oneFileCard nameTooLong = .error Errno.ENOENT ∧
    ∀ s2 : Vms, vms_dirent_lookup s2 nameTooLong = vms_dirent_lookup oneFileCard nameTooLong :=
  ⟨by decide, vms_dirent_lookup_long_name oneFileCard nameTooLong (by decide)⟩

/-- C13. For every directory and every name of at most 12 characters, `vms_dirent_lookup`
returns the lowest-index occupied slot whose stored name, read up to its first zero byte,
equals the name when ASCII case is ignored; it fails, with `ENOENT`, exactly when no occupied
slot matches; and a slot of type `DIR_TYPE_NONE` is never returned, whatever its name bytes. -/
theorem vms_dirent_lookup_spec (s : Vms) (filename : List Nat)
    (h : strlen filename ≤ 12) :
    (∀ j, vms_dirent_lookup s filename = .ok j ↔
      (j < dir_nentries s ∧ slot_matches s filename j ∧
        ∀ k, k < j → ¬ slot_matches s filename k)) ∧
    (vms_dirent_lookup s filename = .error Errno.ENOENT ↔
      ∀ k, k < dir_nentries s → ¬ slot_matches s filename k) ∧
    (∀ e, vms_dirent_lookup s filename = .error e → e = Errno.ENOENT) ∧
    (∀ j, (dir_get s.vms_dirblk j).type = 0x00 → vms_dirent_lookup s filename ≠ .ok j) := by
  have hj : ∀ j, vms_dirent_lookup s filename = .ok j ↔
      (j < dir_nentries s ∧ slot_matches s filename j ∧
        ∀ k, k < j → ¬ slot_matches s filename k) := by
    intro j
    rw [vms_dirent_lookup_ok_iff]
    simp only [dirent_matches_iff]
    constructor
    · rintro ⟨_, h1, h2, h3⟩; exact ⟨h1, h2, h3⟩
    · rintro ⟨h1, h2, h3⟩; exact ⟨h, h1, h2, h3⟩
  refine ⟨hj, ?_, ?_, ?_⟩
  · rw [vms_dirent_lookup_error_iff]
    simp only [dirent_matches_iff]
    constructor
    · rintro ⟨_, h1 | h1⟩
      · exact absurd h (by simp only [DIR_NAMELEN] at h1; omega)
      · exact h1
    · intro h1; exact ⟨trivial, Or.inr h1⟩
  · intro e he
    exact ((vms_dirent_lookup_error_iff s filename e).mp he).1
  · intro j hty hl
    exact ((hj j).mp hl).2.1.1 hty

/-- C13 at the card with one file `TEST________`, looked up as `Test________`: slot 0. -/
theorem vms_dirent_lookup_spec_witness :
    strlen nameMixed ≤ 12 ∧
    vms_dirent_lookup oneFileCard nameMixed = .ok 0 ∧
    ((∀ j, vms_dirent_lookup oneFileCard nameMixed = .ok j ↔
      (j < dir_nentries oneFileCard ∧ slot_matches oneFileCard nameMixed j ∧
        ∀ k, k < j → ¬ slot_matches oneFileCard nameMixed k)) ∧
    (vms_dirent_lookup oneFileCard nameMixed = .error Errno.ENOENT ↔
      ∀ k, k < dir_nentries oneFileCard → ¬ slot_matches oneFileCard nameMixed k) ∧
    (∀ e, vms_dirent_lookup oneFileCard nameMixed = .error e → e = Errno.ENOENT) ∧
    (∀ j, (dir_get oneFileCard.vms_dirblk j).type = 0x00 →
      vms_dirent_lookup oneFileCard nameMixed ≠ .ok j)) :=
  ⟨by decide, by decide!, vms_dirent_lookup_spec oneFileCard nameMixed (by decide)⟩

theorem toupper_eq_zero (c : Nat) : toupper c = 0 ↔ c = 0 := by
  unfold toupper; split <;> omega

/-- The character that one pass of the loop of `vmsfs_regular_name` stores for a non-zero
byte is the character of the specification. -/
theorem regular_step_eq (c : Nat) :
    (if ¬ isalnum (toupper c) ∧ toupper c ≠ 95 ∧ toupper c ≠ 46 then 95 else toupper c) =
      regular_char c := by
  unfold regular_char isalnum toupper
  by_cases h1 : 97 ≤ c ∧ c ≤ 122
  · rw [if_pos h1, if_pos h1]
    have h2 : ¬ (¬ (decide ((48 ≤ c - 32 ∧ c - 32 ≤ 57) ∨ (65 ≤ c - 32 ∧ c - 32 ≤ 90) ∨
        (97 ≤ c - 32 ∧ c - 32 ≤ 122)) = true) ∧ c - 32 ≠ 95 ∧ c - 32 ≠ 46) := by
      simp only [decide_eq_true_eq]
      omega
    rw [if_neg h2]
  · rw [if_neg h1, if_neg h1]
    by_cases h3 : (65 ≤ c ∧ c ≤ 90) ∨ (48 ≤ c ∧ c ≤ 57) ∨ c = 95 ∨ c = 46
    · rw [if_pos h3]
      have h2 : ¬ (¬ (decide ((48 ≤ c ∧ c ≤ 57) ∨ (65 ≤ c ∧ c ≤ 90) ∨
          (97 ≤ c ∧ c ≤ 122)) = true) ∧ c ≠ 95 ∧ c ≠ 46) := by
        simp only [decide_eq_true_eq]
        omega
      rw [if_neg h2]
    · rw [if_neg h3]
      have h2 : ¬ (decide ((48 ≤ c ∧ c ≤ 57) ∨ (65 ≤ c ∧ c ≤ 90) ∨
          (97 ≤ c ∧ c ≤ 122)) = true) ∧ c ≠ 95 ∧ c ≠ 46 := by
        simp only [decide_eq_true_eq]
        omega
      rw [if_pos h2]

theorem regular_char_is_regular (c : Nat) : is_regular_char (regular_char c) := by
  unfold is_regular_char regular_char
  split
  · omega
  · split
    · omega
    · omega

theorem regular_char_fixed (c : Nat) (h : is_regular_char c) : regular_char c = c := by
  unfold is_regular_char at h
  unfold regular_char
  rw [if_neg (by omega), if_pos h]

/-- Every character that `vmsfs_regular_name` stores belongs to the stored alphabet, for
every input. -/
theorem vmsfs_regular_name_loop_regular (filename : List Nat) (n : Nat) :
    ∀ i, ∀ c ∈ vmsfs_regular_name_loop filename n i, is_regular_char c := by
  induction n with
  | zero => intro i c hc; simp [vmsfs_regular_name_loop] at hc
  | succ n ih =>
    intro i c hc
    unfold vmsfs_regular_name_loop at hc
    dsimp only at hc
    split at hc
    · rw [List.mem_replicate] at hc
      rw [hc.2]; unfold is_regular_char; omega
    · rw [List.mem_cons] at hc
      rcases hc with hc | hc
      · rw [hc, regular_step_eq]
        exact regular_char_is_regular _
      · exact ih (i + 1) c hc

/-- The loop of `vmsfs_regular_name` on a name without zero bytes, from position `i`. -/
theorem vmsfs_regular_name_loop_spec (name : List Nat)
    (hbyte : ∀ c ∈ name, 1 ≤ c ∧ c < 256) (n : Nat) :
    ∀ i, vmsfs_regular_name_loop name n i =
      ((name.drop i).take n).map regular_char ++
        List.replicate (n - (name.length - i)) 95 := by
  induction n with
  | zero => intro i; simp [vmsfs_regular_name_loop]
  | succ n ih =>
    intro i
    unfold vmsfs_regular_name_loop
    dsimp only
    by_cases hi : i < name.length
    · have hget : name.getD i 0 = name[i] := by
        rw [List.getD_eq_getElem?_getD, List.getElem?_eq_getElem hi]; rfl
      have hb := hbyte name[i] (List.getElem_mem hi)
      have hmod : name.getD i 0 % 256 = name[i] := by
        rw [hget]; exact Nat.mod_eq_of_lt hb.2
      rw [hmod]
      have hne : toupper name[i] ≠ 0 := by
        rw [Ne, toupper_eq_zero]; omega
      rw [if_neg hne, regular_step_eq, ih (i + 1)]
      rw [List.drop_eq_getElem_cons hi, List.take_succ_cons, List.map_cons, List.cons_append]
      have h1 : n + 1 - (name.length - i) = n - (name.length - (i + 1)) := by omega
      rw [h1]
    · have hget : name.getD i 0 = 0 := by
        rw [List.getD_eq_getElem?_getD, List.getElem?_eq_none (by omega)]; rfl
      rw [hget]
      have h0 : toupper (0 % 256) = 0 := rfl
      rw [h0, if_pos rfl, List.drop_eq_nil_of_le (by omega)]
      have h1 : n + 1 - (name.length - i) = n + 1 := by omega
      rw [h1]
      rfl

/-- On a name of at most 12 non-zero bytes `vmsfs_regular_name` stores the name of the
specification. -/
theorem vmsfs_regular_name_eq_spec (name : List Nat) (hk : name.length ≤ 12)
    (hbyte : ∀ c ∈ name, 1 ≤ c ∧ c < 256) :
    vmsfs_regular_name name = regular_name_spec name := by
  unfold vmsfs_regular_name regular_name_spec
  rw [vmsfs_regular_name_loop_spec name hbyte]
  simp only [DIR_NAMELEN, List.drop_zero, Nat.sub_zero]
  rw [List.take_of_length_le hk]

/-- C16. For every name of `k ≤ 12` non-zero bytes (ASCII or not), `vmsfs_regular_name`
stores exactly 12 characters: position `i < k` holds the upper-cased input character if it is
a letter, a digit, `_` or `.`, and `_` otherwise, and positions `k..11` hold `_`; every stored
character is in `A-Z`, `0-9`, `_` or `.`. -/
theorem vmsfs_regular_name_spec (name : List Nat) (hk : name.length ≤ 12)
    (hbyte : ∀ c ∈ name, 1 ≤ c ∧ c < 256) :
    vmsfs_regular_name name = regular_name_spec name ∧
    (vmsfs_regular_name name).length = 12 ∧
    (∀ i, i < name.length → (vmsfs_regular_name name).getD i 0 = regular_char (name.getD i 0)) ∧
    (∀ i, name.length ≤ i → i < 12 → (vmsfs_regular_name name).getD i 0 = 95) ∧
    (∀ c ∈ vmsfs_regular_name name,
      (65 ≤ c ∧ c ≤ 90) ∨ (48 ≤ c ∧ c ≤ 57) ∨ c = 95 ∨ c = 46) := by
  have heq := vmsfs_regular_name_eq_spec name hk hbyte
  refine ⟨heq, vmsfs_regular_name_length name, ?_, ?_, ?_⟩
  · intro i hi
    rw [heq]
    unfold regular_name_spec
    rw [List.getD_eq_getElem?_getD, List.getElem?_append_left (by simpa using hi),
      List.getElem?_map, List.getD_eq_getElem?_getD, List.getElem?_eq_getElem hi]
    rfl
  · intro i hi1 hi2
    rw [heq]
    unfold regular_name_spec
    rw [List.getD_eq_getElem?_getD, List.getElem?_append_right (by simpa using hi1),
      List.getElem?_replicate]
    simp only [List.length_map]
    rw [if_pos (by omega)]
    rfl
  · intro c hc
    exact vmsfs_regular_name_loop_regular name _ 0 c hc

/-- C16 at the name `a-b.Cd`, a byte outside ASCII and `9`: the stored name is
`A_B.CD_9____`. -/
theorem vmsfs_regular_name_spec_witness :
    (nameOdd.length ≤ 12 ∧ ∀ c ∈ nameOdd, 1 ≤ c ∧ c < 256) ∧
    vmsfs_regular_name nameOdd = [65, 95, 66, 46, 67, 68, 95, 57, 95, 95, 95, 95] ∧
    (vmsfs_regular_name nameOdd = regular_name_spec nameOdd ∧
    (vmsfs_regular_name nameOdd).length = 12 ∧
    (∀ i, i < nameOdd.length →
      (vmsfs_regular_name nameOdd).getD i 0 = regular_char (nameOdd.getD i 0)) ∧
    (∀ i, nameOdd.length ≤ i → i < 12 → (vmsfs_regular_name nameOdd).getD i 0 = 95) ∧
    (∀ c ∈ vmsfs_regular_name nameOdd,
      (65 ≤ c ∧ c ≤ 90) ∨ (48 ≤ c ∧ c ≤ 57) ∨ c = 95 ∨ c = 46)) :=
  ⟨by decide, by decide, vmsfs_regular_name_spec nameOdd (by decide) (by decide)⟩

/-- A name of 12 characters of the stored alphabet is stored as it is. -/
theorem vmsfs_regular_name_fixed (l : List Nat) (hlen : l.length = 12)
    (hreg : ∀ c ∈ l, is_regular_char c) : vmsfs_regular_name l = l := by
  have hbyte : ∀ c ∈ l, 1 ≤ c ∧ c < 256 := by
    intro c hc
    have := hreg c hc
    unfold is_regular_char at this
    omega
  rw [vmsfs_regular_name_eq_spec l (by omega) hbyte]
  unfold regular_name_spec
  rw [hlen]
  simp only [Nat.sub_self, List.replicate_zero, List.append_nil]
  conv_rhs => rw [← List.map_id l]
  apply List.map_congr_left
  intro c hc
  exact regular_char_fixed c (hreg c hc)

/-- C15. For every input name, `vmsfs_regular_name` applied to the 12 characters that
`vmsfs_regular_name` produced yields the same 12 characters. -/
theorem vmsfs_regular_name_idempotent (filename : List Nat) :
    vmsfs_regular_name (vmsfs_regular_name filename) = vmsfs_regular_name filename ∧
    (vmsfs_regular_name filename).length = 12 :=
  ⟨vmsfs_regular_name_fixed _ (vmsfs_regular_name_length filename)
    (vmsfs_regular_name_loop_regular filename _ 0), vmsfs_regular_name_length filename⟩

/-- The result of `vmsfs_writefile` once the three checks on its arguments have passed and
`vms_dirent_alloc` fails. -/
theorem vmsfs_writefile_of_alloc_error (s : Vms) (filename buf : List Nat) (size : Nat)
    (mtime : Tm) (e : Errno) (h1 : strlen filename ≤ DIR_NAMELEN) (h2 : size ≠ 0)
    (h3 : nblk_of_size size ≤ VMS_MAXBLOCKNO) (h4 : vms_dirent_alloc s = .error e) :
    vmsfs_writefile s filename buf size mtime = (s, .error e) := by
  unfold vmsfs_writefile
  unfold nblk_of_size at h3
  rw [if_neg (Nat.not_lt.mpr h1), if_neg h2]
  dsimp only
  rw [if_neg (Nat.not_lt.mpr h3), h4]

/-- The result of `vmsfs_writefile` once the three checks on its arguments have passed, a
slot was found and the table has too few free blocks: the error is `ENOSPC` and the image is
as before. -/
theorem vmsfs_writefile_of_fat_error (s : Vms) (filename buf : List Nat) (size : Nat)
    (mtime : Tm) (dp : Nat) (h1 : strlen filename ≤ DIR_NAMELEN) (h2 : size ≠ 0)
    (h3 : nblk_of_size size ≤ VMS_MAXBLOCKNO) (h4 : vms_dirent_alloc s = .ok dp)
    (h5 : nblk_of_size size > vms_getfreeblock s.vms_fatblk) :
    (vmsfs_writefile s filename buf size mtime).2 = .error Errno.ENOSPC ∧
    (vmsfs_writefile s filename buf size mtime).1.vms_fd = s.vms_fd ∧
    (vmsfs_writefile s filename buf size mtime).1.vms_fatblk = s.vms_fatblk := by
  unfold vmsfs_writefile
  unfold nblk_of_size at h3 h5
  rw [if_neg (Nat.not_lt.mpr h1), if_neg h2]
  dsimp only
  rw [if_neg (Nat.not_lt.mpr h3), h4]
  dsimp only
  have : vms_allocate_fat s.vms_fatblk ((size + VMS_BLOCKSIZE - 1) / VMS_BLOCKSIZE) =
      (s.vms_fatblk, .error Errno.ENOSPC) := by
    unfold vms_allocate_fat; rw [if_pos h5]
  rw [this]
  exact ⟨rfl, rfl, rfl⟩

theorem chain_at_periodic (fat : List Nat) (m blk : Nat) (hm : 1 ≤ m)
    (hcyc : chain_at fat m blk = blk) :
    ∀ n, chain_at fat n blk = chain_at fat (n % m) blk := by
  intro n
  induction n using Nat.strong_induction_on with
  | _ n ih =>
    by_cases hn : n < m
    · rw [Nat.mod_eq_of_lt hn]
    · have h1 : n = m + (n - m) := by omega
      have h2 : n % m = (n - m) % m := by
        conv_lhs => rw [h1]
        rw [Nat.add_mod_left]
      rw [h2, ← ih (n - m) (by omega)]
      conv_lhs => rw [h1]
      rw [chain_at_add, hcyc]

/-- A walk that leaves the range `0..255` after `k` steps does not come back to its first
block before that. -/
theorem chain_at_ne_start (fat : List Nat) (k blk : Nat)
    (hin : ∀ j, j < k → chain_at fat j blk ≤ VMS_MAXBLOCKNO)
    (hout : chain_at fat k blk > VMS_MAXBLOCKNO) :
    ∀ m, 1 ≤ m → m ≤ k → chain_at fat m blk ≠ blk := by
  intro m hm1 hmk hcyc
  have hp := chain_at_periodic fat m blk hm1 hcyc k
  have hlt : k % m < k := lt_of_lt_of_le (Nat.mod_lt k (by omega)) hmk
  have := hin (k % m) hlt
  rw [← hp] at this
  omega

theorem chain_at_set_ne (fat : List Nat) (x v n b : Nat)
    (h : ∀ j, j < n → chain_at fat j b ≠ x) :
    chain_at (fat_set fat x v) n b = chain_at fat n b :=
  (chain_agree fat (fat_set fat x v) n b (fun y hy => by
    obtain ⟨j, hj, rfl⟩ := (mem_chain_blocks fat n b y).mp hy
    exact fat_get_set_ne _ _ _ _ (fun heq => h j hj heq.symm))).2.1

/-- The chain-freeing loop of `vmsfs_unlink` on a chain whose first `k` blocks are in range
and whose next link is out of range and, when it was read from the table, is not one of the
two end marks: the loop returns with `ENXIO`. -/
theorem vmsfs_unlink_loop_corrupt (k : Nat) :
    ∀ (fuel : Nat) (fat : List Nat) (blk : Nat), k + 1 ≤ fuel →
      (∀ j, j < k → chain_at fat j blk ≤ VMS_MAXBLOCKNO) →
      chain_at fat k blk > VMS_MAXBLOCKNO →
      (k = 0 ∨ (chain_at fat k blk ≠ BLOCK_UNALLOCATED ∧ chain_at fat k blk ≠ BLOCK_LAST)) →
      ∃ fat2, vmsfs_unlink_loop fuel fat blk = some (fat2, .error Errno.ENXIO) := by
  induction k with
  | zero =>
    intro fuel fat blk hfuel _ hout _
    obtain ⟨f, rfl⟩ : ∃ f, fuel = f + 1 := ⟨fuel - 1, by omega⟩
    have hb : blk > VMS_MAXBLOCKNO := hout
    rw [vmsfs_unlink_loop]
    simp only [hb, if_true]
    exact ⟨fat, rfl⟩
  | succ k ih =>
    intro fuel fat blk hfuel hin hout hns
    obtain ⟨f, rfl⟩ : ∃ f, fuel = f + 1 := ⟨fuel - 1, by omega⟩
    have hb : blk ≤ VMS_MAXBLOCKNO := hin 0 (by omega)
    have hb2 : ¬ blk > VMS_MAXBLOCKNO := Nat.not_lt.mpr hb
    have hnext : fat_get fat blk ≠ BLOCK_UNALLOCATED ∧ fat_get fat blk ≠ BLOCK_LAST := by
      cases k with
      | zero =>
        rcases hns with h | h
        · omega
        · exact h
      | succ k =>
        have h1 : chain_at fat 1 blk ≤ VMS_MAXBLOCKNO := hin 1 (by omega)
        have h2 : fat_get fat blk ≤ 255 := h1
        exact ⟨by show _ ≠ 0xfffc; omega, by show _ ≠ 0xfffa; omega⟩
    have hne := chain_at_ne_start fat (k + 1) blk hin hout
    have hset : ∀ n, n ≤ k → chain_at (fat_set fat blk BLOCK_UNALLOCATED) n (fat_get fat blk) =
        chain_at fat n (fat_get fat blk) := by
      intro n hn
      apply chain_at_set_ne
      intro j hj
      exact hne (j + 1) (by omega) (by omega)
    rw [vmsfs_unlink_loop]
    simp only [hb2, if_false, vms_nextblock, hnext.1, hnext.2]
    apply ih f _ _ (by omega)
    · intro j hj
      rw [hset j (by omega)]
      exact hin (j + 1) (by omega)
    · rw [hset k (le_refl k)]
      exact hout
    · right
      rw [hset k (le_refl k)]
      rcases hns with h | h
      · omega
      · exact h

/-- More fuel does not change a result of the chain-freeing loop. -/
theorem vmsfs_unlink_loop_mono (fuel : Nat) :
    ∀ (fat : List Nat) (blk : Nat) (r : List Nat × Except Errno Unit) (fuel2 : Nat),
      vmsfs_unlink_loop fuel fat blk = some r → fuel ≤ fuel2 →
      vmsfs_unlink_loop fuel2 fat blk = some r := by
  induction fuel with
  | zero => intro fat blk r fuel2 h; simp [vmsfs_unlink_loop] at h
  | succ fuel ih =>
    intro fat blk r fuel2 h hle
    obtain ⟨f, rfl⟩ : ∃ f, fuel2 = f + 1 := ⟨fuel2 - 1, by omega⟩
    rw [vmsfs_unlink_loop] at h ⊢
    dsimp only at h ⊢
    split at h
    · rename_i hb
      rw [if_pos hb]; exact h
    · rename_i hb
      rw [if_neg hb]
      cases hn : vms_nextblock fat blk with
      | none => rw [hn] at h; exact h
      | some b =>
        rw [hn] at h
        exact ih _ _ _ _ h (by omega)

/-- C11. If the start block of the deleted entry, or a link reached while walking its chain,
is an out-of-range block number (above 255, and when it was read from the table not one of
the two marks that end a chain), `vmsfs_unlink` returns the error `ENXIO` and writes nothing:
the image, and so its table block and directory blocks, is what it was before the call, and
the cached root block and directory are unchanged. -/
theorem vmsfs_unlink_corrupt_chain (s : Vms) (file : List Nat) (dp k : Nat)
    (hlen : s.vms_fatblk.length = 256)
    (hl : vms_dirent_lookup s file = .ok dp)
    (hin : ∀ j, j < k → chain_at s.vms_fatblk j (dir_get s.vms_dirblk dp).block ≤ 255)
    (hout : chain_at s.vms_fatblk k (dir_get s.vms_dirblk dp).block > 255)
    (hns : k = 0 ∨ (chain_at s.vms_fatblk k (dir_get s.vms_dirblk dp).block ≠ 0xfffc ∧
      chain_at s.vms_fatblk k (dir_get s.vms_dirblk dp).block ≠ 0xfffa)) :
    (vmsfs_unlink s file).2 = .error Errno.ENXIO ∧
    (vmsfs_unlink s file).1.vms_fd = s.vms_fd ∧
    (vmsfs_unlink s file).1.vms_rootblk = s.vms_rootblk ∧
    (vmsfs_unlink s file).1.vms_dirblk = s.vms_dirblk := by
  obtain ⟨fat2, h2⟩ := vmsfs_unlink_loop_corrupt k (k + 1) s.vms_fatblk
    (dir_get s.vms_dirblk dp).block (le_refl _) hin hout hns
  have h3 : vmsfs_unlink_loop (VMS_NUM_BLOCKS + 1) s.vms_fatblk (dir_get s.vms_dirblk dp).block =
      some (fat2, .error Errno.ENXIO) := by
    by_cases hk : k + 1 ≤ VMS_NUM_BLOCKS + 1
    · exact vmsfs_unlink_loop_mono _ _ _ _ _ h2 hk
    · have hs := vmsfs_unlink_loop_isSome s.vms_fatblk (dir_get s.vms_dirblk dp).block hlen
      obtain ⟨r, hr⟩ := Option.isSome_iff_exists.mp hs
      have := vmsfs_unlink_loop_mono _ _ _ _ (k + 1) hr (by omega)
      rw [h2] at this
      rw [hr, ← Option.some.inj this]
  rw [vmsfs_unlink_of_loop_error s file dp fat2 _ hl h3]
  exact ⟨rfl, rfl, rfl, rfl⟩

/-- C11 at the card whose only entry has the chain 0 → 1 → 300: the delete fails with `ENXIO`
and the image is unchanged, while the cached table has lost the two blocks walked. -/
theorem vmsfs_unlink_corrupt_chain_witness :
    (badChainCard.vms_fatblk.length = 256 ∧
      vms_dirent_lookup badChainCard name12 = .ok 0 ∧
      (∀ j, j < 2 → chain_at badChainCard.vms_fatblk j
        (dir_get badChainCard.vms_dirblk 0).block ≤ 255) ∧
      chain_at badChainCard.vms_fatblk 2 (dir_get badChainCard.vms_dirblk 0).block = 300) ∧
    ((vmsfs_unlink badChainCard name12).2 = .error Errno.ENXIO ∧
      (vmsfs_unlink badChainCard name12).1.vms_fd = badChainCard.vms_fd ∧
      (vmsfs_unlink badChainCard name12).1.vms_rootblk = badChainCard.vms_rootblk ∧
      (vmsfs_unlink badChainCard name12).1.vms_dirblk = badChainCard.vms_dirblk) ∧
    fat_get (vmsfs_unlink badChainCard name12).1.vms_fatblk 0 = BLOCK_UNALLOCATED :=
  have hyp : badChainCard.vms_fatblk.length = 256 ∧
      vms_dirent_lookup badChainCard name12 = .ok 0 ∧
      (∀ j, j < 2 → chain_at badChainCard.vms_fatblk j
        (dir_get badChainCard.vms_dirblk 0).block ≤ 255) ∧
      chain_at badChainCard.vms_fatblk 2 (dir_get badChainCard.vms_dirblk 0).block = 300 := by
    decide!
  ⟨hyp, vmsfs_unlink_corrupt_chain badChainCard name12 0 2 hyp.1 hyp.2.1 hyp.2.2.1
    (by rw [hyp.2.2.2]; decide) (Or.inr (by rw [hyp.2.2.2]; decide)), by decide!⟩

theorem vms_write_loop_dev_none (fat buf : List Nat) (nblk : Nat) (fuel : Nat) :
    ∀ (blk k : Nat) (fd : Nat → List Nat) (out : List Nat),
      vms_write_loop_dev (fun _ => none) fat buf nblk fuel blk k fd =
        ((vms_readwrite_loop fat buf nblk true fuel blk k fd out).1,
          .ok (vms_readwrite_loop fat buf nblk true fuel blk k fd out).2.2) := by
  induction fuel with
  | zero => intro blk k fd out; rfl
  | succ fuel ih =>
    intro blk k fd out
    rw [vms_write_loop_dev, vms_readwrite_loop]
    by_cases hb : blk ≤ VMS_MAXBLOCKNO
    · simp only [hb, if_true]
      by_cases hlast : k + 1 ≥ nblk
      · rw [if_pos hlast, if_pos hlast]
      · rw [if_neg hlast, if_neg hlast]
        exact ih _ _ _ _
    · simp only [hb, if_false]

/-- On a device without failures `vms_write_blocks_dev` is `vms_write_blocks`. -/
theorem vms_write_blocks_dev_none (fat : List Nat) (fd : Nat → List Nat) (buf : List Nat)
    (startblk nblk : Nat) :
    vms_write_blocks_dev (fun _ => none) fat fd buf startblk nblk =
      vms_write_blocks fat fd buf startblk nblk := by
  unfold vms_write_blocks_dev vms_write_blocks vms_readwrite_blocks
  rw [vms_write_loop_dev_none fat buf nblk (nblk + 1) startblk 0 fd []]
  dsimp only
  split <;> rfl

/-- On a device without failures `vmsfs_writefile_dev` is `vmsfs_writefile`. -/
theorem vmsfs_writefile_dev_none (s : Vms) (filename buf : List Nat) (size : Nat)
    (mtime : Tm) :
    vmsfs_writefile_dev (fun _ => none) s filename buf size mtime =
      vmsfs_writefile s filename buf size mtime := by
  unfold vmsfs_writefile_dev vmsfs_writefile
  simp only [vms_write_blocks_dev_none]

/-- On a device without failures `dcvmtool_cmd_put_dev` is `dcvmtool_cmd_put`. -/
theorem dcvmtool_cmd_put_dev_none (s : Vms) (filename content : List Nat) (mtime : Tm) :
    dcvmtool_cmd_put_dev (fun _ => none) s filename content mtime =
      dcvmtool_cmd_put s filename content mtime := by
  unfold dcvmtool_cmd_put_dev dcvmtool_cmd_put
  simp only [vmsfs_writefile_dev_none]

theorem vms_write_loop_dev_frame (dev : Nat → Option (List Nat → List Nat))
    (fat buf : List Nat) (nblk : Nat) (x : Nat) (fuel : Nat) :
    ∀ (m blk k : Nat) (fd : Nat → List Nat), k + m = nblk → 1 ≤ m →
      x ∉ chain_blocks fat m blk →
      (vms_write_loop_dev dev fat buf nblk fuel blk k fd).1 x = fd x := by
  induction fuel with
  | zero => intro m blk k fd _ _ _; rfl
  | succ fuel ih =>
    intro m blk k fd hk h1 hx
    obtain ⟨m', rfl⟩ : ∃ m', m = m' + 1 := ⟨m - 1, by omega⟩
    rw [chain_blocks, List.mem_cons, not_or] at hx
    rw [vms_write_loop_dev]
    by_cases hb : blk ≤ VMS_MAXBLOCKNO
    · simp only [hb, if_true]
      cases hd : dev k with
      | some f => simp [fd_write, hx.1]
      | none =>
        dsimp only
        by_cases hlast : k + 1 ≥ nblk
        · rw [if_pos hlast]
          simp [fd_write, hx.1]
        · rw [if_neg hlast, ih m' _ (k + 1) _ (by omega) (by omega) hx.2]
          simp [fd_write, hx.1]
    · simp only [hb, if_false]

theorem vms_write_blocks_dev_frame (dev : Nat → Option (List Nat → List Nat))
    (fat : List Nat) (fd : Nat → List Nat) (buf : List Nat)
    (startblk nblk x : Nat) (h1 : 1 ≤ nblk) (hx : x ∉ chain_blocks fat nblk startblk) :
    (vms_write_blocks_dev dev fat fd buf startblk nblk).1 x = fd x := by
  unfold vms_write_blocks_dev
  have := vms_write_loop_dev_frame dev fat buf nblk x (nblk + 1) nblk startblk 0 fd
    (by omega) h1 hx
  dsimp only
  split
  · exact this
  · split <;> exact this

/-- Whatever its result, `vmsfs_writefile` on a device whose `write` can fail leaves every
block of the image that the table does not mark free as it was. -/
theorem vmsfs_writefile_dev_frame (dev : Nat → Option (List Nat → List Nat)) (s : Vms)
    (filename buf : List Nat) (size : Nat) (mtime : Tm) (b : Nat)
    (hb : fat_get s.vms_fatblk b ≠ BLOCK_UNALLOCATED) :
    (vmsfs_writefile_dev dev s filename buf size mtime).1.vms_fd b = s.vms_fd b := by
  unfold vmsfs_writefile_dev
  by_cases h1 : strlen filename > DIR_NAMELEN
  · rw [if_pos h1]
  rw [if_neg h1]
  by_cases h2 : size = 0
  · rw [if_pos h2]
  rw [if_neg h2]
  dsimp only
  by_cases h3 : (size + VMS_BLOCKSIZE - 1) / VMS_BLOCKSIZE > VMS_MAXBLOCKNO
  · rw [if_pos h3]
  rw [if_neg h3]
  cases h4 : vms_dirent_alloc s with
  | error e => rfl
  | ok dp =>
    dsimp only
    by_cases h5 : (size + VMS_BLOCKSIZE - 1) / VMS_BLOCKSIZE > vms_getfreeblock s.vms_fatblk
    · have : vms_allocate_fat s.vms_fatblk ((size + VMS_BLOCKSIZE - 1) / VMS_BLOCKSIZE) =
          (s.vms_fatblk, .error Errno.ENOSPC) := by
        unfold vms_allocate_fat; rw [if_pos h5]
      rw [this]
    · have hpos : 1 ≤ (size + VMS_BLOCKSIZE - 1) / VMS_BLOCKSIZE := nblk_of_size_pos size h2
      obtain ⟨head, fat2, halloc, _, _, hblocks, _⟩ :=
        vms_allocate_fat_chain s.vms_fatblk _ hpos (Nat.le_of_not_lt h5)
      rw [halloc]
      dsimp only
      have hnot : b ∉ chain_blocks fat2 ((size + VMS_BLOCKSIZE - 1) / VMS_BLOCKSIZE) head := by
        rw [hblocks, List.mem_reverse]
        intro hmem
        exact hb ((mem_freeSlots _ b).mp (List.mem_of_mem_take hmem)).2
      have hw := vms_write_blocks_dev_frame dev fat2 s.vms_fd buf head _ b hpos hnot
      split <;> exact hw

/-- A failing `vmsfs_writefile` on a device without failures wrote nothing. -/
theorem vmsfs_writefile_error_fd (s : Vms) (filename buf : List Nat) (size : Nat)
    (mtime : Tm) (e : Errno) (h : (vmsfs_writefile s filename buf size mtime).2 = .error e) :
    (vmsfs_writefile s filename buf size mtime).1.vms_fd = s.vms_fd := by
  by_cases h1 : strlen filename > DIR_NAMELEN
  · unfold vmsfs_writefile; rw [if_pos h1]
  by_cases h2 : size = 0
  · unfold vmsfs_writefile; rw [if_neg h1, if_pos h2]
  by_cases h3 : nblk_of_size size > VMS_MAXBLOCKNO
  · unfold nblk_of_size at h3
    unfold vmsfs_writefile; rw [if_neg h1, if_neg h2]; dsimp only; rw [if_pos h3]
  cases h4 : vms_dirent_alloc s with
  | error e2 =>
    rw [vmsfs_writefile_of_alloc_error s filename buf size mtime e2 (Nat.le_of_not_lt h1) h2
      (Nat.le_of_not_lt h3) h4]
  | ok dp =>
    by_cases h5 : nblk_of_size size ≤ vms_getfreeblock s.vms_fatblk
    · obtain ⟨head, fat, _, _, _, _, heq⟩ :=
        vmsfs_writefile_eq s filename buf size mtime dp (Nat.le_of_not_lt h1) h2
          (Nat.le_of_not_lt h3) h4 h5
      rw [heq] at h
      exact absurd h (by simp)
    · exact (vmsfs_writefile_of_fat_error s filename buf size mtime dp (Nat.le_of_not_lt h1) h2
        (Nat.le_of_not_lt h3) h4 (by omega)).2.1

/-- A `dcvmtool_cmd_put` that exits with status 1 on a host file that is not empty ends in
the state in which `vmsfs_writefile` failed: `vms_save_fat` and `vms_save_dir` do not run. -/
theorem dcvmtool_cmd_put_dev_fail (dev : Nat → Option (List Nat → List Nat)) (s : Vms)
    (filename content : List Nat) (mtime : Tm) (hne : content ≠ [])
    (hfail : (dcvmtool_cmd_put_dev dev s filename content mtime).2 = 1) :
    (∃ e, (vmsfs_writefile_dev dev (vmsfs_unlink s filename).1 filename (padded content)
      content.length mtime).2 = .error e) ∧
    (dcvmtool_cmd_put_dev dev s filename content mtime).1 =
      (vmsfs_writefile_dev dev (vmsfs_unlink s filename).1 filename (padded content)
        content.length mtime).1 := by
  have hlen : content.length ≠ 0 := by
    intro h; exact hne (List.length_eq_zero.mp h)
  unfold dcvmtool_cmd_put_dev at hfail ⊢
  rw [readfile_eq, if_neg hlen] at hfail ⊢
  dsimp only at hfail ⊢
  cases hr : (vmsfs_writefile_dev dev (vmsfs_unlink s filename).1 filename (padded content)
      content.length mtime).2 with
  | error e => exact ⟨⟨e, rfl⟩, rfl⟩
  | ok dp =>
    rw [hr] at hfail
    exact absurd hfail (by simp)

/-- C18 (as amended). When `dcvmtool_cmd_put`, on a device whose `write` can fail, exits with
status 1 after `vmsfs_writefile` has been called (the host file is not empty), then on every
image `vmsfs_writefile` has failed and the command ends in the state that call left, so
neither `vms_save_fat` nor `vms_save_dir` has run; every block of the image that the table
did not mark free when `vmsfs_writefile` was called is what it was at that moment; and when
no `write` fails, the whole image is unchanged. On an image whose root, table and directory
blocks are not marked free and lie on no file's chain, these blocks are therefore
unchanged. -/
theorem failed_write_not_persisted (dev : Nat → Option (List Nat → List Nat)) (s : Vms)
    (filename content : List Nat) (mtime : Tm)
    (hne : content ≠ [])
    (hfail : (dcvmtool_cmd_put_dev dev s filename content mtime).2 = 1) :
    ((∃ e, (vmsfs_writefile_dev dev (vmsfs_unlink s filename).1 filename (padded content)
        content.length mtime).2 = .error e) ∧
      (dcvmtool_cmd_put_dev dev s filename content mtime).1 =
        (vmsfs_writefile_dev dev (vmsfs_unlink s filename).1 filename (padded content)
          content.length mtime).1) ∧
    (∀ b, fat_get (vmsfs_unlink s filename).1.vms_fatblk b ≠ BLOCK_UNALLOCATED →
      (dcvmtool_cmd_put_dev dev s filename content mtime).1.vms_fd b =
        (vmsfs_unlink s filename).1.vms_fd b) ∧
    ((∀ k, dev k = none) →
      (dcvmtool_cmd_put_dev dev s filename content mtime).1.vms_fd =
        (vmsfs_unlink s filename).1.vms_fd) ∧
    (Loaded s → ChainsOk s → SizesPos s → SysBlocksOk s →
      ∀ b, b ∈ sys_blocks s →
        (dcvmtool_cmd_put_dev dev s filename content mtime).1.vms_fd b =
          (vmsfs_unlink s filename).1.vms_fd b) := by
  obtain ⟨⟨e, he⟩, hst⟩ := dcvmtool_cmd_put_dev_fail dev s filename content mtime hne hfail
  have hframe : ∀ b, fat_get (vmsfs_unlink s filename).1.vms_fatblk b ≠ BLOCK_UNALLOCATED →
      (dcvmtool_cmd_put_dev dev s filename content mtime).1.vms_fd b =
        (vmsfs_unlink s filename).1.vms_fd b := by
    intro b hb
    rw [hst]
    exact vmsfs_writefile_dev_frame dev _ filename _ _ mtime b hb
  refine ⟨⟨⟨e, he⟩, hst⟩, hframe, ?_, ?_⟩
  · intro hdev
    have hd : dev = fun _ => none := funext hdev
    subst hd
    rw [hst, vmsfs_writefile_dev_none]
    rw [vmsfs_writefile_dev_none] at he
    exact vmsfs_writefile_error_fd _ filename _ _ mtime e he
  · intro hL hok hsz hsys b hb
    apply hframe
    obtain ⟨hfree, hchain⟩ := hsys b hb
    by_cases hlen : strlen filename ≤ DIR_NAMELEN
    · obtain ⟨_, _, _, h4, _, _⟩ := vmsfs_unlink_for_put s filename hL hok hsz hlen
      rw [h4 b hfree hchain]
      exact hfree
    · have hl : vms_dirent_lookup s filename = .error Errno.ENOENT :=
        (vms_dirent_lookup_error_iff s filename _).mpr ⟨rfl, Or.inl (by omega)⟩
      rw [vmsfs_unlink_of_lookup_error s filename _ hl]
      exact hfree

/-- C18, counterexample. On a card whose table marks the table block 254 as free, a put of
513 bytes allocates the chain 254 → 0; the first block write lands in block 254, the second
fails, and `dcvmtool_cmd_put` exits with status 1 without `vms_save_fat`: block 254 of the
image now holds the first 512 bytes of the payload instead of the table. -/
theorem failed_write_overwrites_table_block :
    corruptCard.vms_rootblk.fat_blockno = 254 ∧
    fat_get corruptCard.vms_fatblk 254 = BLOCK_UNALLOCATED ∧
    fat_of_bytes (corruptCard.vms_fd 254) = corruptCard.vms_fatblk ∧
    root_of_bytes (corruptCard.vms_fd 255) = corruptCard.vms_rootblk ∧
    (dcvmtool_cmd_put_dev devFailSecond corruptCard name12 payload513 tm0).2 = 1 ∧
    (vmsfs_unlink corruptCard name12).1.vms_fd 254 = fat_bytes corruptFat ∧
    (dcvmtool_cmd_put_dev devFailSecond corruptCard name12 payload513 tm0).1.vms_fd 254 =
      List.replicate 512 65 ∧
    (dcvmtool_cmd_put_dev devFailSecond corruptCard name12 payload513 tm0).1.vms_fd 254 ≠
      (vmsfs_unlink corruptCard name12).1.vms_fd 254 := by
  decide!

/-- C18 (as amended) at the empty card, with a put of 513 bytes whose second block write
fails: the command exits with status 1, and the root, table and directory blocks of the
image are what they were. -/
theorem failed_write_not_persisted_witness :
    (payload513 ≠ [] ∧
      (dcvmtool_cmd_put_dev devFailSecond emptyCard name12 payload513 tm0).2 = 1 ∧
      Loaded emptyCard ∧ ChainsOk emptyCard ∧ SizesPos emptyCard ∧ SysBlocksOk emptyCard) ∧
    (((∃ e, (vmsfs_writefile_dev devFailSecond (vmsfs_unlink emptyCard name12).1 name12
        (padded payload513) payload513.length tm0).2 = .error e) ∧
      (dcvmtool_cmd_put_dev devFailSecond emptyCard name12 payload513 tm0).1 =
        (vmsfs_writefile_dev devFailSecond (vmsfs_unlink emptyCard name12).1 name12
          (padded payload513) payload513.length tm0).1) ∧
    (∀ b, fat_get (vmsfs_unlink emptyCard name12).1.vms_fatblk b ≠ BLOCK_UNALLOCATED →
      (dcvmtool_cmd_put_dev devFailSecond emptyCard name12 payload513 tm0).1.vms_fd b =
        (vmsfs_unlink emptyCard name12).1.vms_fd b) ∧
    (∀ b, b ∈ sys_blocks emptyCard →
      (dcvmtool_cmd_put_dev devFailSecond emptyCard name12 payload513 tm0).1.vms_fd b =
        (vmsfs_unlink emptyCard name12).1.vms_fd b)) :=
  have hyp : payload513 ≠ [] ∧
      (dcvmtool_cmd_put_dev devFailSecond emptyCard name12 payload513 tm0).2 = 1 ∧
      Loaded emptyCard ∧ ChainsOk emptyCard ∧ SizesPos emptyCard ∧ SysBlocksOk emptyCard := by
    decide!
  have h := failed_write_not_persisted devFailSecond emptyCard name12 payload513 tm0 hyp.1
    hyp.2.1
  ⟨hyp, h.1, h.2.1, h.2.2.2 hyp.2.2.1 hyp.2.2.2.1 hyp.2.2.2.2.1 hyp.2.2.2.2.2⟩

/-- C20. On an image with chain integrity whose system blocks are in use and on no file's
chain, with a free directory slot and `ceil(L/512)` free blocks, `dcvmtool_cmd_put` of a
payload of `1 ≤ L ≤ 255*512` bytes under a name in normalized 12-character form succeeds,
whether or not other entries carry the same name, and `vms_loadfile` of that name then
succeeds and returns exactly `ceil(L/512) * 512` bytes: the `L` bytes of the payload followed
by zero bytes only. -/
theorem padded_round_trip (s : Vms) (name content : List Nat) (mtime : Tm)
    (hL : Loaded s) (hok : ChainsOk s) (hsz : SizesPos s) (hsys : SysBlocksOk s)
    (hname : vmsfs_regular_name name = name)
    (hlen1 : 1 ≤ content.length) (hlen2 : content.length ≤ 255 * 512)
    (hslot : ∃ i, i < dir_nentries s ∧ (dir_get s.vms_dirblk i).type = DIR_TYPE_NONE)
    (hfree : ⌈(content.length : ℚ) / 512⌉₊ ≤ vms_getfreeblock s.vms_fatblk) :
    (dcvmtool_cmd_put s name content mtime).2 = 0 ∧
    ∃ r, vms_loadfile (dcvmtool_cmd_put s name content mtime).1 name = .ok r ∧
      r.length = ⌈(content.length : ℚ) / 512⌉₊ * 512 ∧
      r.take content.length = content ∧
      ∀ i, content.length ≤ i → i < r.length → r.getD i 1 = 0 := by
  obtain ⟨h1, h2, h3⟩ := put_then_loadfile_core s name content mtime hL hok hsz hsys hname
    hlen1 hlen2 hslot hfree
  refine ⟨h1, _, h2, h3, List.take_left' rfl, ?_⟩
  intro i hi1 hi2
  rw [List.getD_eq_getElem?_getD, List.getElem?_append_right hi1, List.getElem?_replicate]
  rw [List.length_append, List.length_replicate] at hi2
  rw [if_pos (by omega)]
  rfl

/-- C20 at the card with two entries named `TEST________` and a payload of 1000 bytes: the
put replaces the first entry, the second stays in slot 1, and the read returns 1024 bytes. -/
theorem padded_round_trip_witness :
    (Loaded dupCard ∧ ChainsOk dupCard ∧ SizesPos dupCard ∧ SysBlocksOk dupCard) ∧
    dirent_matches (dcvmtool_cmd_put dupCard name12 payload1000 tm0).1.vms_dirblk name12 1 ∧
    ((dcvmtool_cmd_put dupCard name12 payload1000 tm0).2 = 0 ∧
    ∃ r, vms_loadfile (dcvmtool_cmd_put dupCard name12 payload1000 tm0).1 name12 = .ok r ∧
      r.length = ⌈(payload1000.length : ℚ) / 512⌉₊ * 512 ∧
      r.take payload1000.length = payload1000 ∧
      ∀ i, payload1000.length ≤ i → i < r.length → r.getD i 1 = 0) :=
  have hyp : Loaded dupCard ∧ ChainsOk dupCard ∧ SizesPos dupCard ∧ SysBlocksOk dupCard := by
    decide!
  ⟨hyp, by decide!,
    padded_round_trip dupCard name12 payload1000 tm0 hyp.1 hyp.2.1 hyp.2.2.1 hyp.2.2.2
      (by decide!) (by decide!) (by decide!) ⟨2, by decide!, by decide!⟩
      (by rw [← nblk_of_size_eq_ceil]; decide!)⟩

theorem DEC2BCD_eq_bcd_byte : ∀ n : Nat, n < 100 → DEC2BCD (n : Int) = bcd_byte n := by
  decide!

theorem bcd_byte_nibbles : ∀ n : Nat, n < 100 →
    bcd_byte n / 16 = n / 10 ∧ bcd_byte n % 16 = n % 10 ∧ bcd_byte n < 256 := by
  intro n hn
  unfold bcd_byte
  omega

theorem tdiv_natCast (a b : Nat) : Int.tdiv (a : Int) (b : Int) = ((a / b : Nat) : Int) := by
  rw [Int.tdiv_eq_ediv (Int.ofNat_nonneg a) (Int.ofNat_nonneg b)]
  norm_cast

theorem tmod_natCast (a b : Nat) : Int.tmod (a : Int) (b : Int) = ((a % b : Nat) : Int) := by
  rw [Int.tmod_eq_emod (Int.ofNat_nonneg a) (Int.ofNat_nonneg b)]
  norm_cast

/-- C25 (as amended). For every `d` with `0 ≤ d ≤ 99`, `DEC2BCD(d)` is a byte whose high
nibble is `d / 10` and whose low nibble is `d mod 10`, both at most 9, so that
`10 * high + low = d`. For a broken-down time whose year is in `1900..9999`
(`tm_year ≥ 0`), `vmsfs_unixtime2bcdtimestamp` stores the bytes of century, year mod 100,
month `1..12`, day, hour, minute and second in positions `0..6`, in that order, and leaves
the rest of the timestamp as it was. -/
theorem vmsfs_unixtime2bcdtimestamp_spec :
    (∀ d : Nat, d ≤ 99 →
      DEC2BCD (d : Int) / 16 = d / 10 ∧ DEC2BCD (d : Int) % 16 = d % 10 ∧
      DEC2BCD (d : Int) / 16 ≤ 9 ∧ DEC2BCD (d : Int) % 16 ≤ 9 ∧
      10 * (DEC2BCD (d : Int) / 16) + DEC2BCD (d : Int) % 16 = d ∧
      DEC2BCD (d : Int) < 256) ∧
    (∀ (ts : List Nat) (year mon day hour min sec : Nat),
      1900 ≤ year → year ≤ 9999 → 1 ≤ mon → mon ≤ 12 → day ≤ 31 → hour ≤ 23 → min ≤ 59 →
      sec ≤ 60 →
      vmsfs_unixtime2bcdtimestamp ts (tm_of_date year mon day hour min sec) =
        [bcd_byte (year / 100), bcd_byte (year % 100), bcd_byte mon, bcd_byte day,
          bcd_byte hour, bcd_byte min, bcd_byte sec] ++ ts.drop 7) := by
  constructor
  · intro d hd
    rw [DEC2BCD_eq_bcd_byte d (by omega)]
    unfold bcd_byte
    omega
  · intro ts year mon day hour min sec hy1 hy2 hm1 hm2 hd hh hmi hs
    unfold vmsfs_unixtime2bcdtimestamp tm_of_date
    dsimp only
    have e1 : (year : Int) - 1900 + 1900 = (year : Int) := by omega
    have e2 : (year : Int) - 1900 = ((year - 1900 : Nat) : Int) := by omega
    have e3 : (mon : Int) - 1 + 1 = (mon : Int) := by omega
    have e4 : (year - 1900) % 100 = year % 100 := by omega
    rw [e1, e3]
    rw [e2]
    have c100 : (100 : Int) = ((100 : Nat) : Int) := rfl
    rw [c100, tdiv_natCast, tmod_natCast, e4]
    rw [DEC2BCD_eq_bcd_byte (year / 100) (by omega), DEC2BCD_eq_bcd_byte (year % 100) (by omega),
      DEC2BCD_eq_bcd_byte mon (by omega), DEC2BCD_eq_bcd_byte day (by omega),
      DEC2BCD_eq_bcd_byte hour (by omega), DEC2BCD_eq_bcd_byte min (by omega),
      DEC2BCD_eq_bcd_byte sec (by omega)]

/-- C25, counterexample. For the year 1899 (`tm_year = -1`) the byte stored in position 1
is `0xff`, not the byte `0x99` of 1899 mod 100 = 99; the century byte is `0x18`. -/
theorem vmsfs_unixtime2bcdtimestamp_before_1900 :
    (tm_of_date 1899 12 31 23 59 59).tm_year = -1 ∧
    (vmsfs_unixtime2bcdtimestamp (List.replicate 8 0) (tm_of_date 1899 12 31 23 59 59)).getD 0 0 =
      0x18 ∧
    (vmsfs_unixtime2bcdtimestamp (List.replicate 8 0) (tm_of_date 1899 12 31 23 59 59)).getD 1 0 =
      0xff ∧
    bcd_byte (1899 % 100) = 0x99 ∧
    (vmsfs_unixtime2bcdtimestamp (List.replicate 8 0) (tm_of_date 1899 12 31 23 59 59)).getD 1 0 ≠
      bcd_byte (1899 % 100) := by
  decide!

/-- C25 (as amended) at 2021-06-15 12:34:56: the bytes stored are `20 21 06 15 12 34 56`. -/
theorem vmsfs_unixtime2bcdtimestamp_spec_witness :
    tm_of_date 2021 6 15 12 34 56 = tm0 ∧
    vmsfs_unixtime2bcdtimestamp (List.replicate 8 0) (tm_of_date 2021 6 15 12 34 56) =
      [0x20, 0x21, 0x06, 0x15, 0x12, 0x34, 0x56, 0] ∧
    vmsfs_unixtime2bcdtimestamp (List.replicate 8 0) (tm_of_date 2021 6 15 12 34 56) =
      [bcd_byte (2021 / 100), bcd_byte (2021 % 100), bcd_byte 6, bcd_byte 15,
        bcd_byte 12, bcd_byte 34, bcd_byte 56] ++ (List.replicate 8 0).drop 7 :=
  ⟨by decide, by decide!,
    vmsfs_unixtime2bcdtimestamp_spec.2 (List.replicate 8 0) 2021 6 15 12 34 56 (by decide)
      (by decide) (by decide) (by decide) (by decide) (by decide) (by decide) (by decide)⟩

theorem fat_chain_set_subset (fat : List Nat) (b : Nat) (fuel : Nat) :
    ∀ c x, x ∈ fat_chain (fat_set fat b BLOCK_UNALLOCATED) fuel c → x ∈ fat_chain fat fuel c := by
  induction fuel with
  | zero => intro c x hx; simp [fat_chain] at hx
  | succ fuel ih =>
    intro c x hx
    rw [fat_chain, List.mem_cons] at hx
    rw [fat_chain, List.mem_cons]
    rcases hx with hx | hx
    · exact Or.inl hx
    · right
      cases hn1 : vms_nextblock (fat_set fat b BLOCK_UNALLOCATED) c with
      | none => rw [hn1] at hx; simp at hx
      | some d =>
        rw [hn1] at hx
        have hn : vms_nextblock fat c = some d := by
          by_cases hcb : c = b
          · subst hcb
            by_cases hlt : c < fat.length
            · exfalso
              unfold vms_nextblock at hn1
              rw [fat_get_set_eq _ _ _ hlt] at hn1
              simp at hn1
            · have : fat_set fat c BLOCK_UNALLOCATED = fat := by
                unfold fat_set
                exact List.set_eq_of_length_le (by omega)
              rw [this] at hn1
              exact hn1
          · rw [← vms_nextblock_set_ne fat b c BLOCK_UNALLOCATED hcb]
            exact hn1
        rw [hn]
        exact ih d x hx

/-- The chain-freeing loop of `vmsfs_unlink` changes no slot outside the blocks visited when
walking from the start block with `vms_nextblock`. -/
theorem vmsfs_unlink_loop_frame (fuel : Nat) :
    ∀ (fat : List Nat) (b : Nat) (r : List Nat × Except Errno Unit),
      vmsfs_unlink_loop fuel fat b = some r →
      ∀ x, x ∉ fat_chain fat fuel b → fat_get r.1 x = fat_get fat x := by
  induction fuel with
  | zero => intro fat b r h; simp [vmsfs_unlink_loop] at h
  | succ fuel ih =>
    intro fat b r h x hx
    rw [fat_chain, List.mem_cons, not_or] at hx
    rw [vmsfs_unlink_loop] at h
    by_cases hb : b > VMS_MAXBLOCKNO
    · simp only [hb, if_true, Option.some.injEq] at h
      rw [← h]
    · simp only [hb, if_false] at h
      cases hn : vms_nextblock fat b with
      | none =>
        rw [hn] at h
        simp only [Option.some.injEq] at h
        rw [← h]
        exact fat_get_set_ne _ _ _ _ (Ne.symm hx.1)
      | some c =>
        rw [hn] at h hx
        simp only at h
        rw [ih _ c r h x (fun hmem => hx.2 (fat_chain_set_subset fat b fuel c x hmem))]
        exact fat_get_set_ne _ _ _ _ (Ne.symm hx.1)

theorem vmsfs_unlink_loop_length (fuel : Nat) :
    ∀ (fat : List Nat) (b : Nat) (r : List Nat × Except Errno Unit),
      vmsfs_unlink_loop fuel fat b = some r → r.1.length = fat.length := by
  induction fuel with
  | zero => intro fat b r h; simp [vmsfs_unlink_loop] at h
  | succ fuel ih =>
    intro fat b r h
    rw [vmsfs_unlink_loop] at h
    by_cases hb : b > VMS_MAXBLOCKNO
    · simp only [hb, if_true, Option.some.injEq] at h
      rw [← h]
    · simp only [hb, if_false] at h
      cases hn : vms_nextblock fat b with
      | none =>
        rw [hn] at h
        simp only [Option.some.injEq] at h
        rw [← h]
        exact fat_set_length _ _ _
      | some c =>
        rw [hn] at h
        simp only at h
        rw [ih _ c r h, fat_set_length]

/-- C22. For every table of 256 slots, cyclic or not, and every start block, the
chain-freeing loop of `vmsfs_unlink` returns within 257 passes: 257 passes of fuel give a
result, and more fuel gives the same result. -/
theorem vmsfs_unlink_loop_terminates (fat : List Nat) (b : Nat) (hlen : fat.length = 256) :
    ∃ r, vmsfs_unlink_loop 257 fat b = some r ∧
      ∀ fuel, 257 ≤ fuel → vmsfs_unlink_loop fuel fat b = some r := by
  have hs := vmsfs_unlink_loop_isSome fat b hlen
  obtain ⟨r, hr⟩ := Option.isSome_iff_exists.mp hs
  exact ⟨r, hr, fun fuel hf => vmsfs_unlink_loop_mono _ _ _ _ fuel hr hf⟩

/-- C22 at a table with the cycle 0 → 1 → 0, started at block 0; on the ring of all 256
blocks the loop needs all 257 passes. -/
theorem vmsfs_unlink_loop_terminates_witness :
    cycleFat.length = 256 ∧
    (∃ r, vmsfs_unlink_loop 257 cycleFat 0 = some r ∧
      ∀ fuel, 257 ≤ fuel → vmsfs_unlink_loop fuel cycleFat 0 = some r) ∧
    vmsfs_unlink_loop 3 cycleFat 0 =
      some (fat_set (fat_set cycleFat 0 BLOCK_UNALLOCATED) 1 BLOCK_UNALLOCATED, .ok ()) ∧
    vmsfs_unlink_loop 2 cycleFat 2 = some (fat_set cycleFat 2 BLOCK_UNALLOCATED, .ok ()) ∧
    vmsfs_unlink_loop 256 ringFat 0 = none ∧
    vmsfs_unlink_loop 257 ringFat 0 = some (List.replicate 256 BLOCK_UNALLOCATED, .ok ()) :=
  ⟨by decide!, vmsfs_unlink_loop_terminates cycleFat 0 (by decide!), by decide!, by decide!,
    by decide!, by decide!⟩

/-- C23. A successful `vmsfs_unlink` changes, in the directory, only the type of the matched
slot, which becomes `DIR_TYPE_NONE`: the other fields of that slot (only byte 0 of its 32
bytes changes) and every other slot are what they were; in the table, every slot that is not
visited when walking the chain of the deleted entry with `vms_nextblock` is what it was. -/
theorem vmsfs_unlink_frame (s : Vms) (file : List Nat) (hL : Loaded s)
    (h : (vmsfs_unlink s file).2 = .ok ()) :
    ∃ dp, vms_dirent_lookup s file = .ok dp ∧ dp < dir_nentries s ∧
      dir_get (vmsfs_unlink s file).1.vms_dirblk dp =
        { dir_get s.vms_dirblk dp with type := DIR_TYPE_NONE } ∧
      dirent_bytes (dir_get (vmsfs_unlink s file).1.vms_dirblk dp) =
        (dirent_bytes (dir_get s.vms_dirblk dp)).set 0 0x00 ∧
      (∀ i, i ≠ dp →
        dir_get (vmsfs_unlink s file).1.vms_dirblk i = dir_get s.vms_dirblk i) ∧
      (vmsfs_unlink s file).1.vms_dirblk.length = s.vms_dirblk.length ∧
      (∀ x, x ∉ fat_chain s.vms_fatblk 257 (dir_get s.vms_dirblk dp).block →
        fat_get (vmsfs_unlink s file).1.vms_fatblk x = fat_get s.vms_fatblk x) ∧
      (vmsfs_unlink s file).1.vms_fatblk.length = s.vms_fatblk.length ∧
      (vmsfs_unlink s file).1.vms_rootblk = s.vms_rootblk := by
  obtain ⟨dp, fat, hl, hloop, hfat, hdir, hroot⟩ := vmsfs_unlink_ok s file h
  have hdp : dp < dir_nentries s := ((vms_dirent_lookup_ok_iff s file dp).mp hl).2.1
  have hdplen : dp < s.vms_dirblk.length := by rw [hL.2]; exact hdp
  refine ⟨dp, hl, hdp, ?_, ?_, ?_, ?_, ?_, ?_, hroot⟩
  · rw [hdir, dir_get_set_eq _ _ _ hdplen]
  · rw [hdir, dir_get_set_eq _ _ _ hdplen]
    rfl
  · intro i hi
    rw [hdir, dir_get_set_ne _ _ _ _ (Ne.symm hi)]
  · rw [hdir, List.length_set]
  · intro x hx
    rw [hfat]
    exact vmsfs_unlink_loop_frame _ _ _ _ hloop x hx
  · rw [hfat]
    exact vmsfs_unlink_loop_length _ _ _ _ hloop

/-- C23 at the card with one file `TEST________` of two blocks, 1 → 0. -/
theorem vmsfs_unlink_frame_witness :
    (Loaded oneFileCard ∧ (vmsfs_unlink oneFileCard name12).2 = .ok ()) ∧
    fat_chain oneFileCard.vms_fatblk 257 (dir_get oneFileCard.vms_dirblk 0).block = [1, 0] ∧
    ∃ dp, vms_dirent_lookup oneFileCard name12 = .ok dp ∧ dp < dir_nentries oneFileCard ∧
      dir_get (vmsfs_unlink oneFileCard name12).1.vms_dirblk dp =
        { dir_get oneFileCard.vms_dirblk dp with type := DIR_TYPE_NONE } ∧
      dirent_bytes (dir_get (vmsfs_unlink oneFileCard name12).1.vms_dirblk dp) =
        (dirent_bytes (dir_get oneFileCard.vms_dirblk dp)).set 0 0x00 ∧
      (∀ i, i ≠ dp →
        dir_get (vmsfs_unlink oneFileCard name12).1.vms_dirblk i =
          dir_get oneFileCard.vms_dirblk i) ∧
      (vmsfs_unlink oneFileCard name12).1.vms_dirblk.length = oneFileCard.vms_dirblk.length ∧
      (∀ x, x ∉ fat_chain oneFileCard.vms_fatblk 257 (dir_get oneFileCard.vms_dirblk dp).block →
        fat_get (vmsfs_unlink oneFileCard name12).1.vms_fatblk x =
          fat_get oneFileCard.vms_fatblk x) ∧
      (vmsfs_unlink oneFileCard name12).1.vms_fatblk.length = oneFileCard.vms_fatblk.length ∧
      (vmsfs_unlink oneFileCard name12).1.vms_rootblk = oneFileCard.vms_rootblk :=
  have hyp : Loaded oneFileCard ∧ (vmsfs_unlink oneFileCard name12).2 = .ok () := by decide!
  ⟨hyp, by decide!, vmsfs_unlink_frame oneFileCard name12 hyp.1 hyp.2⟩

/-- C21. There is an image with an entry matched by the name and a payload for which
`dcvmtool_cmd_put` fails while the image changes: on a card without a free block that holds
`TEST________` in one block, a put of 513 bytes (two blocks) under that name exits with
status 1, because one block is free after the old file is removed; `vmsfs_unlink` has
already written the directory with slot 0 empty and the table with block 0
`BLOCK_UNALLOCATED`. -/
theorem put_not_atomic :
    WellFormed fullCard ∧
    fat_of_bytes (fullCard.vms_fd 254) = fullCard.vms_fatblk ∧
    dirent_of_bytes ((fullCard.vms_fd 253).take 32) = dir_get fullCard.vms_dirblk 0 ∧
    vms_dirent_lookup fullCard name12 = .ok 0 ∧
    vms_getfreeblock fullCard.vms_fatblk = 0 ∧
    (vmsfs_unlink fullCard name12).2 = .ok () ∧
    (vmsfs_writefile (vmsfs_unlink fullCard name12).1 name12 (padded payload513) 513 tm0).2 =
      .error Errno.ENOSPC ∧
    (dcvmtool_cmd_put fullCard name12 payload513 tm0).2 = 1 ∧
    (fullCard.vms_fd 253).getD 0 0 = DIR_TYPE_DATA ∧
    ((dcvmtool_cmd_put fullCard name12 payload513 tm0).1.vms_fd 253).getD 0 0 = DIR_TYPE_NONE ∧
    get16 (fullCard.vms_fd 254) 0 = BLOCK_LAST ∧
    get16 ((dcvmtool_cmd_put fullCard name12 payload513 tm0).1.vms_fd 254) 0 =
      BLOCK_UNALLOCATED ∧
    (dcvmtool_cmd_put fullCard name12 payload513 tm0).1.vms_fd 253 ≠ fullCard.vms_fd 253 ∧
    (dcvmtool_cmd_put fullCard name12 payload513 tm0).1.vms_fd 254 ≠ fullCard.vms_fd 254 := by
  decide!

theorem fat_chain_length_le (fat : List Nat) (fuel : Nat) :
    ∀ b, (fat_chain fat fuel b).length ≤ fuel := by
  induction fuel with
  | zero => intro b; simp [fat_chain]
  | succ fuel ih =>
    intro b
    rw [fat_chain]
    cases hn : vms_nextblock fat b with
    | none => simp
    | some c =>
      simp only [List.length_cons]
      have := ih c
      omega

/-- The loop of `vms_dirent_print` from pass `j ≤ nblk + 1`, with the fuel that is left of
`nblk + 2`. -/
theorem vms_dirent_print_loop_eq (fat : List Nat) (nblk : Nat) (m : Nat) :
    ∀ (blk j : Nat), j + m = nblk + 1 →
      vms_dirent_print_loop fat nblk (m + 1) blk j =
        some ((fat_chain fat m blk).map FatItem.blk ++
          if (fat_chain fat (m + 1) blk).length = m + 1 then [FatItem.over] else []) := by
  induction m with
  | zero =>
    intro blk j hj
    have h1 : (fat_chain fat (0 + 1) blk).length = 0 + 1 := by
      rw [fat_chain]
      cases vms_nextblock fat blk <;> rfl
    rw [vms_dirent_print_loop, if_pos (by omega), if_pos h1]
    rfl
  | succ m ih =>
    intro blk j hj
    rw [vms_dirent_print_loop, if_neg (by omega)]
    cases hn : vms_nextblock fat blk with
    | none =>
      have h1 : fat_chain fat (m + 1) blk = [blk] := by rw [fat_chain, hn]
      have h2 : fat_chain fat (m + 1 + 1) blk = [blk] := by rw [fat_chain, hn]
      rw [h1, h2]
      simp
    | some b =>
      have h1 : fat_chain fat (m + 1) blk = blk :: fat_chain fat m b := by rw [fat_chain, hn]
      have h2 : fat_chain fat (m + 1 + 1) blk = blk :: fat_chain fat (m + 1) b := by
        rw [fat_chain, hn]
      rw [h1, h2]
      dsimp only
      rw [ih b (j + 1) (by omega)]
      simp only [List.map_cons, List.cons_append, List.length_cons, Nat.add_right_cancel_iff]

/-- What `vms_dirent_print` prints in a verbose listing. -/
theorem vms_dirent_print_eq (fat : List Nat) (dp : vmsfs_dirent) :
    vms_dirent_print fat dp true = (some (fat_listing fat dp.size dp.block), dp.size) := by
  unfold vms_dirent_print fat_listing
  dsimp only
  rw [if_pos rfl, vms_dirent_print_loop_eq fat dp.size (dp.size + 1) dp.block 0 (by omega)]

theorem vms_dirent_print_isSome (fat : List Nat) (dp : vmsfs_dirent) (v : Bool) :
    ∃ out, vms_dirent_print fat dp v = (some out, dp.size) := by
  cases v with
  | true => exact ⟨_, vms_dirent_print_eq fat dp⟩
  | false => exact ⟨[], rfl⟩

/-- On a chain of exactly `n + 1` blocks the walk with `vms_nextblock` visits these blocks
and ends. -/
theorem fat_chain_of_chain_ok (fat : List Nat) (n : Nat) :
    ∀ (b fuel : Nat), chain_ok fat (n + 1) b = true → n + 1 ≤ fuel →
      fat_chain fat fuel b = chain_blocks fat (n + 1) b := by
  induction n with
  | zero =>
    intro b fuel hok hfuel
    obtain ⟨f, rfl⟩ : ∃ f, fuel = f + 1 := ⟨fuel - 1, by omega⟩
    simp only [chain_ok, Bool.and_eq_true, decide_eq_true_eq] at hok
    have hb : ¬ b > VMS_MAXBLOCKNO := Nat.not_lt.mpr hok.1
    have hn : vms_nextblock fat b = none := by
      unfold vms_nextblock
      simp [hb, hok.2]
    rw [fat_chain, hn]
    rfl
  | succ n ih =>
    intro b fuel hok hfuel
    obtain ⟨f, rfl⟩ : ∃ f, fuel = f + 1 := ⟨fuel - 1, by omega⟩
    have hok2 := hok
    rw [chain_ok] at hok2
    simp only [Bool.and_eq_true, decide_eq_true_eq] at hok2
    obtain ⟨hb, hrest⟩ := hok2
    have hb2 : ¬ b > VMS_MAXBLOCKNO := Nat.not_lt.mpr hb
    have hnext : fat_get fat b ≤ 255 := by
      have := hrest
      rw [chain_ok] at this
      simp only [Bool.and_eq_true, decide_eq_true_eq] at this
      exact this.1
    have hne1 : fat_get fat b ≠ BLOCK_UNALLOCATED := by show _ ≠ 0xfffc; omega
    have hne2 : fat_get fat b ≠ BLOCK_LAST := by show _ ≠ 0xfffa; omega
    have hn : vms_nextblock fat b = some (fat_get fat b) := by
      unfold vms_nextblock
      simp [hb2, hne1, hne2]
    rw [fat_chain, hn]
    dsimp only
    rw [ih (fat_get fat b) f hrest (by omega)]
    rfl

/-- On a chain of exactly `nblk` blocks the listing is the blocks of the chain (the start
value itself when `nblk = 0`) without the diagnostic. -/
theorem fat_listing_of_chain_ok (fat : List Nat) (nblk start : Nat)
    (hok : chain_ok fat nblk start = true) :
    FatItem.over ∉ fat_listing fat nblk start ∧
    (1 ≤ nblk → fat_listing fat nblk start = (chain_blocks fat nblk start).map FatItem.blk) := by
  cases nblk with
  | zero =>
    simp only [chain_ok, decide_eq_true_eq] at hok
    subst hok
    refine ⟨?_, fun h => absurd h (by omega)⟩
    have hn : vms_nextblock fat BLOCK_LAST = none := by
      unfold vms_nextblock
      rw [if_pos (by decide)]
    have : fat_listing fat 0 BLOCK_LAST = [FatItem.blk BLOCK_LAST] := by
      unfold fat_listing
      simp [fat_chain, hn]
    rw [this]
    simp
  | succ n =>
    have h1 := fat_chain_of_chain_ok fat n start (n + 1 + 1) hok (by omega)
    have h2 := fat_chain_of_chain_ok fat n start (n + 1 + 2) hok (by omega)
    have heq : fat_listing fat (n + 1) start =
        (chain_blocks fat (n + 1) start).map FatItem.blk := by
      unfold fat_listing
      rw [h1, h2, chain_blocks_length, if_neg (by omega), List.append_nil]
    refine ⟨?_, fun _ => heq⟩
    rw [heq]
    simp

theorem vmsfs_readdir_of_none (s : Vms) (loc : Nat) (hloc : loc < dir_nentries s)
    (hty : (dir_get s.vms_dirblk loc).type = DIR_TYPE_NONE) :
    vmsfs_readdir s loc = vmsfs_readdir s (loc + 1) := by
  unfold vmsfs_readdir
  obtain ⟨m, hm⟩ : ∃ m, dir_nentries s - loc = m + 1 := ⟨dir_nentries s - loc - 1, by omega⟩
  have hm2 : dir_nentries s - (loc + 1) = m := by omega
  rw [hm, hm2, vmsfs_readdir_loop, if_pos hty]

theorem vmsfs_readdir_of_occupied (s : Vms) (loc : Nat) (hloc : loc < dir_nentries s)
    (hty : (dir_get s.vms_dirblk loc).type ≠ DIR_TYPE_NONE) :
    vmsfs_readdir s loc = some (loc, loc + 1) := by
  unfold vmsfs_readdir
  obtain ⟨m, hm⟩ : ∃ m, dir_nentries s - loc = m + 1 := ⟨dir_nentries s - loc - 1, by omega⟩
  rw [hm, vmsfs_readdir_loop, if_neg hty]

theorem vmsfs_readdir_of_end (s : Vms) (loc : Nat) (hloc : dir_nentries s ≤ loc) :
    vmsfs_readdir s loc = none := by
  unfold vmsfs_readdir
  have hm : dir_nentries s - loc = 0 := by omega
  rw [hm, vmsfs_readdir_loop]

theorem occupied_from_of_end (s : Vms) (loc : Nat) (hloc : dir_nentries s ≤ loc) :
    occupied_from s loc = [] := by
  unfold occupied_from
  have hm : dir_nentries s - loc = 0 := by omega
  rw [hm]
  rfl

theorem occupied_from_step (s : Vms) (loc : Nat) (hloc : loc < dir_nentries s) :
    occupied_from s loc =
      if (dir_get s.vms_dirblk loc).type ≠ DIR_TYPE_NONE then loc :: occupied_from s (loc + 1)
      else occupied_from s (loc + 1) := by
  unfold occupied_from
  obtain ⟨m, hm⟩ : ∃ m, dir_nentries s - loc = m + 1 := ⟨dir_nentries s - loc - 1, by omega⟩
  have hm2 : dir_nentries s - (loc + 1) = m := by omega
  rw [hm, hm2, List.range'_succ, List.filter_cons]
  by_cases hty : (dir_get s.vms_dirblk loc).type ≠ DIR_TYPE_NONE
  · rw [if_pos hty, if_pos (by simpa using hty)]
  · rw [if_neg hty, if_neg (by simpa using hty)]

/-- The loop of `dcvmtool_cmd_dir` from `loc`: it returns, and it has called
`vms_dirent_print` once for every occupied slot from `loc` on, in order. -/
theorem dcvmtool_cmd_dir_loop_eq (s : Vms) (v : Bool) (m : Nat) :
    ∀ (fuel loc nfiles total : Nat), dir_nentries s - loc = m → m + 1 ≤ fuel →
      ∃ outs t, dcvmtool_cmd_dir_loop s v fuel loc nfiles total =
          some (outs, nfiles + (occupied_from s loc).length, t) ∧
        (occupied_from s loc).map
          (fun i => (vms_dirent_print s.vms_fatblk (dir_get s.vms_dirblk i) v).1) =
            outs.map some ∧
        t = total + ((occupied_from s loc).map (fun i => (dir_get s.vms_dirblk i).size)).sum := by
  induction m with
  | zero =>
    intro fuel loc nfiles total hm hfuel
    obtain ⟨f, rfl⟩ : ∃ f, fuel = f + 1 := ⟨fuel - 1, by omega⟩
    have hend : dir_nentries s ≤ loc := by omega
    rw [dcvmtool_cmd_dir_loop, vmsfs_readdir_of_end s loc hend, occupied_from_of_end s loc hend]
    exact ⟨[], total, rfl, rfl, by simp⟩
  | succ m ih =>
    intro fuel loc nfiles total hm hfuel
    obtain ⟨f, rfl⟩ : ∃ f, fuel = f + 1 := ⟨fuel - 1, by omega⟩
    have hloc : loc < dir_nentries s := by omega
    rw [occupied_from_step s loc hloc]
    by_cases hty : (dir_get s.vms_dirblk loc).type ≠ DIR_TYPE_NONE
    · rw [if_pos hty]
      obtain ⟨out, hout⟩ := vms_dirent_print_isSome s.vms_fatblk (dir_get s.vms_dirblk loc) v
      obtain ⟨outs, t, h1, h2, h3⟩ := ih f (loc + 1) (nfiles + 1)
        (total + (dir_get s.vms_dirblk loc).size) (by omega) (by omega)
      rw [dcvmtool_cmd_dir_loop, vmsfs_readdir_of_occupied s loc hloc hty]
      dsimp only
      rw [hout]
      dsimp only
      rw [h1]
      refine ⟨out :: outs, t, ?_, ?_, ?_⟩
      · simp only [List.length_cons]
        have : nfiles + 1 + (occupied_from s (loc + 1)).length =
            nfiles + ((occupied_from s (loc + 1)).length + 1) := by omega
        rw [this]
      · rw [List.map_cons, List.map_cons, h2, hout]
      · rw [h3, List.map_cons, List.sum_cons]
        omega
    · rw [if_neg hty]
      have hty2 : (dir_get s.vms_dirblk loc).type = DIR_TYPE_NONE := by
        by_contra h; exact hty h
      obtain ⟨outs, t, h1, h2, h3⟩ := ih (f + 1) (loc + 1) nfiles total (by omega) (by omega)
      refine ⟨outs, t, ?_, h2, h3⟩
      rw [← h1]
      rw [dcvmtool_cmd_dir_loop, dcvmtool_cmd_dir_loop, vmsfs_readdir_of_none s loc hloc hty2]

/-- A walk that has ended within `f` blocks is not longer with more fuel. -/
theorem fat_chain_of_length_le (fat : List Nat) (f : Nat) :
    ∀ b, (fat_chain fat (f + 1) b).length ≤ f → fat_chain fat (f + 1) b = fat_chain fat f b := by
  induction f with
  | zero =>
    intro b h
    rw [fat_chain] at h
    simp at h
  | succ f ih =>
    intro b h
    rw [fat_chain] at h ⊢
    rw [fat_chain]
    cases hn : vms_nextblock fat b with
    | none => rfl
    | some c =>
      rw [hn] at h
      simp only [List.length_cons] at h
      dsimp only
      rw [ih c (by omega)]

/-- C24 (as amended). In a verbose listing `vms_dirent_print` returns `block_count` after it
has printed block numbers of the walk from `start_block` with `vms_nextblock`, in the order
of the walk and at most `block_count + 1` of them. When the walk has at least
`block_count + 2` blocks, it prints the over-chain diagnostic. When the walk has at most
`block_count` blocks, and so when the chain has exactly `block_count` blocks as well as when
it is shorter, it prints every block of the walk and no diagnostic. `dcvmtool_cmd_dir`
returns after it has printed every occupied entry in this way, in slot order. -/
theorem vms_dirent_print_chain_check (s : Vms) (dp : vmsfs_dirent) :
    (∃ out, vms_dirent_print s.vms_fatblk dp true = (some out, dp.size) ∧
      (∃ k, k ≤ dp.size + 1 ∧
        out.filter (fun x => decide (x ≠ FatItem.over)) =
          (fat_chain s.vms_fatblk k dp.block).map FatItem.blk) ∧
      (out.filter (fun x => decide (x ≠ FatItem.over))).length ≤ dp.size + 1 ∧
      ((fat_chain s.vms_fatblk (dp.size + 2) dp.block).length = dp.size + 2 →
        FatItem.over ∈ out) ∧
      ((fat_chain s.vms_fatblk (dp.size + 2) dp.block).length ≤ dp.size →
        out = (fat_chain s.vms_fatblk (dp.size + 2) dp.block).map FatItem.blk ∧
          FatItem.over ∉ out) ∧
      (chain_ok s.vms_fatblk dp.size dp.block = true →
        FatItem.over ∉ out ∧
          (1 ≤ dp.size →
            out = (chain_blocks s.vms_fatblk dp.size dp.block).map FatItem.blk))) ∧
    (∃ outs t, dcvmtool_cmd_dir s true = some (outs, (occupied_from s 0).length, t) ∧
      outs.map some = (occupied_from s 0).map
        (fun i => (vms_dirent_print s.vms_fatblk (dir_get s.vms_dirblk i) true).1)) := by
  have hfilter : (fat_listing s.vms_fatblk dp.size dp.block).filter
      (fun x => decide (x ≠ FatItem.over)) =
      (fat_chain s.vms_fatblk (dp.size + 1) dp.block).map FatItem.blk := by
    unfold fat_listing
    rw [List.filter_append]
    have h1 : ((fat_chain s.vms_fatblk (dp.size + 1) dp.block).map FatItem.blk).filter
        (fun x => decide (x ≠ FatItem.over)) =
        (fat_chain s.vms_fatblk (dp.size + 1) dp.block).map FatItem.blk := by
      rw [List.filter_eq_self]
      intro x hx
      obtain ⟨y, _, rfl⟩ := List.mem_map.mp hx
      simp
    have h2 : (if (fat_chain s.vms_fatblk (dp.size + 2) dp.block).length = dp.size + 2
        then [FatItem.over] else []).filter (fun x => decide (x ≠ FatItem.over)) = [] := by
      split <;> simp
    rw [h1, h2, List.append_nil]
  constructor
  · refine ⟨fat_listing s.vms_fatblk dp.size dp.block, vms_dirent_print_eq _ dp,
      ⟨dp.size + 1, Nat.le_refl _, hfilter⟩, ?_, ?_, ?_, ?_⟩
    · rw [hfilter, List.length_map]
      exact fat_chain_length_le _ _ _
    · intro h
      unfold fat_listing
      rw [if_pos h]
      simp
    · intro h
      have h1 : fat_chain s.vms_fatblk (dp.size + 1 + 1) dp.block =
          fat_chain s.vms_fatblk (dp.size + 1) dp.block :=
        fat_chain_of_length_le _ (dp.size + 1) dp.block (Nat.le_succ_of_le h)
      have h2 : fat_listing s.vms_fatblk dp.size dp.block =
          (fat_chain s.vms_fatblk (dp.size + 2) dp.block).map FatItem.blk := by
        unfold fat_listing
        rw [if_neg (by omega), List.append_nil]
        exact congrArg (List.map FatItem.blk) h1.symm
      rw [h2]
      exact ⟨rfl, by simp⟩
    · intro hok
      exact fat_listing_of_chain_ok _ _ _ hok
  · obtain ⟨outs, t, h1, h2, _⟩ := dcvmtool_cmd_dir_loop_eq s true (dir_nentries s)
      (dir_nentries s + 1) 0 0 0 (by omega) (by omega)
    refine ⟨outs, t, ?_, h2.symm⟩
    unfold dcvmtool_cmd_dir
    rw [h1, Nat.zero_add]

/-- C24, counterexample. In the verbose listing of a card with two files, the entry that
declares three blocks and has a chain of one block, 2, gets `FAT: 2` without a diagnostic,
although its chain length does not match its block count; the entry that declares one block
and has the chain 3 → 4 → 5 gets the diagnostic, after two block numbers. -/
theorem vms_dirent_print_mismatch_silent :
    occupied_from listCard 0 = [2, 5] ∧
    ((dir_get listCard.vms_dirblk 2).size = 3 ∧
      fat_chain listCard.vms_fatblk 257 (dir_get listCard.vms_dirblk 2).block = [2] ∧
      chain_ok listCard.vms_fatblk 3 (dir_get listCard.vms_dirblk 2).block = false) ∧
    ((dir_get listCard.vms_dirblk 5).size = 1 ∧
      fat_chain listCard.vms_fatblk 257 (dir_get listCard.vms_dirblk 5).block = [3, 4, 5]) ∧
    vms_dirent_print listCard.vms_fatblk (dir_get listCard.vms_dirblk 2) true =
      (some [FatItem.blk 2], 3) ∧
    vms_dirent_print listCard.vms_fatblk (dir_get listCard.vms_dirblk 5) true =
      (some [FatItem.blk 3, FatItem.blk 4, FatItem.over], 1) ∧
    dcvmtool_cmd_dir listCard true =
      some ([[FatItem.blk 2], [FatItem.blk 3, FatItem.blk 4, FatItem.over]], 2, 4) := by
  decide!

end Dcvmstools
